import Mathlib

/-!
# eip1559txpool: a verification development of `src/eip1559sort.cpp`

The program keeps a pool of transactions ordered by the bribe they pay to the
miner at the current base fee.  `NaiveTxPool` keeps one ordered map and rebuilds
it on every change of the base fee; `FastTxPool` keeps three ordered maps and
only re-files the transactions whose regime changes.

Embedding.

* `int` is modelled by `Int`.  Signed overflow is undefined behaviour in C++,
  so the model is the program on runs in which no arithmetic overflows; the
  constant `INT32_MAX` is kept because the source uses it as a sentinel.
* `std::map<Key, Tx>` is modelled by the list of its entries in ascending key
  order (`TxMap`).  `emplace` is the ordered insertion that leaves the map
  alone when the key is already there, `rbegin()` is the last entry,
  `erase(prev(end()))` drops the last entry, `erase(find(k))` removes the entry
  with key `k`, `lower_bound(k)` is the suffix starting at the first entry whose
  key is not less than `k`.
* `assert` failing and undefined behaviour (`erase(end())`, reading `rbegin()`
  of an empty map) are results of type `Fault`.
-/

namespace Eip1559

/-! ## Transactions and keys -/

/-- The sentinel `INT32_MAX` of the source. -/
def INT32_MAX : Int := 2147483647

/-- The struct `Tx`. -/
structure Tx where
  fee_cap : Int
  max_miner_bribe : Int
  hash : Int
deriving DecidableEq, Repr

/-- The method `Tx::miner_bribe`. -/
def Tx.miner_bribe (tx : Tx) (base_fee : Int) : Int :=
  min (tx.fee_cap - base_fee) tx.max_miner_bribe

/-- The type `Key = tuple<int, int, int>`. -/
abbrev Key : Type := Int × Int × Int

/-- The order of `tuple<int, int, int>`: lexicographic, as `std::map` uses it. -/
def Key.lt (a b : Key) : Prop :=
  a.1 < b.1 ∨ (a.1 = b.1 ∧ (a.2.1 < b.2.1 ∨ (a.2.1 = b.2.1 ∧ a.2.2 < b.2.2)))

instance Key.decLt (a b : Key) : Decidable (Key.lt a b) := by
  unfold Key.lt
  infer_instance

/-! ## Ordered maps -/

/-- A `std::map<Key, Tx>`: its entries in ascending key order. -/
abbrev TxMap : Type := List (Key × Tx)

/-- The call `m.emplace(k, v)`: ordered insertion, nothing happens when the key
is present. -/
def TxMap.emplace : TxMap → Key → Tx → TxMap
  | [], k, v => [(k, v)]
  | e :: rest, k, v =>
    if Key.lt k e.1 then (k, v) :: e :: rest
    else if k = e.1 then e :: rest
    else e :: TxMap.emplace rest k v

/-- The call `m.erase(m.find(k))`: removes the entry with key `k`; `none` when
there is none (`find` returns `end()` and erasing it is undefined). -/
def TxMap.eraseKey : TxMap → Key → Option TxMap
  | [], _ => none
  | e :: rest, k =>
    if e.1 = k then some rest
    else (TxMap.eraseKey rest k).map (fun r => e :: r)

/-- The entries from `m.lower_bound(lo)` up to, not including,
`m.lower_bound(hi)`, in iteration order. -/
def TxMap.range (m : TxMap) (lo hi : Key) : TxMap :=
  (m.dropWhile (fun e => decide (Key.lt e.1 lo))).takeWhile (fun e => decide (Key.lt e.1 hi))

/-- How a call can go wrong. -/
inductive Fault where
  /-- An `assert` failed. -/
  | assertion
  /-- Undefined behaviour: an `end()` iterator was erased or dereferenced. -/
  | undefined
deriving DecidableEq, Repr

deriving instance DecidableEq for Except

/-! ## NaiveTxPool -/

/-- The struct `NaiveTxPool` (with the field `base_fee` of `TxPool`). -/
structure NaiveTxPool where
  base_fee : Int
  sbst : TxMap
deriving DecidableEq, Repr

/-- The key `Key(tx.miner_bribe(base_fee), -tx.fee_cap, tx.hash)`. -/
def naiveKey (base_fee : Int) (tx : Tx) : Key :=
  (tx.miner_bribe base_fee, -tx.fee_cap, tx.hash)

/-- An empty `NaiveTxPool` whose `base_fee` has been set. -/
def NaiveTxPool.empty (base_fee : Int) : NaiveTxPool := ⟨base_fee, []⟩

/-- The method `NaiveTxPool::add_tx`. -/
def NaiveTxPool.add_tx (p : NaiveTxPool) (tx : Tx) : NaiveTxPool :=
  { p with sbst := p.sbst.emplace (naiveKey p.base_fee tx) tx }

/-- The method `NaiveTxPool::pop_most_profitable_tx`. -/
def NaiveTxPool.pop_most_profitable_tx (p : NaiveTxPool) : Except Fault (Tx × NaiveTxPool) :=
  match p.sbst.getLast? with
  | none => .error .assertion
  | some e => .ok (e.2, { p with sbst := p.sbst.dropLast })

/-- The loop of `NaiveTxPool::reconstruct`: every entry is emplaced into
`new_sbst` under its key at the new base fee. -/
def NaiveTxPool.rebuild (base_fee : Int) : TxMap → TxMap → TxMap
  | [], new_sbst => new_sbst
  | e :: rest, new_sbst =>
    NaiveTxPool.rebuild base_fee rest (new_sbst.emplace (naiveKey base_fee e.2) e.2)

/-- The method `NaiveTxPool::reconstruct`. -/
def NaiveTxPool.reconstruct (p : NaiveTxPool) (new_base_fee : Int) : NaiveTxPool :=
  { base_fee := new_base_fee, sbst := NaiveTxPool.rebuild new_base_fee p.sbst [] }

/-- The method `NaiveTxPool::size`. -/
def NaiveTxPool.size (p : NaiveTxPool) : Nat := p.sbst.length

/-! ## FastTxPool -/

/-- The struct `FastTxPool` (with the field `base_fee` of `TxPool`). -/
structure FastTxPool where
  base_fee : Int
  sbst_static : TxMap
  sbst_dynamic : TxMap
  sbst_decision : TxMap
deriving DecidableEq, Repr

/-- The key `Key(tx.max_miner_bribe, -tx.fee_cap, tx.hash)` of `sbst_static`. -/
def staticKey (tx : Tx) : Key := (tx.max_miner_bribe, -tx.fee_cap, tx.hash)

/-- The key `Key(tx.fee_cap, -tx.fee_cap, tx.hash)` of `sbst_dynamic`. -/
def dynamicKey (tx : Tx) : Key := (tx.fee_cap, -tx.fee_cap, tx.hash)

/-- The key `Key(tx.fee_cap - tx.max_miner_bribe, -tx.fee_cap, tx.hash)` of
`sbst_decision`. -/
def decisionKey (tx : Tx) : Key := (tx.fee_cap - tx.max_miner_bribe, -tx.fee_cap, tx.hash)

/-- An empty `FastTxPool` whose `base_fee` has been set. -/
def FastTxPool.empty (base_fee : Int) : FastTxPool := ⟨base_fee, [], [], []⟩

/-- The method `FastTxPool::add_tx`. -/
def FastTxPool.add_tx (p : FastTxPool) (tx : Tx) : FastTxPool :=
  let q : FastTxPool :=
    if tx.fee_cap - p.base_fee ≥ tx.max_miner_bribe then
      { p with sbst_static := p.sbst_static.emplace (staticKey tx) tx }
    else
      { p with sbst_dynamic := p.sbst_dynamic.emplace (dynamicKey tx) tx }
  { q with sbst_decision := q.sbst_decision.emplace (decisionKey tx) tx }

/-- The first part of `FastTxPool::pop_most_profitable_tx`: the choice of `tx`
and its removal from its own map. -/
def FastTxPool.pop_choice (p : FastTxPool) : Except Fault (Tx × FastTxPool) :=
  match p.sbst_static.getLast?, p.sbst_dynamic.getLast? with
  | none, none => .error .undefined
  | none, some d => .ok (d.2, { p with sbst_dynamic := p.sbst_dynamic.dropLast })
  | some s, none => .ok (s.2, { p with sbst_static := p.sbst_static.dropLast })
  | some s, some d =>
    if s.2.miner_bribe p.base_fee > d.2.miner_bribe p.base_fee then
      .ok (s.2, { p with sbst_static := p.sbst_static.dropLast })
    else
      .ok (d.2, { p with sbst_dynamic := p.sbst_dynamic.dropLast })

/-- The method `FastTxPool::pop_most_profitable_tx`. -/
def FastTxPool.pop_most_profitable_tx (p : FastTxPool) : Except Fault (Tx × FastTxPool) :=
  if p.sbst_decision.length = 0 then .error .assertion
  else
    match p.pop_choice with
    | .error f => .error f
    | .ok (tx, q) =>
      match q.sbst_decision.eraseKey (decisionKey tx) with
      | none => .error .undefined
      | some d => .ok (tx, { q with sbst_decision := d })

/-- The body of the first loop of `FastTxPool::reconstruct` (from S to D). -/
def FastTxPool.move_up (prev_base_fee : Int) (p : FastTxPool) (tx : Tx) :
    Except Fault FastTxPool :=
  if tx.fee_cap - tx.max_miner_bribe ≥ prev_base_fee then
    match p.sbst_static.eraseKey (staticKey tx) with
    | none => .error .undefined
    | some m => .ok (FastTxPool.add_tx { p with sbst_static := m } tx)
  else .ok p

/-- The body of the second loop of `FastTxPool::reconstruct` (from D to S). -/
def FastTxPool.move_down (prev_base_fee : Int) (p : FastTxPool) (tx : Tx) :
    Except Fault FastTxPool :=
  if tx.fee_cap - tx.max_miner_bribe < prev_base_fee then
    match p.sbst_dynamic.eraseKey (dynamicKey tx) with
    | none => .error .undefined
    | some m => .ok (FastTxPool.add_tx { p with sbst_dynamic := m } tx)
  else .ok p

/-- The loop `for(auto pointer = left_tx; pointer != right_tx; pointer++)`: the
body is run on the entries between the two iterators, in order.  The body leaves
`sbst_decision` as it is whenever each of its entries sits under `decisionKey`
of its transaction (the `emplace` of `add_tx` then finds the key), which is so
in every state the three methods produce; the entries are therefore the ones
between the iterators when the loop starts. -/
def FastTxPool.for_range (body : FastTxPool → Tx → Except Fault FastTxPool) :
    TxMap → FastTxPool → Except Fault FastTxPool
  | [], p => .ok p
  | e :: rest, p =>
    match body p e.2 with
    | .error f => .error f
    | .ok q => FastTxPool.for_range body rest q

/-- The method `FastTxPool::reconstruct`. -/
def FastTxPool.reconstruct (p : FastTxPool) (new_base_fee : Int) : Except Fault FastTxPool :=
  let prev_base_fee := p.base_fee
  let q : FastTxPool := { p with base_fee := new_base_fee }
  if prev_base_fee < new_base_fee then
    FastTxPool.for_range (FastTxPool.move_up prev_base_fee)
      (q.sbst_decision.range (prev_base_fee, -INT32_MAX, 0) (new_base_fee, -INT32_MAX, 0)) q
  else if new_base_fee < prev_base_fee then
    FastTxPool.for_range (FastTxPool.move_down prev_base_fee)
      (q.sbst_decision.range (new_base_fee, -INT32_MAX, 0) (prev_base_fee, -INT32_MAX, 0)) q
  else .ok q

/-- The method `FastTxPool::size`. -/
def FastTxPool.size (p : FastTxPool) : Nat := p.sbst_decision.length

/-- The method `FastTxPool::_check_invalid`: `true` when no `assert(false)` is
reached. -/
def FastTxPool.check_invalid (p : FastTxPool) : Bool :=
  p.sbst_static.all (fun e => !decide (e.2.fee_cap - e.2.max_miner_bribe < p.base_fee)) &&
  p.sbst_dynamic.all (fun e => !decide (e.2.fee_cap - e.2.max_miner_bribe ≥ p.base_fee))

/-! ## Ordered and keyed maps -/

/-- The entries are in strictly ascending key order, as in every `std::map`. -/
def TxMap.Sorted (m : TxMap) : Prop := List.Pairwise (fun a b => Key.lt a.1 b.1) m

instance TxMap.decSorted (m : TxMap) : Decidable (TxMap.Sorted m) := by
  unfold TxMap.Sorted
  infer_instance

/-- The map has an entry with key `k`. -/
def TxMap.HasKey (m : TxMap) (k : Key) : Prop := ∃ e ∈ m, e.1 = k

/-- The transaction `tx` is the value of some entry of the map. -/
def TxMap.Holds (m : TxMap) (tx : Tx) : Prop := ∃ e ∈ m, e.2 = tx

instance TxMap.decHolds (m : TxMap) (tx : Tx) : Decidable (TxMap.Holds m tx) := by
  unfold TxMap.Holds
  infer_instance

/-- Every entry of the map sits under the key that `key` computes for its
transaction. -/
def TxMap.KeyedBy (key : Tx → Key) (m : TxMap) : Prop := ∀ e ∈ m, e.1 = key e.2

/-- The third component of the key is the hash of the transaction, as in all
the keys of the program. -/
def HashKey (key : Tx → Key) : Prop := ∀ t, (key t).2.2 = t.hash

/-- No transaction of the map other than `tx` itself has the hash of `tx`. -/
def TxMap.HashFree (m : TxMap) (tx : Tx) : Prop := ∀ e ∈ m, e.2.hash = tx.hash → e.2 = tx

/-! ## Well-formed states of FastTxPool -/

/-- The Capped regime: `tx.fee_cap - base_fee >= tx.max_miner_bribe`, the test
of `add_tx`. -/
def Tx.capped (tx : Tx) (base_fee : Int) : Prop := tx.fee_cap - base_fee ≥ tx.max_miner_bribe

instance Tx.decCapped (tx : Tx) (b : Int) : Decidable (tx.capped b) := by
  unfold Tx.capped
  infer_instance

/-- The three maps fit together: they are ordered, every entry sits under the
key `add_tx` computes for it, and the transactions of `sbst_decision` are those
of `sbst_static` and `sbst_dynamic`, none of them in both. -/
structure FastTxPool.Linked (p : FastTxPool) : Prop where
  static_sorted : p.sbst_static.Sorted
  dynamic_sorted : p.sbst_dynamic.Sorted
  decision_sorted : p.sbst_decision.Sorted
  static_key : p.sbst_static.KeyedBy staticKey
  dynamic_key : p.sbst_dynamic.KeyedBy dynamicKey
  decision_key : p.sbst_decision.KeyedBy decisionKey
  decision_cover : ∀ e ∈ p.sbst_decision, p.sbst_static.Holds e.2 ∨ p.sbst_dynamic.Holds e.2
  static_cover : ∀ e ∈ p.sbst_static, p.sbst_decision.Holds e.2
  dynamic_cover : ∀ e ∈ p.sbst_dynamic, p.sbst_decision.Holds e.2
  disjoint : ∀ e ∈ p.sbst_static, ¬ p.sbst_dynamic.Holds e.2

/-- The regime invariant, the condition `_check_invalid` asserts: the
transactions of `sbst_static` are Capped at the current base fee and those of
`sbst_dynamic` are not. -/
structure FastTxPool.Regime (p : FastTxPool) : Prop where
  static_capped : ∀ e ∈ p.sbst_static, e.2.capped p.base_fee
  dynamic_uncapped : ∀ e ∈ p.sbst_dynamic, ¬ e.2.capped p.base_fee

/-- A well-formed state: the maps fit together and the regime invariant holds. -/
structure FastTxPool.WF (p : FastTxPool) : Prop where
  linked : p.Linked
  regime : p.Regime

/-- The held transactions have pairwise distinct hashes. -/
def FastTxPool.DistinctHashes (p : FastTxPool) : Prop :=
  ∀ a ∈ p.sbst_decision, ∀ b ∈ p.sbst_decision, a.2.hash = b.2.hash → a.2 = b.2

/-- The transaction is held by the pool. -/
def FastTxPool.Held (p : FastTxPool) (tx : Tx) : Prop := p.sbst_decision.Holds tx

instance FastTxPool.decLinked (p : FastTxPool) : Decidable p.Linked :=
  decidable_of_iff
    (p.sbst_static.Sorted ∧ p.sbst_dynamic.Sorted ∧ p.sbst_decision.Sorted ∧
      (∀ e ∈ p.sbst_static, e.1 = staticKey e.2) ∧ (∀ e ∈ p.sbst_dynamic, e.1 = dynamicKey e.2) ∧
      (∀ e ∈ p.sbst_decision, e.1 = decisionKey e.2) ∧
      (∀ e ∈ p.sbst_decision, p.sbst_static.Holds e.2 ∨ p.sbst_dynamic.Holds e.2) ∧
      (∀ e ∈ p.sbst_static, p.sbst_decision.Holds e.2) ∧
      (∀ e ∈ p.sbst_dynamic, p.sbst_decision.Holds e.2) ∧
      (∀ e ∈ p.sbst_static, ¬ p.sbst_dynamic.Holds e.2))
    ⟨fun ⟨a, b, c, d, e, f, g, h, i, j⟩ => ⟨a, b, c, d, e, f, g, h, i, j⟩,
     fun ⟨a, b, c, d, e, f, g, h, i, j⟩ => ⟨a, b, c, d, e, f, g, h, i, j⟩⟩

instance FastTxPool.decRegime (p : FastTxPool) : Decidable p.Regime :=
  decidable_of_iff
    ((∀ e ∈ p.sbst_static, e.2.capped p.base_fee) ∧
      (∀ e ∈ p.sbst_dynamic, ¬ e.2.capped p.base_fee))
    ⟨fun ⟨a, b⟩ => ⟨a, b⟩, fun ⟨a, b⟩ => ⟨a, b⟩⟩

instance FastTxPool.decWF (p : FastTxPool) : Decidable p.WF :=
  decidable_of_iff (p.Linked ∧ p.Regime) ⟨fun ⟨a, b⟩ => ⟨a, b⟩, fun ⟨a, b⟩ => ⟨a, b⟩⟩

instance FastTxPool.decDistinctHashes (p : FastTxPool) : Decidable p.DistinctHashes := by
  unfold FastTxPool.DistinctHashes
  infer_instance

instance FastTxPool.decHeld (p : FastTxPool) (tx : Tx) : Decidable (p.Held tx) := by
  unfold FastTxPool.Held
  infer_instance

/-! ## Well-formed states of NaiveTxPool -/

/-- A well-formed state of NaiveTxPool: the map is ordered and every entry sits
under the key `add_tx` computes for it at the current base fee. -/
structure NaiveTxPool.WF (p : NaiveTxPool) : Prop where
  sorted : p.sbst.Sorted
  keyed : p.sbst.KeyedBy (naiveKey p.base_fee)

instance NaiveTxPool.decWF (p : NaiveTxPool) : Decidable p.WF :=
  decidable_of_iff (p.sbst.Sorted ∧ ∀ e ∈ p.sbst, e.1 = naiveKey p.base_fee e.2)
    ⟨fun ⟨a, b⟩ => ⟨a, b⟩, fun ⟨a, b⟩ => ⟨a, b⟩⟩

/-- The transaction is held by the pool. -/
def NaiveTxPool.Held (p : NaiveTxPool) (tx : Tx) : Prop := p.sbst.Holds tx

instance NaiveTxPool.decHeld (p : NaiveTxPool) (tx : Tx) : Decidable (p.Held tx) := by
  unfold NaiveTxPool.Held
  infer_instance

/-- In the key order of NaiveTxPool at base fee `b`, `a` does not come after
`w`. -/
def naiveLe (b : Int) (a w : Tx) : Prop := ¬ Key.lt (naiveKey b w) (naiveKey b a)

/-- What the extraction of FastTxPool picks: a transaction of `sbst_static` that
is last in key order there and pays strictly more than every transaction of
`sbst_dynamic`, or a transaction of `sbst_dynamic` that is last in key order
there and pays at least as much as every transaction of `sbst_static`. -/
def FastTxPool.Winner (p : FastTxPool) (w : Tx) : Prop :=
  (p.sbst_static.Holds w ∧ (∀ t, p.sbst_static.Holds t → naiveLe p.base_fee t w) ∧
    (∀ t, p.sbst_dynamic.Holds t → t.miner_bribe p.base_fee < w.miner_bribe p.base_fee)) ∨
  (p.sbst_dynamic.Holds w ∧ (∀ t, p.sbst_dynamic.Holds t → naiveLe p.base_fee t w) ∧
    (∀ t, p.sbst_static.Holds t → t.miner_bribe p.base_fee ≤ w.miner_bribe p.base_fee))

/-! ## The scenario of the specification -/

/-- Item 1 of the scenario. -/
def tx1 : Tx := ⟨50, 20, 1⟩

/-- Item 2 of the scenario. -/
def tx2 : Tx := ⟨50, 40, 2⟩

/-- Item 3 of the scenario. -/
def tx3 : Tx := ⟨30, 25, 3⟩

/-- The pool of the scenario after the three insertions at base fee 10. -/
def scenario0 : FastTxPool :=
  (((FastTxPool.empty 10).add_tx tx1).add_tx tx2).add_tx tx3

/-- The state of the scenario after one extraction and `reconstruct(35)`. -/
def scenarioReconstructed : Except Fault FastTxPool :=
  match scenario0.pop_most_profitable_tx with
  | .error f => .error f
  | .ok (_, q) => q.reconstruct 35

/-- The second extraction of the scenario: one extraction, `reconstruct(35)`,
and the extraction after it. -/
def scenarioSecond : Except Fault (Tx × FastTxPool) :=
  match scenarioReconstructed with
  | .error f => .error f
  | .ok r => r.pop_most_profitable_tx

/-- A reachable pool: the scenario after its first extraction and
`reconstruct(35)`. -/
def scenario2 : FastTxPool :=
  match scenario0.pop_most_profitable_tx with
  | .error _ => scenario0
  | .ok (_, q) =>
    match q.reconstruct 35 with
    | .error _ => q
    | .ok r => r

/-! ## Pools with ties -/

/-- Two transactions that pay the same at base fee 10 and differ in `fee_cap`. -/
def tieCapFast : FastTxPool := ((FastTxPool.empty 10).add_tx ⟨50, 20, 1⟩).add_tx ⟨60, 20, 2⟩

/-- The same two transactions in a NaiveTxPool. -/
def tieCapNaive : NaiveTxPool := ((NaiveTxPool.empty 10).add_tx ⟨50, 20, 1⟩).add_tx ⟨60, 20, 2⟩

/-- Two transactions that pay the same at base fee 10, have the same `fee_cap`
and differ in `hash`. -/
def tieHashFast : FastTxPool := ((FastTxPool.empty 10).add_tx ⟨50, 20, 1⟩).add_tx ⟨50, 20, 2⟩

/-- The same two transactions in a NaiveTxPool. -/
def tieHashNaive : NaiveTxPool := ((NaiveTxPool.empty 10).add_tx ⟨50, 20, 1⟩).add_tx ⟨50, 20, 2⟩

/-! ## Re-filing a transaction -/

/-- The state `q` is `p` with the held transaction `tx` filed again according
to the base fee: the maps of `q` fit together, `sbst_decision` and `base_fee`
are those of `p`, `tx` is in `sbst_static` exactly when it is Capped and in
`sbst_dynamic` exactly when it is not, and every other transaction is where it
was. -/
def FastTxPool.Refiled (p q : FastTxPool) (tx : Tx) : Prop :=
  q.Linked ∧ q.sbst_decision = p.sbst_decision ∧ q.base_fee = p.base_fee ∧
  (∀ t, q.sbst_static.Holds t ↔
    (t = tx ∧ tx.capped p.base_fee) ∨ (t ≠ tx ∧ p.sbst_static.Holds t)) ∧
  (∀ t, q.sbst_dynamic.Holds t ↔
    (t = tx ∧ ¬ tx.capped p.base_fee) ∨ (t ≠ tx ∧ p.sbst_dynamic.Holds t))

/-- The loop has run its body on an entry of `done` whose transaction is `t`,
and the guard `g` of the body let `t` through. -/
def Moved (g : Tx → Prop) (done : TxMap) (t : Tx) : Prop := ∃ a ∈ done, a.2 = t ∧ g t

/-- The state `s` is `s0` with the transactions moved by the loop over `done`
filed again according to the base fee: `sbst_decision` and `base_fee` are those
of `s0`, a moved transaction is in `sbst_static` exactly when it is Capped and
in `sbst_dynamic` exactly when it is not, and every other transaction is where
it was in `s0`. -/
def FastTxPool.RefiledAll (g : Tx → Prop) (s0 : FastTxPool) (done : TxMap) (s : FastTxPool) :
    Prop :=
  s.Linked ∧ s.sbst_decision = s0.sbst_decision ∧ s.base_fee = s0.base_fee ∧
  (∀ t, s.sbst_static.Holds t ↔
    (Moved g done t ∧ t.capped s0.base_fee) ∨ (¬ Moved g done t ∧ s0.sbst_static.Holds t)) ∧
  (∀ t, s.sbst_dynamic.Holds t ↔
    (Moved g done t ∧ ¬ t.capped s0.base_fee) ∨ (¬ Moved g done t ∧ s0.sbst_dynamic.Holds t))

/-! ## Reachable states -/

/-- Every held transaction has `fee_cap` below `INT32_MAX`. -/
def FastTxPool.CapsBelowMax (p : FastTxPool) : Prop :=
  ∀ e ∈ p.sbst_decision, e.2.fee_cap < INT32_MAX

instance FastTxPool.decCapsBelowMax (p : FastTxPool) : Decidable p.CapsBelowMax := by
  unfold FastTxPool.CapsBelowMax
  infer_instance

/-- The transaction `t` is held and `fee_cap - max_miner_bribe` lies in the
half-open interval between the base fee of `p` and the new base fee `b1`. -/
def FastTxPool.Flips (p : FastTxPool) (b1 : Int) (t : Tx) : Prop :=
  p.Held t ∧
    ((p.base_fee ≤ t.fee_cap - t.max_miner_bribe ∧ t.fee_cap - t.max_miner_bribe < b1) ∨
     (b1 ≤ t.fee_cap - t.max_miner_bribe ∧ t.fee_cap - t.max_miner_bribe < p.base_fee))

/-- The states of FastTxPool reached from an empty pool, whose base fee has been
set, by `add_tx`, `reconstruct` and `pop_most_profitable_tx`, where every
transaction added has `fee_cap` below `INT32_MAX` and a hash that no held
transaction has. -/
inductive FastTxPool.Reachable : FastTxPool → Prop where
  | empty (base_fee : Int) : FastTxPool.Reachable (FastTxPool.empty base_fee)
  | add_tx {p : FastTxPool} (tx : Tx) (h : FastTxPool.Reachable p)
      (hcap : tx.fee_cap < INT32_MAX) (hfresh : ∀ e ∈ p.sbst_decision, e.2.hash ≠ tx.hash) :
      FastTxPool.Reachable (p.add_tx tx)
  | reconstruct {p q : FastTxPool} (new_base_fee : Int) (h : FastTxPool.Reachable p)
      (hq : p.reconstruct new_base_fee = .ok q) : FastTxPool.Reachable q
  | pop {p q : FastTxPool} {w : Tx} (h : FastTxPool.Reachable p)
      (hq : p.pop_most_profitable_tx = .ok (w, q)) : FastTxPool.Reachable q

/-! ## The sentinel of the range scan -/

/-- A transaction with `fee_cap = INT32_MAX` and a negative hash; all three
fields are `int` values and so is every difference the program forms of them
at base fees 0 and 1. -/
def sentinelTx : Tx := ⟨2147483647, 2147483647, -1⟩

/-- The pool at base fee 0 that holds `sentinelTx` and nothing else. -/
def sentinelPool : FastTxPool := (FastTxPool.empty 0).add_tx sentinelTx

/-! ## Runs of operations on both pools -/

/-- An operation of the interface `TxPool`. -/
inductive Op where
  | add_tx (tx : Tx)
  | reconstruct (new_base_fee : Int)
  | pop
deriving DecidableEq, Repr

/-- A sequence of operations run on a FastTxPool: the transactions returned by
the extractions, in order, and the fee earned, the sum of `miner_bribe` of each
returned transaction at the base fee of its extraction (as `test_txpool`
accumulates it). -/
def FastTxPool.run : List Op → FastTxPool → Except Fault (List Tx × Int)
  | [], _ => .ok ([], 0)
  | .add_tx tx :: ops, p => FastTxPool.run ops (p.add_tx tx)
  | .reconstruct b :: ops, p =>
    match p.reconstruct b with
    | .error f => .error f
    | .ok q => FastTxPool.run ops q
  | .pop :: ops, p =>
    match p.pop_most_profitable_tx with
    | .error f => .error f
    | .ok (w, q) =>
      match FastTxPool.run ops q with
      | .error f => .error f
      | .ok (ws, fee) => .ok (w :: ws, w.miner_bribe p.base_fee + fee)

/-- The same sequence of operations run on a NaiveTxPool. -/
def NaiveTxPool.run : List Op → NaiveTxPool → Except Fault (List Tx × Int)
  | [], _ => .ok ([], 0)
  | .add_tx tx :: ops, p => NaiveTxPool.run ops (p.add_tx tx)
  | .reconstruct b :: ops, p => NaiveTxPool.run ops (p.reconstruct b)
  | .pop :: ops, p =>
    match p.pop_most_profitable_tx with
    | .error f => .error f
    | .ok (w, q) =>
      match NaiveTxPool.run ops q with
      | .error f => .error f
      | .ok (ws, fee) => .ok (w :: ws, w.miner_bribe p.base_fee + fee)

/-- The last entry of `sbst_static` and the last entry of `sbst_dynamic` pay the
same and have the same `fee_cap`, and the one of `sbst_static` has the larger
hash: the case in which the comparison of `FastTxPool::pop_most_profitable_tx`
and the key order of NaiveTxPool pick different transactions. -/
def FastTxPool.crossTie (p : FastTxPool) : Bool :=
  match p.sbst_static.getLast?, p.sbst_dynamic.getLast? with
  | some s, some d =>
    decide (s.2.miner_bribe p.base_fee = d.2.miner_bribe p.base_fee ∧
      s.2.fee_cap = d.2.fee_cap ∧ d.2.hash < s.2.hash)
  | _, _ => false

/-- The sequence of operations, run on the FastTxPool `p`, adds only
transactions with `fee_cap` below `INT32_MAX` and a hash no held transaction
has, extracts only from a non-empty pool, and meets no `crossTie` at an
extraction.  Nothing is asked after a call that fails. -/
def FastTxPool.admissible : List Op → FastTxPool → Bool
  | [], _ => true
  | .add_tx tx :: ops, p =>
    decide (tx.fee_cap < INT32_MAX) &&
      p.sbst_decision.all (fun e => decide (e.2.hash ≠ tx.hash)) &&
      FastTxPool.admissible ops (p.add_tx tx)
  | .reconstruct b :: ops, p =>
    match p.reconstruct b with
    | .error _ => true
    | .ok q => FastTxPool.admissible ops q
  | .pop :: ops, p =>
    decide (0 < p.size) && !p.crossTie &&
      match p.pop_most_profitable_tx with
      | .error _ => true
      | .ok (_, q) => FastTxPool.admissible ops q

/-- The two pools are at the same base fee, are well-formed and hold the same
transactions, with pairwise distinct hashes and `fee_cap`s below `INT32_MAX`. -/
structure Sim (n : NaiveTxPool) (p : FastTxPool) : Prop where
  base_fee : n.base_fee = p.base_fee
  naive_wf : n.WF
  fast_wf : p.WF
  distinct : p.DistinctHashes
  caps : p.CapsBelowMax
  held : ∀ t, n.Held t ↔ p.Held t

/-- Operations on which the two pools return different transactions and earn
different fees: two transactions that tie at base fee 10, one Capped and one
not, an extraction, a lower base fee and a second extraction. -/
def divergingOps : List Op :=
  [.add_tx ⟨20, 10, 2⟩, .add_tx ⟨20, 20, 1⟩, .pop, .reconstruct 5, .pop]

/-- Operations of the scenario of the specification, with an extraction at the
end for every transaction. -/
def scenarioOps : List Op :=
  [.add_tx tx1, .add_tx tx2, .add_tx tx3, .pop, .reconstruct 35, .pop, .reconstruct 3, .pop]

/-- The state of a FastTxPool after a sequence of operations. -/
def FastTxPool.after : List Op → FastTxPool → Except Fault FastTxPool
  | [], p => .ok p
  | .add_tx tx :: ops, p => FastTxPool.after ops (p.add_tx tx)
  | .reconstruct b :: ops, p =>
    match p.reconstruct b with
    | .error f => .error f
    | .ok q => FastTxPool.after ops q
  | .pop :: ops, p =>
    match p.pop_most_profitable_tx with
    | .error f => .error f
    | .ok (_, q) => FastTxPool.after ops q

/-- The state of a NaiveTxPool after a sequence of operations. -/
def NaiveTxPool.after : List Op → NaiveTxPool → Except Fault NaiveTxPool
  | [], p => .ok p
  | .add_tx tx :: ops, p => NaiveTxPool.after ops (p.add_tx tx)
  | .reconstruct b :: ops, p => NaiveTxPool.after ops (p.reconstruct b)
  | .pop :: ops, p =>
    match p.pop_most_profitable_tx with
    | .error f => .error f
    | .ok (_, q) => NaiveTxPool.after ops q

/-- Insertions and changes of the base fee only, after which the two pools hold
two transactions that tie at base fee 10, one Capped and one not. -/
def insertOps : List Op :=
  [.add_tx ⟨20, 10, 2⟩, .reconstruct 12, .add_tx ⟨20, 20, 1⟩, .reconstruct 10]

/-! ## Facts about the key order -/

theorem Key.lt_irrefl (a : Key) : ¬ Key.lt a a := by
  unfold Key.lt; omega

theorem Key.lt_trans {a b c : Key} (h1 : Key.lt a b) (h2 : Key.lt b c) : Key.lt a c := by
  unfold Key.lt at *; omega

theorem Key.lt_asymm {a b : Key} (h1 : Key.lt a b) : ¬ Key.lt b a := by
  unfold Key.lt at *; omega

theorem Key.eq_of_not_lt {a b : Key} (h1 : ¬ Key.lt a b) (h2 : ¬ Key.lt b a) : a = b := by
  obtain ⟨a1, a2, a3⟩ := a
  obtain ⟨b1, b2, b3⟩ := b
  simp only [Key.lt] at h1 h2
  simp only [Prod.mk.injEq]
  refine ⟨by omega, by omega, by omega⟩

theorem Key.lt_or_eq_or_gt (a b : Key) : Key.lt a b ∨ a = b ∨ Key.lt b a := by
  by_cases h1 : Key.lt a b
  · exact Or.inl h1
  · by_cases h2 : Key.lt b a
    · exact Or.inr (Or.inr h2)
    · exact Or.inr (Or.inl (Key.eq_of_not_lt h1 h2))

theorem Key.ne_of_lt {a b : Key} (h : Key.lt a b) : a ≠ b := by
  intro hab
  subst hab
  exact Key.lt_irrefl a h

/-! ## Facts about ordered maps -/

theorem TxMap.mem_emplace_of_mem {m : TxMap} {k : Key} {v : Tx} {e : Key × Tx}
    (h : e ∈ m) : e ∈ m.emplace k v := by
  induction m with
  | nil => cases h
  | cons a rest ih =>
    unfold TxMap.emplace
    split_ifs
    · exact List.mem_cons_of_mem _ h
    · exact h
    · rcases List.mem_cons.1 h with h | h
      · exact h ▸ List.mem_cons_self _ _
      · exact List.mem_cons_of_mem _ (ih h)

theorem TxMap.mem_of_mem_emplace {m : TxMap} {k : Key} {v : Tx} {e : Key × Tx}
    (h : e ∈ m.emplace k v) : e = (k, v) ∨ e ∈ m := by
  induction m with
  | nil =>
    simp only [TxMap.emplace, List.mem_singleton] at h
    exact Or.inl h
  | cons a rest ih =>
    unfold TxMap.emplace at h
    split_ifs at h
    · rcases List.mem_cons.1 h with h | h
      · exact Or.inl h
      · exact Or.inr h
    · exact Or.inr h
    · rcases List.mem_cons.1 h with h | h
      · exact Or.inr (h ▸ List.mem_cons_self _ _)
      · rcases ih h with h | h
        · exact Or.inl h
        · exact Or.inr (List.mem_cons_of_mem _ h)

theorem TxMap.emplace_of_hasKey {m : TxMap} {k : Key} {v : Tx}
    (hs : m.Sorted) (h : m.HasKey k) : m.emplace k v = m := by
  induction m with
  | nil => obtain ⟨e, he, _⟩ := h; cases he
  | cons a rest ih =>
    obtain ⟨e, he, hk⟩ := h
    have hs2 := List.pairwise_cons.1 hs
    unfold TxMap.emplace
    rcases List.mem_cons.1 he with h1 | h1
    · subst h1
      have h2 : ¬ Key.lt k e.1 := by rw [hk]; exact Key.lt_irrefl _
      rw [if_neg h2, if_pos hk.symm]
    · have hlt : Key.lt a.1 k := hk ▸ hs2.1 e h1
      have h2 : ¬ Key.lt k a.1 := Key.lt_asymm hlt
      have h3 : k ≠ a.1 := fun h => Key.ne_of_lt hlt h.symm
      simp only [h2, h3, if_false]
      rw [ih hs2.2 ⟨e, h1, hk⟩]

theorem TxMap.mem_emplace_new {m : TxMap} {k : Key} {v : Tx}
    (h : ¬ m.HasKey k) : (k, v) ∈ m.emplace k v := by
  induction m with
  | nil => simp [TxMap.emplace]
  | cons a rest ih =>
    unfold TxMap.emplace
    split_ifs with h1 h2
    · exact List.mem_cons_self _ _
    · exact absurd ⟨a, List.mem_cons_self _ _, h2.symm⟩ h
    · refine List.mem_cons_of_mem _ (ih ?_)
      rintro ⟨e, he, hk⟩
      exact h ⟨e, List.mem_cons_of_mem _ he, hk⟩

theorem TxMap.emplace_length {m : TxMap} {k : Key} {v : Tx}
    (h : ¬ m.HasKey k) : (m.emplace k v).length = m.length + 1 := by
  induction m with
  | nil => simp [TxMap.emplace]
  | cons a rest ih =>
    unfold TxMap.emplace
    split_ifs with h1 h2
    · simp
    · exact absurd ⟨a, List.mem_cons_self _ _, h2.symm⟩ h
    · have : ¬ TxMap.HasKey rest k := by
        rintro ⟨e, he, hk⟩
        exact h ⟨e, List.mem_cons_of_mem _ he, hk⟩
      simp [ih this]

theorem TxMap.emplace_sorted {m : TxMap} {k : Key} {v : Tx}
    (hs : m.Sorted) : (m.emplace k v).Sorted := by
  induction m with
  | nil => simp [TxMap.emplace, TxMap.Sorted]
  | cons a rest ih =>
    have hs2 := List.pairwise_cons.1 hs
    unfold TxMap.emplace
    split_ifs with h1 h2
    · refine List.pairwise_cons.2 ⟨?_, hs⟩
      intro e he
      rcases List.mem_cons.1 he with h | h
      · exact h ▸ h1
      · exact Key.lt_trans h1 (hs2.1 e h)
    · exact hs
    · refine List.pairwise_cons.2 ⟨?_, ih hs2.2⟩
      intro e he
      rcases TxMap.mem_of_mem_emplace he with h | h
      · rw [h]
        rcases Key.lt_or_eq_or_gt k a.1 with h3 | h3 | h3
        · exact absurd h3 h1
        · exact absurd h3 h2
        · exact h3
      · exact hs2.1 e h

theorem TxMap.eraseKey_isSome {m : TxMap} {k : Key}
    (h : m.HasKey k) : ∃ r, m.eraseKey k = some r := by
  induction m with
  | nil => obtain ⟨e, he, _⟩ := h; cases he
  | cons a rest ih =>
    unfold TxMap.eraseKey
    by_cases h1 : a.1 = k
    · exact ⟨rest, by rw [if_pos h1]⟩
    · obtain ⟨e, he, hk⟩ := h
      rcases List.mem_cons.1 he with h2 | h2
      · exact absurd (h2 ▸ hk) h1
      · obtain ⟨r, hr⟩ := ih ⟨e, h2, hk⟩
        exact ⟨a :: r, by rw [if_neg h1, hr]; rfl⟩

theorem TxMap.hasKey_of_eraseKey {m r : TxMap} {k : Key}
    (h : m.eraseKey k = some r) : m.HasKey k := by
  induction m generalizing r with
  | nil => simp [TxMap.eraseKey] at h
  | cons a rest ih =>
    unfold TxMap.eraseKey at h
    by_cases h1 : a.1 = k
    · exact ⟨a, List.mem_cons_self _ _, h1⟩
    · rw [if_neg h1] at h
      cases hr : TxMap.eraseKey rest k with
      | none => rw [hr] at h; cases h
      | some r2 =>
        obtain ⟨e, he, hk⟩ := ih hr
        exact ⟨e, List.mem_cons_of_mem _ he, hk⟩

theorem TxMap.mem_eraseKey {m r : TxMap} {k : Key} (hs : m.Sorted)
    (h : m.eraseKey k = some r) (e : Key × Tx) : e ∈ r ↔ e ∈ m ∧ e.1 ≠ k := by
  induction m generalizing r with
  | nil => simp [TxMap.eraseKey] at h
  | cons a rest ih =>
    have hs2 := List.pairwise_cons.1 hs
    unfold TxMap.eraseKey at h
    by_cases h1 : a.1 = k
    · rw [if_pos h1] at h
      cases h
      constructor
      · intro he
        exact ⟨List.mem_cons_of_mem _ he, fun hk => Key.ne_of_lt (hs2.1 e he) (h1.trans hk.symm)⟩
      · rintro ⟨he, hk⟩
        rcases List.mem_cons.1 he with h2 | h2
        · exact absurd (h2 ▸ h1) hk
        · exact h2
    · rw [if_neg h1] at h
      cases hr : TxMap.eraseKey rest k with
      | none => rw [hr] at h; cases h
      | some r2 =>
        rw [hr] at h
        cases h
        have ih2 := ih hs2.2 hr
        constructor
        · intro he
          rcases List.mem_cons.1 he with h2 | h2
          · exact ⟨h2 ▸ List.mem_cons_self _ _, h2 ▸ h1⟩
          · exact ⟨List.mem_cons_of_mem _ (ih2.1 h2).1, (ih2.1 h2).2⟩
        · rintro ⟨he, hk⟩
          rcases List.mem_cons.1 he with h2 | h2
          · exact h2 ▸ List.mem_cons_self _ _
          · exact List.mem_cons_of_mem _ (ih2.2 ⟨h2, hk⟩)

theorem TxMap.eraseKey_sublist {m r : TxMap} {k : Key}
    (h : m.eraseKey k = some r) : List.Sublist r m := by
  induction m generalizing r with
  | nil => simp [TxMap.eraseKey] at h
  | cons a rest ih =>
    unfold TxMap.eraseKey at h
    by_cases h1 : a.1 = k
    · rw [if_pos h1] at h
      cases h
      exact List.sublist_cons_self _ _
    · rw [if_neg h1] at h
      cases hr : TxMap.eraseKey rest k with
      | none => rw [hr] at h; cases h
      | some r2 =>
        rw [hr] at h
        cases h
        exact (ih hr).cons₂ a

theorem TxMap.eraseKey_sorted {m r : TxMap} {k : Key} (hs : m.Sorted)
    (h : m.eraseKey k = some r) : r.Sorted :=
  List.Pairwise.sublist (TxMap.eraseKey_sublist h) hs

theorem TxMap.eraseKey_length {m r : TxMap} {k : Key}
    (h : m.eraseKey k = some r) : r.length + 1 = m.length := by
  induction m generalizing r with
  | nil => simp [TxMap.eraseKey] at h
  | cons a rest ih =>
    unfold TxMap.eraseKey at h
    by_cases h1 : a.1 = k
    · rw [if_pos h1] at h
      cases h
      rfl
    · rw [if_neg h1] at h
      cases hr : TxMap.eraseKey rest k with
      | none => rw [hr] at h; cases h
      | some r2 =>
        rw [hr] at h
        cases h
        simp [ih hr]

theorem TxMap.getLast_spec {m : TxMap} {e : Key × Tx} (hs : m.Sorted)
    (h : m.getLast? = some e) :
    e ∈ m ∧ (∀ a ∈ m, a = e ∨ Key.lt a.1 e.1) ∧ TxMap.Sorted m.dropLast ∧
      (∀ a, a ∈ m.dropLast ↔ a ∈ m ∧ a ≠ e) ∧ m.dropLast.length + 1 = m.length := by
  have hm : m.dropLast ++ [e] = m := List.dropLast_append_getLast? e h
  have hs2 : TxMap.Sorted (m.dropLast ++ [e]) := by rw [hm]; exact hs
  have hp := List.pairwise_append.1 hs2
  have hlt : ∀ a ∈ m.dropLast, Key.lt a.1 e.1 := fun a ha => hp.2.2 a ha e (List.mem_singleton_self e)
  refine ⟨?_, ?_, hp.1, ?_, ?_⟩
  · rw [← hm]; simp
  · intro a ha
    rw [← hm] at ha
    rcases List.mem_append.1 ha with h1 | h1
    · exact Or.inr (hlt a h1)
    · exact Or.inl (List.mem_singleton.1 h1)
  · intro a
    constructor
    · intro ha
      refine ⟨by rw [← hm]; exact List.mem_append_left _ ha, ?_⟩
      intro hae
      exact Key.lt_irrefl _ (hae ▸ hlt a ha)
    · rintro ⟨ha, hne⟩
      rw [← hm] at ha
      rcases List.mem_append.1 ha with h1 | h1
      · exact h1
      · exact absurd (List.mem_singleton.1 h1) hne
  · conv_rhs => rw [← hm]
    simp

theorem TxMap.getLast_isSome {m : TxMap} (h : m ≠ []) : ∃ e, m.getLast? = some e := by
  cases hm : m.getLast? with
  | none => exact absurd (List.getLast?_eq_none_iff.1 hm) h
  | some e => exact ⟨e, rfl⟩

theorem TxMap.dropWhile_sorted {m : TxMap} (hs : m.Sorted) (lo : Key) (e : Key × Tx) :
    e ∈ m.dropWhile (fun a => decide (Key.lt a.1 lo)) ↔ e ∈ m ∧ ¬ Key.lt e.1 lo := by
  induction m with
  | nil => simp
  | cons a rest ih =>
    have hs2 := List.pairwise_cons.1 hs
    by_cases h1 : Key.lt a.1 lo
    · rw [List.dropWhile_cons_of_pos (by simpa using h1), ih hs2.2]
      constructor
      · rintro ⟨he, hk⟩
        exact ⟨List.mem_cons_of_mem _ he, hk⟩
      · rintro ⟨he, hk⟩
        rcases List.mem_cons.1 he with h2 | h2
        · exact absurd (h2 ▸ h1) hk
        · exact ⟨h2, hk⟩
    · rw [List.dropWhile_cons_of_neg (by simpa using h1)]
      constructor
      · intro he
        refine ⟨he, ?_⟩
        rcases List.mem_cons.1 he with h2 | h2
        · exact h2 ▸ h1
        · exact fun hk => h1 (Key.lt_trans (hs2.1 e h2) hk)
      · exact fun he => he.1

theorem TxMap.takeWhile_sorted {m : TxMap} (hs : m.Sorted) (hi : Key) (e : Key × Tx) :
    e ∈ m.takeWhile (fun a => decide (Key.lt a.1 hi)) ↔ e ∈ m ∧ Key.lt e.1 hi := by
  induction m with
  | nil => simp
  | cons a rest ih =>
    have hs2 := List.pairwise_cons.1 hs
    by_cases h1 : Key.lt a.1 hi
    · rw [List.takeWhile_cons_of_pos (by simpa using h1)]
      constructor
      · intro he
        rcases List.mem_cons.1 he with h2 | h2
        · exact ⟨h2 ▸ List.mem_cons_self _ _, h2 ▸ h1⟩
        · exact ⟨List.mem_cons_of_mem _ ((ih hs2.2).1 h2).1, ((ih hs2.2).1 h2).2⟩
      · rintro ⟨he, hk⟩
        rcases List.mem_cons.1 he with h2 | h2
        · exact h2 ▸ List.mem_cons_self _ _
        · exact List.mem_cons_of_mem _ ((ih hs2.2).2 ⟨h2, hk⟩)
    · rw [List.takeWhile_cons_of_neg (by simpa using h1)]
      constructor
      · intro he; cases he
      · rintro ⟨he, hk⟩
        rcases List.mem_cons.1 he with h2 | h2
        · exact absurd (h2 ▸ hk) h1
        · exact absurd (Key.lt_trans (hs2.1 e h2) hk) h1

theorem TxMap.range_sublist (m : TxMap) (lo hi : Key) : List.Sublist (m.range lo hi) m :=
  (List.takeWhile_sublist _).trans (List.dropWhile_sublist _)

theorem TxMap.mem_range {m : TxMap} (hs : m.Sorted) (lo hi : Key) (e : Key × Tx) :
    e ∈ m.range lo hi ↔ e ∈ m ∧ ¬ Key.lt e.1 lo ∧ Key.lt e.1 hi := by
  unfold TxMap.range
  have hs2 : TxMap.Sorted (m.dropWhile (fun a => decide (Key.lt a.1 lo))) :=
    List.Pairwise.sublist (List.dropWhile_sublist _) hs
  rw [TxMap.takeWhile_sorted hs2, TxMap.dropWhile_sorted hs, and_assoc]

theorem hashKey_static : HashKey staticKey := fun _ => rfl

theorem hashKey_dynamic : HashKey dynamicKey := fun _ => rfl

theorem hashKey_decision : HashKey decisionKey := fun _ => rfl

theorem hashKey_naive (b : Int) : HashKey (naiveKey b) := fun _ => rfl

theorem TxMap.holds_iff_mem {key : Tx → Key} {m : TxMap} (hk : m.KeyedBy key) (t : Tx) :
    m.Holds t ↔ (key t, t) ∈ m := by
  constructor
  · rintro ⟨e, he, rfl⟩
    have := hk e he
    rw [← this]
    exact he
  · intro h
    exact ⟨_, h, rfl⟩

theorem TxMap.unique_of_hashFree {key : Tx → Key} {m : TxMap} {tx : Tx}
    (hh : HashKey key) (hf : m.HashFree tx) : ∀ e ∈ m, key e.2 = key tx → e.2 = tx := by
  intro e he h
  apply hf e he
  rw [← hh e.2, ← hh tx, h]

theorem decisionKey_injective {a b : Tx} (h : decisionKey a = decisionKey b) : a = b := by
  obtain ⟨a1, a2, a3⟩ := a
  obtain ⟨b1, b2, b3⟩ := b
  simp only [decisionKey, Prod.mk.injEq] at h
  simp only [Tx.mk.injEq]
  refine ⟨by omega, by omega, by omega⟩

theorem staticKey_injective {a b : Tx} (h : staticKey a = staticKey b) : a = b := by
  obtain ⟨a1, a2, a3⟩ := a
  obtain ⟨b1, b2, b3⟩ := b
  simp only [staticKey, Prod.mk.injEq] at h
  simp only [Tx.mk.injEq]
  refine ⟨by omega, by omega, by omega⟩

theorem TxMap.not_hasKey_of_not_holds {key : Tx → Key} {m : TxMap} {tx : Tx}
    (hk : m.KeyedBy key) (hu : ∀ e ∈ m, key e.2 = key tx → e.2 = tx) (hn : ¬ m.Holds tx) :
    ¬ m.HasKey (key tx) := by
  rintro ⟨e, he, hek⟩
  exact hn ⟨e, he, hu e he (by rw [← hk e he, hek])⟩

theorem TxMap.hasKey_of_holds {key : Tx → Key} {m : TxMap} {tx : Tx}
    (hk : m.KeyedBy key) (h : m.Holds tx) : m.HasKey (key tx) := by
  obtain ⟨e, he, rfl⟩ := h
  exact ⟨e, he, hk e he⟩

theorem TxMap.keyedBy_emplace {key : Tx → Key} {m : TxMap} (hk : m.KeyedBy key) (tx : Tx) :
    TxMap.KeyedBy key (m.emplace (key tx) tx) := by
  intro e he
  rcases TxMap.mem_of_mem_emplace he with h | h
  · rw [h]
  · exact hk e h

theorem TxMap.keyedBy_sublist {key : Tx → Key} {m r : TxMap} (hk : m.KeyedBy key)
    (h : List.Sublist r m) : TxMap.KeyedBy key r :=
  fun e he => hk e (h.subset he)

theorem TxMap.holds_emplace_new {m : TxMap} {k : Key} {tx : Tx} (hn : ¬ m.HasKey k) (t : Tx) :
    TxMap.Holds (m.emplace k tx) t ↔ t = tx ∨ m.Holds t := by
  constructor
  · rintro ⟨e, he, rfl⟩
    rcases TxMap.mem_of_mem_emplace he with h | h
    · exact Or.inl (by rw [h])
    · exact Or.inr ⟨e, h, rfl⟩
  · rintro (h | ⟨e, he, rfl⟩)
    · exact ⟨(k, tx), TxMap.mem_emplace_new hn, h.symm⟩
    · exact ⟨e, TxMap.mem_emplace_of_mem he, rfl⟩

theorem TxMap.holds_emplace_old {m : TxMap} {k : Key} {tx : Tx} (hs : m.Sorted)
    (hn : m.HasKey k) (t : Tx) : TxMap.Holds (m.emplace k tx) t ↔ m.Holds t := by
  rw [TxMap.emplace_of_hasKey hs hn]

theorem TxMap.holds_eraseKey {key : Tx → Key} {m r : TxMap} {tx : Tx}
    (hs : m.Sorted) (hk : m.KeyedBy key) (hu : ∀ e ∈ m, key e.2 = key tx → e.2 = tx)
    (h : m.eraseKey (key tx) = some r) (t : Tx) : r.Holds t ↔ m.Holds t ∧ t ≠ tx := by
  constructor
  · rintro ⟨e, he, rfl⟩
    have h1 := (TxMap.mem_eraseKey hs h e).1 he
    refine ⟨⟨e, h1.1, rfl⟩, ?_⟩
    intro h2
    exact h1.2 (by rw [hk e h1.1, h2])
  · rintro ⟨⟨e, he, rfl⟩, hne⟩
    refine ⟨e, (TxMap.mem_eraseKey hs h e).2 ⟨he, ?_⟩, rfl⟩
    intro h2
    exact hne (hu e he (by rw [← hk e he, h2]))

theorem TxMap.holds_dropLast {m : TxMap} {e : Key × Tx} {key : Tx → Key} (hs : m.Sorted)
    (hk : m.KeyedBy key) (h : m.getLast? = some e) (t : Tx) :
    TxMap.Holds m.dropLast t ↔ m.Holds t ∧ t ≠ e.2 := by
  obtain ⟨hm, _, _, hd, _⟩ := TxMap.getLast_spec hs h
  constructor
  · rintro ⟨a, ha, rfl⟩
    have h1 := (hd a).1 ha
    refine ⟨⟨a, h1.1, rfl⟩, ?_⟩
    intro h2
    apply h1.2
    have h3 := hk a h1.1
    have h4 := hk e hm
    exact Prod.ext (by rw [h3, h4, h2]) h2
  · rintro ⟨⟨a, ha, rfl⟩, hne⟩
    exact ⟨a, (hd a).2 ⟨ha, fun h2 => hne (by rw [h2])⟩, rfl⟩


/-! ## Facts about the bribe -/

theorem Tx.miner_bribe_capped {tx : Tx} {b : Int} (h : tx.capped b) :
    tx.miner_bribe b = tx.max_miner_bribe := by
  unfold Tx.capped at h
  unfold Tx.miner_bribe
  omega

theorem Tx.miner_bribe_uncapped {tx : Tx} {b : Int} (h : ¬ tx.capped b) :
    tx.miner_bribe b = tx.fee_cap - b := by
  unfold Tx.capped at h
  unfold Tx.miner_bribe
  omega

/-! ## Facts about extraction -/

theorem FastTxPool.Linked.held_iff {p : FastTxPool} (hl : p.Linked) (t : Tx) :
    p.Held t ↔ p.sbst_static.Holds t ∨ p.sbst_dynamic.Holds t := by
  constructor
  · rintro ⟨e, he, rfl⟩
    exact hl.decision_cover e he
  · rintro (⟨e, he, rfl⟩ | ⟨e, he, rfl⟩)
    · exact hl.static_cover e he
    · exact hl.dynamic_cover e he

theorem FastTxPool.Linked.maps_nonempty {p : FastTxPool} (hl : p.Linked)
    (hne : p.sbst_decision.length ≠ 0) : p.sbst_static ≠ [] ∨ p.sbst_dynamic ≠ [] := by
  cases hd : p.sbst_decision with
  | nil => rw [hd] at hne; exact absurd rfl hne
  | cons a rest =>
    rcases hl.decision_cover a (by rw [hd]; exact List.mem_cons_self _ _) with ⟨e, he, _⟩ | ⟨e, he, _⟩
    · exact Or.inl (List.ne_nil_of_mem he)
    · exact Or.inr (List.ne_nil_of_mem he)

/-- The two ways an extraction from a linked, non-empty pool goes: the last
entry of `sbst_static` wins, strictly above the last entry of `sbst_dynamic` if
there is one, or the last entry of `sbst_dynamic` wins. -/
theorem FastTxPool.pop_cases {p : FastTxPool} (hl : p.Linked)
    (hne : p.sbst_decision.length ≠ 0) :
    (∃ e r, p.sbst_static.getLast? = some e ∧
        (∀ d, p.sbst_dynamic.getLast? = some d →
          e.2.miner_bribe p.base_fee > d.2.miner_bribe p.base_fee) ∧
        p.sbst_decision.eraseKey (decisionKey e.2) = some r ∧
        p.pop_most_profitable_tx =
          .ok (e.2, { p with sbst_static := p.sbst_static.dropLast, sbst_decision := r })) ∨
    (∃ e r, p.sbst_dynamic.getLast? = some e ∧
        (∀ s, p.sbst_static.getLast? = some s →
          ¬ s.2.miner_bribe p.base_fee > e.2.miner_bribe p.base_fee) ∧
        p.sbst_decision.eraseKey (decisionKey e.2) = some r ∧
        p.pop_most_profitable_tx =
          .ok (e.2, { p with sbst_dynamic := p.sbst_dynamic.dropLast, sbst_decision := r })) := by
  have hstat : ∀ e, p.sbst_static.getLast? = some e →
      ∃ r, p.sbst_decision.eraseKey (decisionKey e.2) = some r := fun e he =>
    TxMap.eraseKey_isSome (TxMap.hasKey_of_holds hl.decision_key
      (hl.static_cover e (List.mem_of_getLast?_eq_some he)))
  have hdyn : ∀ e, p.sbst_dynamic.getLast? = some e →
      ∃ r, p.sbst_decision.eraseKey (decisionKey e.2) = some r := fun e he =>
    TxMap.eraseKey_isSome (TxMap.hasKey_of_holds hl.decision_key
      (hl.dynamic_cover e (List.mem_of_getLast?_eq_some he)))
  rcases Option.eq_none_or_eq_some p.sbst_static.getLast? with hs | ⟨s, hs⟩
  · rcases Option.eq_none_or_eq_some p.sbst_dynamic.getLast? with hd | ⟨d, hd⟩
    · rcases hl.maps_nonempty hne with h | h
      · exact absurd (List.getLast?_eq_none_iff.1 hs) h
      · exact absurd (List.getLast?_eq_none_iff.1 hd) h
    · obtain ⟨r, hr⟩ := hdyn d hd
      refine Or.inr ⟨d, r, hd, fun s h => (by rw [hs] at h; cases h), hr, ?_⟩
      simp [FastTxPool.pop_most_profitable_tx, FastTxPool.pop_choice, hs, hd, hne, hr]
  · rcases Option.eq_none_or_eq_some p.sbst_dynamic.getLast? with hd | ⟨d, hd⟩
    · obtain ⟨r, hr⟩ := hstat s hs
      refine Or.inl ⟨s, r, hs, fun d h => (by rw [hd] at h; cases h), hr, ?_⟩
      simp [FastTxPool.pop_most_profitable_tx, FastTxPool.pop_choice, hs, hd, hne, hr]
    · by_cases hgt : s.2.miner_bribe p.base_fee > d.2.miner_bribe p.base_fee
      · obtain ⟨r, hr⟩ := hstat s hs
        refine Or.inl ⟨s, r, hs, fun d2 h => (by rw [hd] at h; cases h; exact hgt), hr, ?_⟩
        simp [FastTxPool.pop_most_profitable_tx, FastTxPool.pop_choice, hs, hd, hne, hr, hgt]
      · obtain ⟨r, hr⟩ := hdyn d hd
        refine Or.inr ⟨d, r, hd, fun s2 h => (by rw [hs] at h; cases h; exact hgt), hr, ?_⟩
        simp [FastTxPool.pop_most_profitable_tx, FastTxPool.pop_choice, hs, hd, hne, hr, hgt]

theorem FastTxPool.Linked.not_both {p : FastTxPool} (hl : p.Linked) (t : Tx)
    (h1 : p.sbst_static.Holds t) : ¬ p.sbst_dynamic.Holds t := by
  obtain ⟨e, he, rfl⟩ := h1
  exact hl.disjoint e he

/-- A state is linked as soon as its maps are ordered and keyed and hold the
same transactions, none of them twice. -/
theorem FastTxPool.Linked.of_holds {q : FastTxPool}
    (h1 : q.sbst_static.Sorted) (h2 : q.sbst_dynamic.Sorted) (h3 : q.sbst_decision.Sorted)
    (h4 : q.sbst_static.KeyedBy staticKey) (h5 : q.sbst_dynamic.KeyedBy dynamicKey)
    (h6 : q.sbst_decision.KeyedBy decisionKey)
    (hc : ∀ t, q.sbst_decision.Holds t ↔ q.sbst_static.Holds t ∨ q.sbst_dynamic.Holds t)
    (hd : ∀ t, q.sbst_static.Holds t → ¬ q.sbst_dynamic.Holds t) : q.Linked where
  static_sorted := h1
  dynamic_sorted := h2
  decision_sorted := h3
  static_key := h4
  dynamic_key := h5
  decision_key := h6
  decision_cover := fun e he => (hc e.2).1 ⟨e, he, rfl⟩
  static_cover := fun e he => (hc e.2).2 (Or.inl ⟨e, he, rfl⟩)
  dynamic_cover := fun e he => (hc e.2).2 (Or.inr ⟨e, he, rfl⟩)
  disjoint := fun e he => hd e.2 ⟨e, he, rfl⟩

/-- Removing the last entry of `sbst_static` and its entry of `sbst_decision`
keeps the maps linked and removes exactly that transaction. -/
theorem FastTxPool.Linked.remove_static {p : FastTxPool} (hl : p.Linked) {e : Key × Tx}
    {r : TxMap} (he : p.sbst_static.getLast? = some e)
    (hr : p.sbst_decision.eraseKey (decisionKey e.2) = some r) :
    FastTxPool.Linked { p with sbst_static := p.sbst_static.dropLast, sbst_decision := r } ∧
      (∀ t, TxMap.Holds p.sbst_static.dropLast t ↔ p.sbst_static.Holds t ∧ t ≠ e.2) ∧
      (∀ t, r.Holds t ↔ p.sbst_decision.Holds t ∧ t ≠ e.2) ∧ p.sbst_static.Holds e.2 := by
  have hS := TxMap.holds_dropLast hl.static_sorted hl.static_key he
  have hD := TxMap.holds_eraseKey hl.decision_sorted hl.decision_key
    (fun a _ h => decisionKey_injective h) hr
  have hsp := TxMap.getLast_spec hl.static_sorted he
  have hin : p.sbst_static.Holds e.2 := ⟨e, hsp.1, rfl⟩
  refine ⟨?_, hS, hD, hin⟩
  refine FastTxPool.Linked.of_holds hsp.2.2.1 hl.dynamic_sorted
    (TxMap.eraseKey_sorted hl.decision_sorted hr)
    (TxMap.keyedBy_sublist hl.static_key (List.dropLast_sublist _)) hl.dynamic_key
    (TxMap.keyedBy_sublist hl.decision_key (TxMap.eraseKey_sublist hr)) ?_ ?_
  · intro t
    show r.Holds t ↔ TxMap.Holds p.sbst_static.dropLast t ∨ p.sbst_dynamic.Holds t
    rw [hD, hS]
    have := hl.held_iff t
    unfold FastTxPool.Held at this
    rw [this]
    constructor
    · rintro ⟨h | h, hne⟩
      · exact Or.inl ⟨h, hne⟩
      · exact Or.inr h
    · rintro (⟨h, hne⟩ | h)
      · exact ⟨Or.inl h, hne⟩
      · exact ⟨Or.inr h, fun h2 => hl.not_both e.2 hin (h2 ▸ h)⟩
  · intro t ht
    exact hl.not_both t ((hS t).1 ht).1

/-- Removing the last entry of `sbst_dynamic` and its entry of `sbst_decision`
keeps the maps linked and removes exactly that transaction. -/
theorem FastTxPool.Linked.remove_dynamic {p : FastTxPool} (hl : p.Linked) {e : Key × Tx}
    {r : TxMap} (he : p.sbst_dynamic.getLast? = some e)
    (hr : p.sbst_decision.eraseKey (decisionKey e.2) = some r) :
    FastTxPool.Linked { p with sbst_dynamic := p.sbst_dynamic.dropLast, sbst_decision := r } ∧
      (∀ t, TxMap.Holds p.sbst_dynamic.dropLast t ↔ p.sbst_dynamic.Holds t ∧ t ≠ e.2) ∧
      (∀ t, r.Holds t ↔ p.sbst_decision.Holds t ∧ t ≠ e.2) ∧ p.sbst_dynamic.Holds e.2 := by
  have hS := TxMap.holds_dropLast hl.dynamic_sorted hl.dynamic_key he
  have hD := TxMap.holds_eraseKey hl.decision_sorted hl.decision_key
    (fun a _ h => decisionKey_injective h) hr
  have hsp := TxMap.getLast_spec hl.dynamic_sorted he
  have hin : p.sbst_dynamic.Holds e.2 := ⟨e, hsp.1, rfl⟩
  refine ⟨?_, hS, hD, hin⟩
  refine FastTxPool.Linked.of_holds hl.static_sorted hsp.2.2.1
    (TxMap.eraseKey_sorted hl.decision_sorted hr) hl.static_key
    (TxMap.keyedBy_sublist hl.dynamic_key (List.dropLast_sublist _))
    (TxMap.keyedBy_sublist hl.decision_key (TxMap.eraseKey_sublist hr)) ?_ ?_
  · intro t
    show r.Holds t ↔ p.sbst_static.Holds t ∨ TxMap.Holds p.sbst_dynamic.dropLast t
    rw [hD, hS]
    have := hl.held_iff t
    unfold FastTxPool.Held at this
    rw [this]
    constructor
    · rintro ⟨h | h, hne⟩
      · exact Or.inl h
      · exact Or.inr ⟨h, hne⟩
    · rintro (h | ⟨h, hne⟩)
      · exact ⟨Or.inl h, fun h2 => hl.not_both t h (h2 ▸ hin)⟩
      · exact ⟨Or.inr h, hne⟩
  · intro t ht hd
    exact hl.not_both t ht ((hS t).1 hd).1

theorem naiveKey_capped {tx : Tx} {b : Int} (h : tx.capped b) : naiveKey b tx = staticKey tx := by
  unfold naiveKey staticKey
  rw [Tx.miner_bribe_capped h]

theorem naiveLe_of_static {a e : Tx} {b : Int} (ha : a.capped b) (he : e.capped b)
    (h : a = e ∨ Key.lt (staticKey a) (staticKey e)) : naiveLe b a e := by
  unfold naiveLe
  rw [naiveKey_capped ha, naiveKey_capped he]
  rcases h with h | h
  · rw [h]; exact Key.lt_irrefl _
  · exact Key.lt_asymm h

theorem naiveLe_of_dynamic {a e : Tx} {b : Int} (ha : ¬ a.capped b) (he : ¬ e.capped b)
    (h : a = e ∨ Key.lt (dynamicKey a) (dynamicKey e)) : naiveLe b a e := by
  unfold naiveLe
  rcases h with h | h
  · rw [h]; exact Key.lt_irrefl _
  · unfold naiveKey
    rw [Tx.miner_bribe_uncapped ha, Tx.miner_bribe_uncapped he]
    unfold Key.lt dynamicKey at *
    simp only at h ⊢
    omega

theorem naiveLe_bribe {a w : Tx} {b : Int} (h : naiveLe b a w) :
    a.miner_bribe b ≤ w.miner_bribe b := by
  unfold naiveLe Key.lt naiveKey at h
  simp only at h
  omega

theorem FastTxPool.WF.static_last {p : FastTxPool} (hwf : p.WF) {e : Key × Tx}
    (he : p.sbst_static.getLast? = some e) (t : Tx) (ht : p.sbst_static.Holds t) :
    naiveLe p.base_fee t e.2 := by
  obtain ⟨a, ha, rfl⟩ := ht
  have hsp := TxMap.getLast_spec hwf.linked.static_sorted he
  apply naiveLe_of_static (hwf.regime.static_capped a ha) (hwf.regime.static_capped e hsp.1)
  rcases hsp.2.1 a ha with h | h
  · exact Or.inl (by rw [h])
  · rw [hwf.linked.static_key a ha, hwf.linked.static_key e hsp.1] at h
    exact Or.inr h

theorem FastTxPool.WF.dynamic_last {p : FastTxPool} (hwf : p.WF) {e : Key × Tx}
    (he : p.sbst_dynamic.getLast? = some e) (t : Tx) (ht : p.sbst_dynamic.Holds t) :
    naiveLe p.base_fee t e.2 := by
  obtain ⟨a, ha, rfl⟩ := ht
  have hsp := TxMap.getLast_spec hwf.linked.dynamic_sorted he
  apply naiveLe_of_dynamic (hwf.regime.dynamic_uncapped a ha)
    (hwf.regime.dynamic_uncapped e hsp.1)
  rcases hsp.2.1 a ha with h | h
  · exact Or.inl (by rw [h])
  · rw [hwf.linked.dynamic_key a ha, hwf.linked.dynamic_key e hsp.1] at h
    exact Or.inr h

/-- Extraction from a well-formed, non-empty FastTxPool succeeds; it returns a
winner and removes it, and only it, from its map and from `sbst_decision`. -/
theorem FastTxPool.WF.pop_winner {p : FastTxPool} (hwf : p.WF)
    (hne : p.sbst_decision.length ≠ 0) :
    ∃ w q, p.pop_most_profitable_tx = .ok (w, q) ∧ p.Winner w ∧ q.Linked ∧
      q.base_fee = p.base_fee ∧
      (∀ t, q.sbst_static.Holds t ↔ p.sbst_static.Holds t ∧ t ≠ w) ∧
      (∀ t, q.sbst_dynamic.Holds t ↔ p.sbst_dynamic.Holds t ∧ t ≠ w) ∧
      (∀ t, q.sbst_decision.Holds t ↔ p.sbst_decision.Holds t ∧ t ≠ w) ∧
      q.sbst_decision.length + 1 = p.sbst_decision.length := by
  rcases FastTxPool.pop_cases hwf.linked hne with ⟨e, r, he, hwin, hr, hpop⟩ | ⟨e, r, he, hwin, hr, hpop⟩
  · obtain ⟨hl, hS, hD, hin⟩ := hwf.linked.remove_static he hr
    refine ⟨e.2, _, hpop, Or.inl ⟨hin, hwf.static_last he, ?_⟩, hl, rfl, hS, ?_, hD,
      TxMap.eraseKey_length hr⟩
    · intro t ht
      obtain ⟨a, ha, _⟩ := id ht
      obtain ⟨d, hd⟩ := TxMap.getLast_isSome (List.ne_nil_of_mem ha)
      have h1 := naiveLe_bribe (hwf.dynamic_last hd t ht)
      have h2 := hwin d hd
      omega
    · intro t
      show p.sbst_dynamic.Holds t ↔ _
      constructor
      · intro ht
        exact ⟨ht, fun h => hwf.linked.not_both e.2 hin (h ▸ ht)⟩
      · exact fun h => h.1
  · obtain ⟨hl, hS, hD, hin⟩ := hwf.linked.remove_dynamic he hr
    refine ⟨e.2, _, hpop, Or.inr ⟨hin, hwf.dynamic_last he, ?_⟩, hl, rfl, ?_, hS, hD,
      TxMap.eraseKey_length hr⟩
    · intro t ht
      obtain ⟨a, ha, _⟩ := id ht
      obtain ⟨s, hs⟩ := TxMap.getLast_isSome (List.ne_nil_of_mem ha)
      have h1 := naiveLe_bribe (hwf.static_last hs t ht)
      have h2 := hwin s hs
      omega
    · intro t
      show p.sbst_static.Holds t ↔ _
      constructor
      · intro ht
        exact ⟨ht, fun h => hwf.linked.not_both t ht (h ▸ hin)⟩
      · exact fun h => h.1

theorem FastTxPool.Winner.held {p : FastTxPool} (hl : p.Linked) {w : Tx} (h : p.Winner w) :
    p.Held w := by
  rcases h with h | h
  · exact (hl.held_iff w).2 (Or.inl h.1)
  · exact (hl.held_iff w).2 (Or.inr h.1)

theorem FastTxPool.Winner.max_bribe {p : FastTxPool} (hl : p.Linked) {w : Tx}
    (h : p.Winner w) (t : Tx) (ht : p.Held t) :
    t.miner_bribe p.base_fee ≤ w.miner_bribe p.base_fee := by
  rcases h with ⟨_, h1, h2⟩ | ⟨_, h1, h2⟩
  · rcases (hl.held_iff t).1 ht with h | h
    · exact naiveLe_bribe (h1 t h)
    · exact le_of_lt (h2 t h)
  · rcases (hl.held_iff t).1 ht with h | h
    · exact h2 t h
    · exact naiveLe_bribe (h1 t h)

/-- Extraction from a well-formed, non-empty NaiveTxPool succeeds; it returns
the transaction that is last in key order and removes it, and only it. -/
theorem NaiveTxPool.WF.pop_last {p : NaiveTxPool} (hwf : p.WF) (hne : p.sbst.length ≠ 0) :
    ∃ w q, p.pop_most_profitable_tx = .ok (w, q) ∧ p.Held w ∧
      (∀ t, p.Held t → naiveLe p.base_fee t w) ∧ q.WF ∧ q.base_fee = p.base_fee ∧
      (∀ t, q.Held t ↔ p.Held t ∧ t ≠ w) ∧ q.sbst.length + 1 = p.sbst.length := by
  have hnil : p.sbst ≠ [] := fun h => hne (by rw [h]; rfl)
  obtain ⟨e, he⟩ := TxMap.getLast_isSome hnil
  have hsp := TxMap.getLast_spec hwf.sorted he
  refine ⟨e.2, { p with sbst := p.sbst.dropLast }, ?_, ⟨e, hsp.1, rfl⟩, ?_, ?_, rfl,
    TxMap.holds_dropLast hwf.sorted hwf.keyed he, hsp.2.2.2.2⟩
  · simp [NaiveTxPool.pop_most_profitable_tx, he]
  · rintro t ⟨a, ha, rfl⟩
    unfold naiveLe
    rw [← hwf.keyed a ha, ← hwf.keyed e hsp.1]
    rcases hsp.2.1 a ha with h | h
    · rw [h]; exact Key.lt_irrefl _
    · exact Key.lt_asymm h
  · exact ⟨hsp.2.2.1, TxMap.keyedBy_sublist hwf.keyed (List.dropLast_sublist _)⟩

theorem naiveLe_tie {a w : Tx} {b : Int} (h : naiveLe b a w)
    (hb : a.miner_bribe b = w.miner_bribe b) :
    w.fee_cap ≤ a.fee_cap ∧ (a.fee_cap = w.fee_cap → a.hash ≤ w.hash) := by
  unfold naiveLe Key.lt naiveKey at h
  simp only at h
  omega

/-! ## Facts about insertion and re-filing -/

theorem FastTxPool.DistinctHashes.hashFree_decision {p : FastTxPool} (hd : p.DistinctHashes)
    {tx : Tx} (h : p.Held tx) : p.sbst_decision.HashFree tx := by
  obtain ⟨a, ha, rfl⟩ := h
  exact fun e he hh => hd e he a ha hh

theorem FastTxPool.DistinctHashes.hashFree_static {p : FastTxPool} (hd : p.DistinctHashes)
    (hl : p.Linked) {tx : Tx} (h : p.Held tx) : p.sbst_static.HashFree tx := by
  intro e he hh
  obtain ⟨a, ha, ha2⟩ := hl.static_cover e he
  have := hd.hashFree_decision h a ha (by rw [ha2]; exact hh)
  rw [← ha2, this]

theorem FastTxPool.DistinctHashes.hashFree_dynamic {p : FastTxPool} (hd : p.DistinctHashes)
    (hl : p.Linked) {tx : Tx} (h : p.Held tx) : p.sbst_dynamic.HashFree tx := by
  intro e he hh
  obtain ⟨a, ha, ha2⟩ := hl.dynamic_cover e he
  have := hd.hashFree_decision h a ha (by rw [ha2]; exact hh)
  rw [← ha2, this]

/-- The maps of `q` fit together when they are ordered and keyed, the decision
map is that of the linked state `p`, and the other two maps are those of `p`
with the held transaction `tx` filed again. -/
theorem FastTxPool.Linked.of_refile {p q : FastTxPool} {tx : Tx} {c : Prop} (hl : p.Linked)
    (hheld : p.Held tx)
    (h1 : q.sbst_static.Sorted) (h2 : q.sbst_dynamic.Sorted)
    (h4 : q.sbst_static.KeyedBy staticKey) (h5 : q.sbst_dynamic.KeyedBy dynamicKey)
    (hdec : q.sbst_decision = p.sbst_decision)
    (hS : ∀ t, q.sbst_static.Holds t ↔ (t = tx ∧ c) ∨ (t ≠ tx ∧ p.sbst_static.Holds t))
    (hD : ∀ t, q.sbst_dynamic.Holds t ↔ (t = tx ∧ ¬ c) ∨ (t ≠ tx ∧ p.sbst_dynamic.Holds t)) :
    q.Linked := by
  refine FastTxPool.Linked.of_holds h1 h2 (hdec ▸ hl.decision_sorted) h4 h5
    (hdec ▸ hl.decision_key) ?_ ?_
  · intro t
    rw [hdec, hS, hD]
    have h := hl.held_iff t
    unfold FastTxPool.Held at h hheld
    rw [h]
    by_cases ht : t = tx
    · subst ht
      have h7 := (hl.held_iff t).1 hheld
      by_cases hc : c <;> simp [hc, h7]
    · simp [ht]
  · intro t
    rw [hS, hD]
    rintro (⟨ht, hc⟩ | ⟨hne, hs⟩) (⟨ht2, hnc⟩ | ⟨hne2, hd⟩)
    · exact hnc hc
    · exact hne2 ht
    · exact hne ht2
    · exact hl.not_both t hs hd

theorem FastTxPool.add_tx_capped {p : FastTxPool} {tx : Tx} (h : tx.capped p.base_fee) :
    p.add_tx tx =
      { p with sbst_static := p.sbst_static.emplace (staticKey tx) tx,
               sbst_decision := p.sbst_decision.emplace (decisionKey tx) tx } := by
  unfold Tx.capped at h
  unfold FastTxPool.add_tx
  simp only [h, if_true]

theorem FastTxPool.add_tx_uncapped {p : FastTxPool} {tx : Tx} (h : ¬ tx.capped p.base_fee) :
    p.add_tx tx =
      { p with sbst_dynamic := p.sbst_dynamic.emplace (dynamicKey tx) tx,
               sbst_decision := p.sbst_decision.emplace (decisionKey tx) tx } := by
  unfold Tx.capped at h
  unfold FastTxPool.add_tx
  simp only [h, if_false]

/-- The body of the first loop of `reconstruct`, run on a transaction of
`sbst_static`, files it again. -/
theorem FastTxPool.Linked.refile_static {p : FastTxPool} (hl : p.Linked)
    (hd : p.DistinctHashes) {tx : Tx} (hin : p.sbst_static.Holds tx) :
    ∃ r, p.sbst_static.eraseKey (staticKey tx) = some r ∧
      FastTxPool.Refiled p (FastTxPool.add_tx { p with sbst_static := r } tx) tx := by
  obtain ⟨r, hr⟩ := TxMap.eraseKey_isSome (TxMap.hasKey_of_holds hl.static_key hin)
  refine ⟨r, hr, ?_⟩
  have hheld : p.Held tx := (hl.held_iff tx).2 (Or.inl hin)
  have hR := TxMap.holds_eraseKey hl.static_sorted hl.static_key
    (fun a _ h => staticKey_injective h) hr
  have hnk : ¬ TxMap.HasKey r (staticKey tx) := by
    rintro ⟨e, he, hk⟩
    exact ((TxMap.mem_eraseKey hl.static_sorted hr e).1 he).2 hk
  have hdec : p.sbst_decision.emplace (decisionKey tx) tx = p.sbst_decision :=
    TxMap.emplace_of_hasKey hl.decision_sorted (TxMap.hasKey_of_holds hl.decision_key hheld)
  have hrs : r.Sorted := TxMap.eraseKey_sorted hl.static_sorted hr
  have hrk : r.KeyedBy staticKey := TxMap.keyedBy_sublist hl.static_key (TxMap.eraseKey_sublist hr)
  have hnd : ¬ p.sbst_dynamic.Holds tx := hl.not_both tx hin
  by_cases hc : tx.capped p.base_fee
  · have hS : ∀ t, TxMap.Holds (r.emplace (staticKey tx) tx) t ↔
        (t = tx ∧ tx.capped p.base_fee) ∨ (t ≠ tx ∧ p.sbst_static.Holds t) := by
      intro t
      rw [TxMap.holds_emplace_new hnk, hR]
      by_cases ht : t = tx <;> simp [ht, hc]
    have hD : ∀ t, p.sbst_dynamic.Holds t ↔
        (t = tx ∧ ¬ tx.capped p.base_fee) ∨ (t ≠ tx ∧ p.sbst_dynamic.Holds t) := by
      intro t
      by_cases ht : t = tx
      · subst ht; simp [hc, hnd]
      · simp [ht]
    rw [@FastTxPool.add_tx_capped { p with sbst_static := r } tx hc]
    exact ⟨FastTxPool.Linked.of_refile hl hheld (TxMap.emplace_sorted hrs) hl.dynamic_sorted
      (TxMap.keyedBy_emplace hrk tx) hl.dynamic_key hdec hS hD, hdec, rfl, hS, hD⟩
  · have hnk2 : ¬ p.sbst_dynamic.HasKey (dynamicKey tx) :=
      TxMap.not_hasKey_of_not_holds hl.dynamic_key
        (TxMap.unique_of_hashFree hashKey_dynamic (hd.hashFree_dynamic hl hheld)) hnd
    have hS : ∀ t, r.Holds t ↔
        (t = tx ∧ tx.capped p.base_fee) ∨ (t ≠ tx ∧ p.sbst_static.Holds t) := by
      intro t
      rw [hR]
      by_cases ht : t = tx <;> simp [ht, hc]
    have hD : ∀ t, TxMap.Holds (p.sbst_dynamic.emplace (dynamicKey tx) tx) t ↔
        (t = tx ∧ ¬ tx.capped p.base_fee) ∨ (t ≠ tx ∧ p.sbst_dynamic.Holds t) := by
      intro t
      rw [TxMap.holds_emplace_new hnk2]
      by_cases ht : t = tx
      · subst ht; simp [hc]
      · simp [ht]
    rw [@FastTxPool.add_tx_uncapped { p with sbst_static := r } tx hc]
    exact ⟨FastTxPool.Linked.of_refile hl hheld hrs (TxMap.emplace_sorted hl.dynamic_sorted)
      hrk (TxMap.keyedBy_emplace hl.dynamic_key tx) hdec hS hD, hdec, rfl, hS, hD⟩

/-- The body of the second loop of `reconstruct`, run on a transaction of
`sbst_dynamic`, files it again. -/
theorem FastTxPool.Linked.refile_dynamic {p : FastTxPool} (hl : p.Linked)
    (hd : p.DistinctHashes) {tx : Tx} (hin : p.sbst_dynamic.Holds tx) :
    ∃ r, p.sbst_dynamic.eraseKey (dynamicKey tx) = some r ∧
      FastTxPool.Refiled p (FastTxPool.add_tx { p with sbst_dynamic := r } tx) tx := by
  obtain ⟨r, hr⟩ := TxMap.eraseKey_isSome (TxMap.hasKey_of_holds hl.dynamic_key hin)
  refine ⟨r, hr, ?_⟩
  have hheld : p.Held tx := (hl.held_iff tx).2 (Or.inr hin)
  have hR := TxMap.holds_eraseKey hl.dynamic_sorted hl.dynamic_key
    (TxMap.unique_of_hashFree hashKey_dynamic (hd.hashFree_dynamic hl hheld)) hr
  have hnk : ¬ TxMap.HasKey r (dynamicKey tx) := by
    rintro ⟨e, he, hk⟩
    exact ((TxMap.mem_eraseKey hl.dynamic_sorted hr e).1 he).2 hk
  have hdec : p.sbst_decision.emplace (decisionKey tx) tx = p.sbst_decision :=
    TxMap.emplace_of_hasKey hl.decision_sorted (TxMap.hasKey_of_holds hl.decision_key hheld)
  have hrs : r.Sorted := TxMap.eraseKey_sorted hl.dynamic_sorted hr
  have hrk : r.KeyedBy dynamicKey :=
    TxMap.keyedBy_sublist hl.dynamic_key (TxMap.eraseKey_sublist hr)
  have hnd : ¬ p.sbst_static.Holds tx := fun h => hl.not_both tx h hin
  by_cases hc : tx.capped p.base_fee
  · have hnk2 : ¬ p.sbst_static.HasKey (staticKey tx) :=
      TxMap.not_hasKey_of_not_holds hl.static_key (fun a _ h => staticKey_injective h) hnd
    have hS : ∀ t, TxMap.Holds (p.sbst_static.emplace (staticKey tx) tx) t ↔
        (t = tx ∧ tx.capped p.base_fee) ∨ (t ≠ tx ∧ p.sbst_static.Holds t) := by
      intro t
      rw [TxMap.holds_emplace_new hnk2]
      by_cases ht : t = tx
      · subst ht; simp [hc]
      · simp [ht]
    have hD : ∀ t, r.Holds t ↔
        (t = tx ∧ ¬ tx.capped p.base_fee) ∨ (t ≠ tx ∧ p.sbst_dynamic.Holds t) := by
      intro t
      rw [hR]
      by_cases ht : t = tx <;> simp [ht, hc]
    rw [@FastTxPool.add_tx_capped { p with sbst_dynamic := r } tx hc]
    exact ⟨FastTxPool.Linked.of_refile hl hheld (TxMap.emplace_sorted hl.static_sorted) hrs
      (TxMap.keyedBy_emplace hl.static_key tx) hrk hdec hS hD, hdec, rfl, hS, hD⟩
  · have hS : ∀ t, p.sbst_static.Holds t ↔
        (t = tx ∧ tx.capped p.base_fee) ∨ (t ≠ tx ∧ p.sbst_static.Holds t) := by
      intro t
      by_cases ht : t = tx
      · subst ht; simp [hc, hnd]
      · simp [ht]
    have hD : ∀ t, TxMap.Holds (r.emplace (dynamicKey tx) tx) t ↔
        (t = tx ∧ ¬ tx.capped p.base_fee) ∨ (t ≠ tx ∧ p.sbst_dynamic.Holds t) := by
      intro t
      rw [TxMap.holds_emplace_new hnk, hR]
      by_cases ht : t = tx <;> simp [ht, hc]
    rw [@FastTxPool.add_tx_uncapped { p with sbst_dynamic := r } tx hc]
    exact ⟨FastTxPool.Linked.of_refile hl hheld hl.static_sorted (TxMap.emplace_sorted hrs)
      hl.static_key (TxMap.keyedBy_emplace hrk tx) hdec hS hD, hdec, rfl, hS, hD⟩

/-! ## Facts about the loops of `reconstruct` -/

theorem moved_append_singleton (g : Tx → Prop) (done : TxMap) (e : Key × Tx) (t : Tx) :
    Moved g (done ++ [e]) t ↔ Moved g done t ∨ (e.2 = t ∧ g t) := by
  unfold Moved
  constructor
  · rintro ⟨a, ha, h1, h2⟩
    rcases List.mem_append.1 ha with h | h
    · exact Or.inl ⟨a, h, h1, h2⟩
    · rw [List.mem_singleton.1 h] at h1
      exact Or.inr ⟨h1, h2⟩
  · rintro (⟨a, ha, h1, h2⟩ | ⟨h1, h2⟩)
    · exact ⟨a, List.mem_append_left _ ha, h1, h2⟩
    · exact ⟨e, List.mem_append_right _ (List.mem_singleton_self e), h1, h2⟩

theorem FastTxPool.refiledAll_nil (g : Tx → Prop) {s0 : FastTxPool} (hl : s0.Linked) :
    FastTxPool.RefiledAll g s0 [] s0 := by
  have hm : ∀ t, ¬ Moved g [] t := by
    rintro t ⟨a, ha, _⟩
    cases ha
  exact ⟨hl, rfl, rfl, fun t => by simp [hm t], fun t => by simp [hm t]⟩

/-- The loop of `reconstruct`, run over entries of `sbst_decision` with a body
that files a transaction again when its guard lets it through and does nothing
otherwise, succeeds and files again exactly the transactions the guard lets
through. -/
theorem FastTxPool.for_range_refiles (body : FastTxPool → Tx → Except Fault FastTxPool)
    (g : Tx → Prop) (s0 : FastTxPool) (hl0 : s0.Linked) (hd0 : s0.DistinctHashes)
    (hskip : ∀ s t, ¬ g t → body s t = .ok s)
    (hmove : ∀ s t, s.Linked → s.DistinctHashes → g t → s0.Held t →
      (s.sbst_static.Holds t ↔ s0.sbst_static.Holds t) →
      (s.sbst_dynamic.Holds t ↔ s0.sbst_dynamic.Holds t) →
      ∃ q, body s t = .ok q ∧ FastTxPool.Refiled s q t)
    (L : TxMap) (hsub : List.Sublist L s0.sbst_decision) :
    ∃ q, FastTxPool.for_range body L s0 = .ok q ∧ FastTxPool.RefiledAll g s0 L q := by
  have hLs : TxMap.Sorted L := List.Pairwise.sublist hsub hl0.decision_sorted
  have key : ∀ rest done s, L = done ++ rest → FastTxPool.RefiledAll g s0 done s →
      ∃ q, FastTxPool.for_range body rest s = .ok q ∧ FastTxPool.RefiledAll g s0 L q := by
    intro rest
    induction rest with
    | nil =>
      intro done s hL hJ
      rw [List.append_nil] at hL
      exact ⟨s, rfl, hL ▸ hJ⟩
    | cons e rest ih =>
      intro done s hL hJ
      obtain ⟨hl, hdec, hbf, hS, hD⟩ := hJ
      have hL2 : L = (done ++ [e]) ++ rest := by rw [hL]; simp
      by_cases hg : g e.2
      · have heL : e ∈ L := by rw [hL]; simp
        have heD : e ∈ s0.sbst_decision := hsub.subset heL
        have hnm : ¬ Moved g done e.2 := by
          rintro ⟨a, ha, h1, _⟩
          have hp := List.pairwise_append.1 (hL ▸ hLs)
          have hlt := hp.2.2 a ha e (List.mem_cons_self _ _)
          have ha2 : a ∈ s0.sbst_decision := hsub.subset (by rw [hL]; simp [ha])
          rw [hl0.decision_key a ha2, hl0.decision_key e heD, h1] at hlt
          exact Key.lt_irrefl _ hlt
        have hds : s.DistinctHashes := by
          unfold FastTxPool.DistinctHashes
          rw [hdec]
          exact hd0
        obtain ⟨q, hq, hql, hqdec, hqbf, hqS, hqD⟩ := hmove s e.2 hl hds hg ⟨e, heD, rfl⟩
          (by rw [hS]; simp [hnm]) (by rw [hD]; simp [hnm])
        obtain ⟨q2, hq2, hJ2⟩ := ih (done ++ [e]) q hL2 (by
          refine ⟨hql, hqdec.trans hdec, hqbf.trans hbf, ?_, ?_⟩
          · intro t
            rw [hqS, hS, moved_append_singleton, hbf]
            by_cases ht : t = e.2
            · subst ht; simp [hg]
            · have ht2 : ¬ e.2 = t := fun h => ht h.symm
              simp [ht, ht2]
          · intro t
            rw [hqD, hD, moved_append_singleton, hbf]
            by_cases ht : t = e.2
            · subst ht; simp [hg]
            · have ht2 : ¬ e.2 = t := fun h => ht h.symm
              simp [ht, ht2])
        exact ⟨q2, by simp only [FastTxPool.for_range, hq, hq2], hJ2⟩
      · obtain ⟨q2, hq2, hJ2⟩ := ih (done ++ [e]) s hL2 (by
          refine ⟨hl, hdec, hbf, ?_, ?_⟩
          · intro t
            rw [hS, moved_append_singleton]
            by_cases ht : e.2 = t
            · subst ht; simp [hg]
            · simp [ht]
          · intro t
            rw [hD, moved_append_singleton]
            by_cases ht : e.2 = t
            · subst ht; simp [hg]
            · simp [ht])
        exact ⟨q2, by simp only [FastTxPool.for_range, hskip s e.2 hg, hq2], hJ2⟩
  exact key L [] s0 rfl (FastTxPool.refiledAll_nil g hl0)

theorem FastTxPool.Linked.set_base_fee {p : FastTxPool} (hl : p.Linked) (b : Int) :
    FastTxPool.Linked { p with base_fee := b } :=
  ⟨hl.1, hl.2, hl.3, hl.4, hl.5, hl.6, hl.7, hl.8, hl.9, hl.10⟩

theorem FastTxPool.WF.static_of_capped {p : FastTxPool} (hwf : p.WF) {t : Tx} (ht : p.Held t)
    (hc : t.capped p.base_fee) : p.sbst_static.Holds t := by
  rcases (hwf.linked.held_iff t).1 ht with h | h
  · exact h
  · obtain ⟨e, he, rfl⟩ := h
    exact absurd hc (hwf.regime.dynamic_uncapped e he)

theorem FastTxPool.WF.dynamic_of_uncapped {p : FastTxPool} (hwf : p.WF) {t : Tx}
    (ht : p.Held t) (hc : ¬ t.capped p.base_fee) : p.sbst_dynamic.Holds t := by
  rcases (hwf.linked.held_iff t).1 ht with h | h
  · obtain ⟨e, he, rfl⟩ := h
    exact absurd (hwf.regime.static_capped e he) hc
  · exact h

/-- On a well-formed pool with pairwise distinct hashes `reconstruct` succeeds,
and its result is the pool at the new base fee with the transactions of the
scanned range that pass the guard of the loop filed again. -/
theorem FastTxPool.WF.reconstruct_refiles {p : FastTxPool} (hwf : p.WF)
    (hd : p.DistinctHashes) (b1 : Int) :
    ∃ q g L, p.reconstruct b1 = .ok q ∧
      FastTxPool.RefiledAll g { p with base_fee := b1 } L q ∧
      ((p.base_fee < b1 ∧ (g = fun t => t.fee_cap - t.max_miner_bribe ≥ p.base_fee) ∧
          L = p.sbst_decision.range (p.base_fee, -INT32_MAX, 0) (b1, -INT32_MAX, 0)) ∨
       (b1 < p.base_fee ∧ (g = fun t => t.fee_cap - t.max_miner_bribe < p.base_fee) ∧
          L = p.sbst_decision.range (b1, -INT32_MAX, 0) (p.base_fee, -INT32_MAX, 0)) ∨
       (b1 = p.base_fee ∧ L = [])) := by
  have hl0 : FastTxPool.Linked { p with base_fee := b1 } := hwf.linked.set_base_fee b1
  have hd0 : FastTxPool.DistinctHashes { p with base_fee := b1 } := hd
  by_cases hup : p.base_fee < b1
  · obtain ⟨q, hq, hJ⟩ := FastTxPool.for_range_refiles (FastTxPool.move_up p.base_fee)
      (fun t => t.fee_cap - t.max_miner_bribe ≥ p.base_fee) { p with base_fee := b1 } hl0 hd0
      (fun s t hg => by
        have hg2 : ¬ t.fee_cap - t.max_miner_bribe ≥ p.base_fee := hg
        simp only [FastTxPool.move_up, hg2, if_false])
      (fun s t hl hds hg hheld hS _ => by
        have hg2 : t.fee_cap - t.max_miner_bribe ≥ p.base_fee := hg
        have hc : t.capped p.base_fee := by unfold Tx.capped; omega
        have hin : s.sbst_static.Holds t := hS.2 (hwf.static_of_capped hheld hc)
        obtain ⟨r, hr, hR⟩ := hl.refile_static hds hin
        exact ⟨_, by simp only [FastTxPool.move_up, hg2, if_true, hr], hR⟩)
      (p.sbst_decision.range (p.base_fee, -INT32_MAX, 0) (b1, -INT32_MAX, 0))
      (TxMap.range_sublist _ _ _)
    refine ⟨q, _, _, ?_, hJ, Or.inl ⟨hup, rfl, rfl⟩⟩
    simp only [FastTxPool.reconstruct, hup, if_true]
    exact hq
  · by_cases hdown : b1 < p.base_fee
    · obtain ⟨q, hq, hJ⟩ := FastTxPool.for_range_refiles (FastTxPool.move_down p.base_fee)
        (fun t => t.fee_cap - t.max_miner_bribe < p.base_fee) { p with base_fee := b1 } hl0 hd0
        (fun s t hg => by
          have hg2 : ¬ t.fee_cap - t.max_miner_bribe < p.base_fee := hg
          simp only [FastTxPool.move_down, hg2, if_false])
        (fun s t hl hds hg hheld _ hD => by
          have hg2 : t.fee_cap - t.max_miner_bribe < p.base_fee := hg
          have hc : ¬ t.capped p.base_fee := by unfold Tx.capped; omega
          have hin : s.sbst_dynamic.Holds t := hD.2 (hwf.dynamic_of_uncapped hheld hc)
          obtain ⟨r, hr, hR⟩ := hl.refile_dynamic hds hin
          exact ⟨_, by simp only [FastTxPool.move_down, hg2, if_true, hr], hR⟩)
        (p.sbst_decision.range (b1, -INT32_MAX, 0) (p.base_fee, -INT32_MAX, 0))
        (TxMap.range_sublist _ _ _)
      refine ⟨q, _, _, ?_, hJ, Or.inr (Or.inl ⟨hdown, rfl, rfl⟩)⟩
      simp only [FastTxPool.reconstruct, hup, hdown, if_true, if_false]
      exact hq
    · refine ⟨{ p with base_fee := b1 }, fun _ => True, [], ?_,
        FastTxPool.refiledAll_nil _ hl0, Or.inr (Or.inr ⟨by omega, rfl⟩)⟩
      simp only [FastTxPool.reconstruct, hup, hdown, if_false]

/-- Adding a transaction whose hash no held transaction has keeps the pool
well-formed and files the transaction according to the base fee. -/
theorem FastTxPool.WF.add_tx_fresh {p : FastTxPool} (hwf : p.WF) (tx : Tx)
    (hfresh : ∀ e ∈ p.sbst_decision, e.2.hash ≠ tx.hash) :
    (p.add_tx tx).WF ∧ (p.add_tx tx).base_fee = p.base_fee ∧
      (∀ t, (p.add_tx tx).sbst_static.Holds t ↔
        (t = tx ∧ tx.capped p.base_fee) ∨ p.sbst_static.Holds t) ∧
      (∀ t, (p.add_tx tx).sbst_dynamic.Holds t ↔
        (t = tx ∧ ¬ tx.capped p.base_fee) ∨ p.sbst_dynamic.Holds t) ∧
      (∀ t, (p.add_tx tx).sbst_decision.Holds t ↔ t = tx ∨ p.sbst_decision.Holds t) ∧
      (p.add_tx tx).sbst_decision = p.sbst_decision.emplace (decisionKey tx) tx ∧
      (p.add_tx tx).sbst_decision.length = p.sbst_decision.length + 1 := by
  have hl := hwf.linked
  have hnh : ¬ p.Held tx := by
    rintro ⟨e, he, h⟩
    exact hfresh e he (by rw [h])
  have hns : ¬ p.sbst_static.Holds tx := fun h => hnh ((hl.held_iff tx).2 (Or.inl h))
  have hnd : ¬ p.sbst_dynamic.Holds tx := fun h => hnh ((hl.held_iff tx).2 (Or.inr h))
  have hkdec : ¬ p.sbst_decision.HasKey (decisionKey tx) :=
    TxMap.not_hasKey_of_not_holds hl.decision_key (fun a _ h => decisionKey_injective h) hnh
  have hkst : ¬ p.sbst_static.HasKey (staticKey tx) :=
    TxMap.not_hasKey_of_not_holds hl.static_key (fun a _ h => staticKey_injective h) hns
  have hkdy : ¬ p.sbst_dynamic.HasKey (dynamicKey tx) := by
    rintro ⟨e, he, hk⟩
    obtain ⟨a, ha, ha2⟩ := hl.dynamic_cover e he
    apply hfresh a ha
    rw [ha2, ← hashKey_dynamic e.2, ← hashKey_dynamic tx, ← hl.dynamic_key e he, hk]
  have hDec : ∀ t, TxMap.Holds (p.sbst_decision.emplace (decisionKey tx) tx) t ↔
      t = tx ∨ p.sbst_decision.Holds t := TxMap.holds_emplace_new hkdec
  by_cases hc : tx.capped p.base_fee
  · rw [FastTxPool.add_tx_capped hc]
    have hS : ∀ t, TxMap.Holds (p.sbst_static.emplace (staticKey tx) tx) t ↔
        (t = tx ∧ tx.capped p.base_fee) ∨ p.sbst_static.Holds t := by
      intro t
      rw [TxMap.holds_emplace_new hkst]
      simp [hc]
    have hD : ∀ t, p.sbst_dynamic.Holds t ↔
        (t = tx ∧ ¬ tx.capped p.base_fee) ∨ p.sbst_dynamic.Holds t := by
      intro t
      simp [hc]
    refine ⟨⟨?_, ?_⟩, rfl, hS, hD, hDec, rfl, TxMap.emplace_length hkdec⟩
    · refine FastTxPool.Linked.of_holds (TxMap.emplace_sorted hl.static_sorted)
        hl.dynamic_sorted (TxMap.emplace_sorted hl.decision_sorted)
        (TxMap.keyedBy_emplace hl.static_key tx) hl.dynamic_key
        (TxMap.keyedBy_emplace hl.decision_key tx) ?_ ?_
      · intro t
        have h := hl.held_iff t
        unfold FastTxPool.Held at h
        show TxMap.Holds (p.sbst_decision.emplace (decisionKey tx) tx) t ↔
          TxMap.Holds (p.sbst_static.emplace (staticKey tx) tx) t ∨ p.sbst_dynamic.Holds t
        rw [hDec, hS, h]
        simp [hc, or_assoc]
      · intro t ht hd
        rcases (hS t).1 ht with h | h
        · exact hnd (h.1 ▸ hd)
        · exact hl.not_both t h hd
    · refine ⟨?_, hwf.regime.dynamic_uncapped⟩
      intro e he
      rcases TxMap.mem_of_mem_emplace he with h | h
      · rw [h]; exact hc
      · exact hwf.regime.static_capped e h
  · rw [FastTxPool.add_tx_uncapped hc]
    have hS : ∀ t, p.sbst_static.Holds t ↔
        (t = tx ∧ tx.capped p.base_fee) ∨ p.sbst_static.Holds t := by
      intro t
      simp [hc]
    have hD : ∀ t, TxMap.Holds (p.sbst_dynamic.emplace (dynamicKey tx) tx) t ↔
        (t = tx ∧ ¬ tx.capped p.base_fee) ∨ p.sbst_dynamic.Holds t := by
      intro t
      rw [TxMap.holds_emplace_new hkdy]
      simp [hc]
    refine ⟨⟨?_, ?_⟩, rfl, hS, hD, hDec, rfl, TxMap.emplace_length hkdec⟩
    · refine FastTxPool.Linked.of_holds hl.static_sorted
        (TxMap.emplace_sorted hl.dynamic_sorted) (TxMap.emplace_sorted hl.decision_sorted)
        hl.static_key (TxMap.keyedBy_emplace hl.dynamic_key tx)
        (TxMap.keyedBy_emplace hl.decision_key tx) ?_ ?_
      · intro t
        have h := hl.held_iff t
        unfold FastTxPool.Held at h
        show TxMap.Holds (p.sbst_decision.emplace (decisionKey tx) tx) t ↔
          p.sbst_static.Holds t ∨ TxMap.Holds (p.sbst_dynamic.emplace (dynamicKey tx) tx) t
        rw [hDec, hD, h]
        simp only [hc, not_false_eq_true, and_true]
        tauto
      · intro t ht hd
        rcases (hD t).1 hd with h | h
        · exact hns (h.1 ▸ ht)
        · exact hl.not_both t ht h
    · refine ⟨hwf.regime.static_capped, ?_⟩
      intro e he
      rcases TxMap.mem_of_mem_emplace he with h | h
      · rw [h]; exact hc
      · exact hwf.regime.dynamic_uncapped e h

theorem decisionKey_lt_sentinel {t : Tx} (h : t.fee_cap < INT32_MAX) (x : Int) :
    Key.lt (decisionKey t) (x, -INT32_MAX, 0) ↔ t.fee_cap - t.max_miner_bribe < x := by
  unfold INT32_MAX at *
  unfold Key.lt decisionKey
  simp only
  omega

theorem Tx.capped_iff (t : Tx) (b : Int) : t.capped b ↔ b ≤ t.fee_cap - t.max_miner_bribe := by
  unfold Tx.capped
  omega

/-- With every `fee_cap` below `INT32_MAX` the transactions the loop lets
through are the held ones whose `fee_cap - max_miner_bribe` lies between the
old and the new base fee. -/
theorem FastTxPool.WF.reconstruct_flips {p : FastTxPool} (hwf : p.WF)
    (hd : p.DistinctHashes) (hcap : p.CapsBelowMax) (b1 : Int) :
    ∃ q, p.reconstruct b1 = .ok q ∧ q.Linked ∧ q.sbst_decision = p.sbst_decision ∧
      q.base_fee = b1 ∧
      (∀ t, q.sbst_static.Holds t ↔
        (p.Flips b1 t ∧ t.capped b1) ∨ (¬ p.Flips b1 t ∧ p.sbst_static.Holds t)) ∧
      (∀ t, q.sbst_dynamic.Holds t ↔
        (p.Flips b1 t ∧ ¬ t.capped b1) ∨ (¬ p.Flips b1 t ∧ p.sbst_dynamic.Holds t)) := by
  obtain ⟨q, g, L, hq, ⟨hl, hdec, hbf, hS, hD⟩, hcase⟩ := hwf.reconstruct_refiles hd b1
  have hmem : ∀ t lo hi, (∃ a ∈ p.sbst_decision.range (lo, -INT32_MAX, 0) (hi, -INT32_MAX, 0),
      a.2 = t) ↔ p.Held t ∧ lo ≤ t.fee_cap - t.max_miner_bribe ∧
        t.fee_cap - t.max_miner_bribe < hi := by
    intro t lo hi
    constructor
    · rintro ⟨a, ha, rfl⟩
      have h1 := (TxMap.mem_range hwf.linked.decision_sorted _ _ a).1 ha
      have hc := hcap a h1.1
      rw [hwf.linked.decision_key a h1.1, decisionKey_lt_sentinel hc,
        decisionKey_lt_sentinel hc] at h1
      exact ⟨⟨a, h1.1, rfl⟩, by omega, h1.2.2⟩
    · rintro ⟨⟨a, ha, rfl⟩, h1, h2⟩
      refine ⟨a, (TxMap.mem_range hwf.linked.decision_sorted _ _ a).2 ⟨ha, ?_⟩, rfl⟩
      have hc := hcap a ha
      rw [hwf.linked.decision_key a ha, decisionKey_lt_sentinel hc, decisionKey_lt_sentinel hc]
      exact ⟨by omega, h2⟩
  have hflip : ∀ t, Moved g L t ↔ p.Flips b1 t := by
    intro t
    unfold Moved FastTxPool.Flips
    rcases hcase with ⟨hup, hg, hL⟩ | ⟨hdown, hg, hL⟩ | ⟨heq, hL⟩
    · subst hg hL
      constructor
      · rintro ⟨a, ha, h1, _⟩
        have := (hmem t _ _).1 ⟨a, ha, h1⟩
        exact ⟨this.1, Or.inl this.2⟩
      · rintro ⟨hh, h | h⟩
        · obtain ⟨a, ha, h1⟩ := (hmem t _ _).2 ⟨hh, h⟩
          exact ⟨a, ha, h1, h.1⟩
        · omega
    · subst hg hL
      constructor
      · rintro ⟨a, ha, h1, _⟩
        have := (hmem t _ _).1 ⟨a, ha, h1⟩
        exact ⟨this.1, Or.inr this.2⟩
      · rintro ⟨hh, h | h⟩
        · omega
        · obtain ⟨a, ha, h1⟩ := (hmem t _ _).2 ⟨hh, h⟩
          exact ⟨a, ha, h1, h.2⟩
    · subst hL
      constructor
      · rintro ⟨a, ha, _⟩
        cases ha
      · rintro ⟨_, h | h⟩ <;> omega
  refine ⟨q, hq, hl, hdec, hbf, ?_, ?_⟩
  · intro t
    rw [hS, hflip]
  · intro t
    rw [hD, hflip]

/-- With every `fee_cap` below `INT32_MAX`, `reconstruct` keeps a pool with
pairwise distinct hashes well-formed. -/
theorem FastTxPool.WF.reconstruct_wf {p q : FastTxPool} (hwf : p.WF) (hd : p.DistinctHashes)
    (hcap : p.CapsBelowMax) {b1 : Int} (hq : p.reconstruct b1 = .ok q) :
    q.WF ∧ q.sbst_decision = p.sbst_decision := by
  obtain ⟨q2, hq2, hl, hdec, hbf, hS, hD⟩ := hwf.reconstruct_flips hd hcap b1
  rw [hq] at hq2
  cases hq2
  refine ⟨⟨hl, ?_, ?_⟩, hdec⟩
  · intro e he
    rw [hbf]
    rcases (hS e.2).1 ⟨e, he, rfl⟩ with h | ⟨hnf, hs⟩
    · exact h.2
    · obtain ⟨a, ha, ha2⟩ := id hs
      have hc := hwf.regime.static_capped a ha
      rw [ha2, Tx.capped_iff] at hc
      rw [Tx.capped_iff]
      unfold FastTxPool.Flips at hnf
      have hh : p.Held e.2 := (hwf.linked.held_iff e.2).2 (Or.inl hs)
      simp only [hh, true_and] at hnf
      omega
  · intro e he
    rw [hbf]
    rcases (hD e.2).1 ⟨e, he, rfl⟩ with h | ⟨hnf, hs⟩
    · exact h.2
    · obtain ⟨a, ha, ha2⟩ := id hs
      have hc := hwf.regime.dynamic_uncapped a ha
      rw [ha2, Tx.capped_iff] at hc
      rw [Tx.capped_iff]
      unfold FastTxPool.Flips at hnf
      have hh : p.Held e.2 := (hwf.linked.held_iff e.2).2 (Or.inr hs)
      simp only [hh, true_and] at hnf
      omega

theorem FastTxPool.empty_wf (b : Int) : (FastTxPool.empty b).WF := by
  refine ⟨FastTxPool.Linked.of_holds List.Pairwise.nil List.Pairwise.nil List.Pairwise.nil
    ?_ ?_ ?_ ?_ ?_, ?_, ?_⟩ <;>
  simp [FastTxPool.empty, TxMap.KeyedBy, TxMap.Holds]

/-- Every reachable state is well-formed, its hashes are pairwise distinct and
its `fee_cap`s are below `INT32_MAX`. -/
theorem FastTxPool.Reachable.invariant {p : FastTxPool} (h : p.Reachable) :
    p.WF ∧ p.DistinctHashes ∧ p.CapsBelowMax := by
  induction h with
  | empty b =>
    refine ⟨FastTxPool.empty_wf b, ?_, ?_⟩
    · intro a ha; cases ha
    · intro a ha; cases ha
  | @add_tx p tx _ hcap hfresh ih =>
    obtain ⟨hwf, hd, hc⟩ := ih
    obtain ⟨hwf2, _, _, _, _, hdec, _⟩ := hwf.add_tx_fresh tx hfresh
    refine ⟨hwf2, ?_, ?_⟩
    · intro a ha b hb hab
      rw [hdec] at ha hb
      rcases TxMap.mem_of_mem_emplace ha with h1 | h1 <;>
        rcases TxMap.mem_of_mem_emplace hb with h2 | h2
      · rw [h1, h2]
      · rw [h1] at hab
        exact absurd hab.symm (hfresh b h2)
      · rw [h2] at hab
        exact absurd hab (hfresh a h1)
      · exact hd a h1 b h2 hab
    · intro a ha
      rw [hdec] at ha
      rcases TxMap.mem_of_mem_emplace ha with h1 | h1
      · rw [h1]; exact hcap
      · exact hc a h1
  | @reconstruct p q b _ hq ih =>
    obtain ⟨hwf, hd, hc⟩ := ih
    obtain ⟨hwf2, hdec⟩ := hwf.reconstruct_wf hd hc hq
    refine ⟨hwf2, ?_, ?_⟩
    · unfold FastTxPool.DistinctHashes
      rw [hdec]
      exact hd
    · unfold FastTxPool.CapsBelowMax
      rw [hdec]
      exact hc
  | @pop p q w _ hq ih =>
    obtain ⟨hwf, hd, hc⟩ := ih
    have hne : p.sbst_decision.length ≠ 0 := by
      intro h0
      simp [FastTxPool.pop_most_profitable_tx, h0] at hq
    obtain ⟨w2, q2, hpop, _, hl, hbf, hS, hD, hDec, _⟩ := hwf.pop_winner hne
    rw [hq] at hpop
    cases hpop
    refine ⟨⟨hl, ?_, ?_⟩, ?_, ?_⟩
    · intro e he
      obtain ⟨a, ha, ha2⟩ := ((hS e.2).1 ⟨e, he, rfl⟩).1
      rw [hbf, ← ha2]
      exact hwf.regime.static_capped a ha
    · intro e he
      obtain ⟨a, ha, ha2⟩ := ((hD e.2).1 ⟨e, he, rfl⟩).1
      rw [hbf, ← ha2]
      exact hwf.regime.dynamic_uncapped a ha
    · intro a ha b hb hab
      obtain ⟨a2, ha2, ha3⟩ := ((hDec a.2).1 ⟨a, ha, rfl⟩).1
      obtain ⟨b2, hb2, hb3⟩ := ((hDec b.2).1 ⟨b, hb, rfl⟩).1
      rw [← ha3, ← hb3]
      exact hd a2 ha2 b2 hb2 (by rw [ha3, hb3]; exact hab)
    · intro a ha
      obtain ⟨a2, ha2, ha3⟩ := ((hDec a.2).1 ⟨a, ha, rfl⟩).1
      rw [← ha3]
      exact hc a2 ha2

/-! ## Facts about the sizes of the maps -/

theorem TxMap.values_nodup {key : Tx → Key} {m : TxMap} (hs : m.Sorted) (hk : m.KeyedBy key) :
    (m.map Prod.snd).Nodup := by
  unfold List.Nodup
  rw [List.pairwise_map]
  refine List.Pairwise.imp_of_mem ?_ hs
  intro a b ha hb hlt hab
  rw [hk a ha, hk b hb, hab] at hlt
  exact Key.lt_irrefl _ hlt

theorem TxMap.mem_values {m : TxMap} {t : Tx} : t ∈ m.map Prod.snd ↔ m.Holds t := by
  unfold TxMap.Holds
  simp

/-- In a linked state the entries of `sbst_static` and `sbst_dynamic` together
are as many as those of `sbst_decision`. -/
theorem FastTxPool.Linked.count {p : FastTxPool} (hl : p.Linked) :
    p.sbst_static.length + p.sbst_dynamic.length = p.sbst_decision.length := by
  have h1 := TxMap.values_nodup hl.static_sorted hl.static_key
  have h2 := TxMap.values_nodup hl.dynamic_sorted hl.dynamic_key
  have h3 := TxMap.values_nodup hl.decision_sorted hl.decision_key
  have h4 : (p.sbst_static.map Prod.snd ++ p.sbst_dynamic.map Prod.snd).Nodup := by
    refine List.Nodup.append h1 h2 ?_
    rw [List.disjoint_left]
    intro t hs hd
    exact hl.not_both t (TxMap.mem_values.1 hs) (TxMap.mem_values.1 hd)
  have h5 : List.Perm (p.sbst_static.map Prod.snd ++ p.sbst_dynamic.map Prod.snd)
      (p.sbst_decision.map Prod.snd) := by
    rw [List.perm_ext_iff_of_nodup h4 h3]
    intro t
    rw [List.mem_append, TxMap.mem_values, TxMap.mem_values, TxMap.mem_values]
    exact (hl.held_iff t).symm
  have h6 := h5.length_eq
  simpa using h6

/-! ## The scenario is reachable -/

/-- The pool of the scenario after the first extraction and `reconstruct(35)`
is reachable. -/
theorem scenario2_reachable : scenario2.Reachable := by
  have h0 : scenario0.Reachable :=
    .add_tx tx3 (.add_tx tx2 (.add_tx tx1 (.empty 10) (by decide) (by decide))
      (by decide) (by decide)) (by decide) (by decide)
  have h1 : scenario0.pop_most_profitable_tx =
      .ok (tx2, ⟨10, [(staticKey tx1, tx1)], [(dynamicKey tx3, tx3)],
        [(decisionKey tx3, tx3), (decisionKey tx1, tx1)]⟩) := by decide
  have h2 : FastTxPool.reconstruct ⟨10, [(staticKey tx1, tx1)], [(dynamicKey tx3, tx3)],
      [(decisionKey tx3, tx3), (decisionKey tx1, tx1)]⟩ 35 = .ok scenario2 := by decide
  exact .reconstruct 35 (.pop h0 h1) h2


/-! ## Facts about NaiveTxPool -/

/-- Adding a transaction whose hash no held transaction has keeps a
NaiveTxPool well-formed and makes it hold the transaction. -/
theorem NaiveTxPool.WF.naive_add_tx_fresh {n : NaiveTxPool} (hwf : n.WF) (tx : Tx)
    (hfresh : ∀ e ∈ n.sbst, e.2.hash ≠ tx.hash) :
    (n.add_tx tx).WF ∧ (n.add_tx tx).base_fee = n.base_fee ∧
      ∀ t, (n.add_tx tx).Held t ↔ t = tx ∨ n.Held t := by
  have hnk : ¬ n.sbst.HasKey (naiveKey n.base_fee tx) := by
    rintro ⟨e, he, hk⟩
    apply hfresh e he
    rw [← hashKey_naive n.base_fee e.2, ← hashKey_naive n.base_fee tx, ← hwf.keyed e he, hk]
  exact ⟨⟨TxMap.emplace_sorted hwf.sorted, TxMap.keyedBy_emplace hwf.keyed tx⟩, rfl,
    TxMap.holds_emplace_new hnk⟩

theorem TxMap.holds_cons (e : Key × Tx) (rest : TxMap) (t : Tx) :
    TxMap.Holds (e :: rest) t ↔ t = e.2 ∨ TxMap.Holds rest t := by
  unfold TxMap.Holds
  constructor
  · rintro ⟨a, ha, rfl⟩
    rcases List.mem_cons.1 ha with h | h
    · exact Or.inl (by rw [h])
    · exact Or.inr ⟨a, h, rfl⟩
  · rintro (h | ⟨a, ha, rfl⟩)
    · exact ⟨e, List.mem_cons_self _ _, h.symm⟩
    · exact ⟨a, List.mem_cons_of_mem _ ha, rfl⟩

/-- The loop of `NaiveTxPool::reconstruct` run on entries with pairwise
distinct hashes yields an ordered map, keyed at the new base fee, that holds
the transactions it started with and those of the entries. -/
theorem NaiveTxPool.rebuild_spec (b : Int) (rest : TxMap) :
    ∀ acc : TxMap, acc.Sorted → acc.KeyedBy (naiveKey b) →
      (∀ e ∈ rest, ∀ a ∈ acc, a.2.hash ≠ e.2.hash) →
      rest.Pairwise (fun a c => a.2.hash ≠ c.2.hash) →
      TxMap.Sorted (NaiveTxPool.rebuild b rest acc) ∧
        TxMap.KeyedBy (naiveKey b) (NaiveTxPool.rebuild b rest acc) ∧
        ∀ t, TxMap.Holds (NaiveTxPool.rebuild b rest acc) t ↔ acc.Holds t ∨ TxMap.Holds rest t := by
  induction rest with
  | nil =>
    intro acc hs hk _ _
    refine ⟨hs, hk, fun t => ?_⟩
    simp [NaiveTxPool.rebuild, TxMap.Holds]
  | cons e rest ih =>
    intro acc hs hk hacc hp
    have hp2 := List.pairwise_cons.1 hp
    have hnk : ¬ acc.HasKey (naiveKey b e.2) := by
      rintro ⟨a, ha, hk2⟩
      apply hacc e (List.mem_cons_self _ _) a ha
      rw [← hashKey_naive b a.2, ← hashKey_naive b e.2, ← hk a ha, hk2]
    obtain ⟨h1, h2, h3⟩ := ih (acc.emplace (naiveKey b e.2) e.2) (TxMap.emplace_sorted hs)
      (TxMap.keyedBy_emplace hk e.2)
      (by
        intro c hc a ha
        rcases TxMap.mem_of_mem_emplace ha with h | h
        · rw [h]
          exact hp2.1 c hc
        · exact hacc c (List.mem_cons_of_mem _ hc) a h)
      hp2.2
    refine ⟨h1, h2, fun t => ?_⟩
    show TxMap.Holds (NaiveTxPool.rebuild b rest (acc.emplace (naiveKey b e.2) e.2)) t ↔ _
    rw [h3, TxMap.holds_emplace_new hnk, TxMap.holds_cons]
    tauto

/-- The method `NaiveTxPool::reconstruct` on a well-formed pool with distinct
hashes yields a well-formed pool at the new base fee with the same
transactions. -/
theorem NaiveTxPool.WF.naive_reconstruct_wf {n : NaiveTxPool} (hwf : n.WF)
    (hd : ∀ a ∈ n.sbst, ∀ c ∈ n.sbst, a.2.hash = c.2.hash → a.2 = c.2) (b : Int) :
    (n.reconstruct b).WF ∧ (n.reconstruct b).base_fee = b ∧
      ∀ t, (n.reconstruct b).Held t ↔ n.Held t := by
  have hp : n.sbst.Pairwise (fun a c => a.2.hash ≠ c.2.hash) := by
    refine List.Pairwise.imp_of_mem ?_ hwf.sorted
    intro a c ha hc hlt hh
    rw [hwf.keyed a ha, hwf.keyed c hc, hd a ha c hc hh] at hlt
    exact Key.lt_irrefl _ hlt
  obtain ⟨h1, h2, h3⟩ := NaiveTxPool.rebuild_spec b n.sbst [] List.Pairwise.nil
    (fun e he => by cases he) (fun e _ a ha => by cases ha) hp
  refine ⟨⟨h1, h2⟩, rfl, fun t => ?_⟩
  show TxMap.Holds (NaiveTxPool.rebuild b n.sbst []) t ↔ n.sbst.Holds t
  rw [h3]
  simp [TxMap.Holds]

/-! ## Facts about the two pools side by side -/

theorem naiveLe_trans {b : Int} {a c w : Tx} (h1 : naiveLe b a c) (h2 : naiveLe b c w) :
    naiveLe b a w := by
  unfold naiveLe Key.lt naiveKey at *
  simp only at *
  omega

/-- Without a `crossTie` the extraction of a well-formed, non-empty FastTxPool
returns a transaction that is last in the key order of NaiveTxPool. -/
theorem FastTxPool.WF.pop_naive_last {p : FastTxPool} (hwf : p.WF)
    (hne : p.sbst_decision.length ≠ 0) (hct : p.crossTie = false) :
    ∃ w q, p.pop_most_profitable_tx = .ok (w, q) ∧ p.Held w ∧
      ∀ t, p.Held t → naiveLe p.base_fee t w := by
  rcases FastTxPool.pop_cases hwf.linked hne with
    ⟨e, r, he, hwin, hr, hpop⟩ | ⟨e, r, he, hwin, hr, hpop⟩
  · have hem := List.mem_of_getLast?_eq_some he
    refine ⟨e.2, _, hpop, hwf.linked.static_cover e hem, ?_⟩
    intro t ht
    rcases (hwf.linked.held_iff t).1 ht with h | h
    · exact hwf.static_last he t h
    · obtain ⟨a, ha, _⟩ := id h
      obtain ⟨d, hd⟩ := TxMap.getLast_isSome (List.ne_nil_of_mem ha)
      have h1 := naiveLe_bribe (hwf.dynamic_last hd t h)
      have h2 := hwin d hd
      unfold naiveLe Key.lt naiveKey
      simp only
      omega
  · have hem := List.mem_of_getLast?_eq_some he
    refine ⟨e.2, _, hpop, hwf.linked.dynamic_cover e hem, ?_⟩
    intro t ht
    rcases (hwf.linked.held_iff t).1 ht with h | h
    · obtain ⟨a, ha, _⟩ := id h
      obtain ⟨s, hs⟩ := TxMap.getLast_isSome (List.ne_nil_of_mem ha)
      refine naiveLe_trans (hwf.static_last hs t h) ?_
      have hsm := List.mem_of_getLast?_eq_some hs
      have h2 := hwin s hs
      have hcs := hwf.regime.static_capped s hsm
      have hce := hwf.regime.dynamic_uncapped e hem
      have hb1 := Tx.miner_bribe_capped hcs
      have hb2 := Tx.miner_bribe_uncapped hce
      have h3 : ¬ (s.2.miner_bribe p.base_fee = e.2.miner_bribe p.base_fee ∧
          s.2.fee_cap = e.2.fee_cap ∧ e.2.hash < s.2.hash) := by
        simpa [FastTxPool.crossTie, hs, he] using hct
      unfold Tx.capped at hcs hce
      unfold naiveLe Key.lt naiveKey
      simp only
      omega
    · exact hwf.dynamic_last he t h

/-- A successful extraction keeps a FastTxPool well-formed, keeps the hashes
distinct and the `fee_cap`s below `INT32_MAX`, and removes the returned
transaction and nothing else. -/
theorem FastTxPool.WF.pop_preserves {p q : FastTxPool} {w : Tx} (hwf : p.WF)
    (hd : p.DistinctHashes) (hc : p.CapsBelowMax)
    (hq : p.pop_most_profitable_tx = .ok (w, q)) :
    q.WF ∧ q.DistinctHashes ∧ q.CapsBelowMax ∧ q.base_fee = p.base_fee ∧
      ∀ t, q.Held t ↔ p.Held t ∧ t ≠ w := by
  have hne : p.sbst_decision.length ≠ 0 := by
    intro h0
    simp [FastTxPool.pop_most_profitable_tx, h0] at hq
  obtain ⟨w2, q2, hpop, _, hl, hbf, hS, hD, hDec, _⟩ := hwf.pop_winner hne
  rw [hq] at hpop
  cases hpop
  refine ⟨⟨hl, ?_, ?_⟩, ?_, ?_, hbf, hDec⟩
  · intro e he
    obtain ⟨a, ha, ha2⟩ := ((hS e.2).1 ⟨e, he, rfl⟩).1
    rw [hbf, ← ha2]
    exact hwf.regime.static_capped a ha
  · intro e he
    obtain ⟨a, ha, ha2⟩ := ((hD e.2).1 ⟨e, he, rfl⟩).1
    rw [hbf, ← ha2]
    exact hwf.regime.dynamic_uncapped a ha
  · intro a ha b hb hab
    obtain ⟨a2, ha2, ha3⟩ := ((hDec a.2).1 ⟨a, ha, rfl⟩).1
    obtain ⟨b2, hb2, hb3⟩ := ((hDec b.2).1 ⟨b, hb, rfl⟩).1
    rw [← ha3, ← hb3]
    exact hd a2 ha2 b2 hb2 (by rw [ha3, hb3]; exact hab)
  · intro a ha
    obtain ⟨a2, ha2, ha3⟩ := ((hDec a.2).1 ⟨a, ha, rfl⟩).1
    rw [← ha3]
    exact hc a2 ha2

theorem Sim.naive_distinct {n : NaiveTxPool} {p : FastTxPool} (h : Sim n p) :
    ∀ a ∈ n.sbst, ∀ c ∈ n.sbst, a.2.hash = c.2.hash → a.2 = c.2 := by
  intro a ha c hc hh
  obtain ⟨a2, ha2, ha3⟩ := (h.held a.2).1 ⟨a, ha, rfl⟩
  obtain ⟨c2, hc2, hc3⟩ := (h.held c.2).1 ⟨c, hc, rfl⟩
  rw [← ha3, ← hc3]
  exact h.distinct a2 ha2 c2 hc2 (by rw [ha3, hc3]; exact hh)

theorem Sim.empty (b : Int) : Sim (NaiveTxPool.empty b) (FastTxPool.empty b) where
  base_fee := rfl
  naive_wf := ⟨List.Pairwise.nil, fun e he => by cases he⟩
  fast_wf := FastTxPool.empty_wf b
  distinct := fun a ha => by cases ha
  caps := fun a ha => by cases ha
  held := fun t => by simp [NaiveTxPool.Held, FastTxPool.Held, TxMap.Holds, NaiveTxPool.empty,
    FastTxPool.empty]

/-- The two pools stay side by side when the same fresh transaction is added. -/
theorem Sim.add_tx {n : NaiveTxPool} {p : FastTxPool} (h : Sim n p) (tx : Tx)
    (hcap : tx.fee_cap < INT32_MAX) (hfresh : ∀ e ∈ p.sbst_decision, e.2.hash ≠ tx.hash) :
    Sim (n.add_tx tx) (p.add_tx tx) := by
  have hfn : ∀ e ∈ n.sbst, e.2.hash ≠ tx.hash := by
    intro e he
    obtain ⟨a, ha, ha2⟩ := (h.held e.2).1 ⟨e, he, rfl⟩
    rw [← ha2]
    exact hfresh a ha
  obtain ⟨hnwf, hnb, hnh⟩ := h.naive_wf.naive_add_tx_fresh tx hfn
  obtain ⟨hpwf, hpb, _, _, hph, _, _⟩ := h.fast_wf.add_tx_fresh tx hfresh
  have hdec : (p.add_tx tx).sbst_decision = p.sbst_decision.emplace (decisionKey tx) tx :=
    (h.fast_wf.add_tx_fresh tx hfresh).2.2.2.2.2.1
  refine ⟨by rw [hnb, hpb, h.base_fee], hnwf, hpwf, ?_, ?_, ?_⟩
  · intro a ha b hb hab
    rw [hdec] at ha hb
    rcases TxMap.mem_of_mem_emplace ha with h1 | h1 <;>
      rcases TxMap.mem_of_mem_emplace hb with h2 | h2
    · rw [h1, h2]
    · rw [h1] at hab
      exact absurd hab.symm (hfresh b h2)
    · rw [h2] at hab
      exact absurd hab (hfresh a h1)
    · exact h.distinct a h1 b h2 hab
  · intro a ha
    rw [hdec] at ha
    rcases TxMap.mem_of_mem_emplace ha with h1 | h1
    · rw [h1]; exact hcap
    · exact h.caps a h1
  · intro t
    unfold FastTxPool.Held
    rw [hnh, hph]
    have := h.held t
    unfold FastTxPool.Held at this
    rw [this]

/-- The two pools stay side by side when the base fee changes. -/
theorem Sim.reconstruct {n : NaiveTxPool} {p : FastTxPool} (h : Sim n p) (b : Int) :
    ∃ q, p.reconstruct b = .ok q ∧ Sim (n.reconstruct b) q := by
  obtain ⟨q, hq, _⟩ := h.fast_wf.reconstruct_flips h.distinct h.caps b
  obtain ⟨hwf, hdec⟩ := h.fast_wf.reconstruct_wf h.distinct h.caps hq
  obtain ⟨hnwf, hnb, hnh⟩ := h.naive_wf.naive_reconstruct_wf h.naive_distinct b
  have hqb : q.base_fee = b := by
    obtain ⟨q2, hq2, _, _, hb, _⟩ := h.fast_wf.reconstruct_flips h.distinct h.caps b
    rw [hq] at hq2
    cases hq2
    exact hb
  refine ⟨q, hq, ⟨by rw [hnb, hqb], hnwf, hwf, ?_, ?_, ?_⟩⟩
  · unfold FastTxPool.DistinctHashes
    rw [hdec]
    exact h.distinct
  · unfold FastTxPool.CapsBelowMax
    rw [hdec]
    exact h.caps
  · intro t
    rw [hnh, h.held t]
    unfold FastTxPool.Held
    rw [hdec]

/-- Without a `crossTie` the two pools return the same transaction and stay
side by side. -/
theorem Sim.pop {n : NaiveTxPool} {p : FastTxPool} (h : Sim n p) (hne : 0 < p.size)
    (hct : p.crossTie = false) :
    ∃ w q m, p.pop_most_profitable_tx = .ok (w, q) ∧ n.pop_most_profitable_tx = .ok (w, m) ∧
      Sim m q := by
  have hne2 : p.sbst_decision.length ≠ 0 := Nat.pos_iff_ne_zero.1 hne
  obtain ⟨w, q, hpop, hheld, hmax⟩ := h.fast_wf.pop_naive_last hne2 hct
  have hnne : n.sbst.length ≠ 0 := by
    obtain ⟨a, ha, _⟩ := (h.held w).2 hheld
    intro h0
    rw [List.length_eq_zero.1 h0] at ha
    cases ha
  obtain ⟨v, m, hnpop, hvheld, hvmax, hmwf, hmb, hmh, _⟩ := h.naive_wf.pop_last hnne
  have hvw : v = w := by
    have h1 := hmax v ((h.held v).1 hvheld)
    have h2 := hvmax w ((h.held w).2 hheld)
    rw [h.base_fee] at h2
    have hk : naiveKey p.base_fee w = naiveKey p.base_fee v := Key.eq_of_not_lt h1 h2
    have hh : v.hash = w.hash := by
      rw [← hashKey_naive p.base_fee v, ← hashKey_naive p.base_fee w, hk]
    obtain ⟨a, ha, ha2⟩ := (h.held v).1 hvheld
    obtain ⟨c, hc, hc2⟩ := id hheld
    rw [← ha2, ← hc2]
    exact h.distinct a ha c hc (by rw [ha2, hc2]; exact hh)
  subst hvw
  obtain ⟨hqwf, hqd, hqc, hqb, hqh⟩ := h.fast_wf.pop_preserves h.distinct h.caps hpop
  refine ⟨v, q, m, hpop, hnpop, ⟨by rw [hmb, hqb, h.base_fee], hmwf, hqwf, hqd, hqc, ?_⟩⟩
  intro t
  rw [hmh, hqh, h.held t]

/-- On an admissible sequence of operations the two pools, started side by
side, both succeed, return the same transactions in the same order and earn
the same fee. -/
theorem Sim.run_agree (ops : List Op) :
    ∀ (n : NaiveTxPool) (p : FastTxPool), Sim n p → FastTxPool.admissible ops p = true →
      ∃ ws fee, FastTxPool.run ops p = .ok (ws, fee) ∧ NaiveTxPool.run ops n = .ok (ws, fee) := by
  induction ops with
  | nil =>
    intro n p _ _
    exact ⟨[], 0, rfl, rfl⟩
  | cons op ops ih =>
    intro n p h ha
    cases op with
    | add_tx tx =>
      simp only [FastTxPool.admissible, Bool.and_eq_true, decide_eq_true_eq,
        List.all_eq_true] at ha
      exact ih _ _ (h.add_tx tx ha.1.1 ha.1.2) ha.2
    | reconstruct b =>
      obtain ⟨q, hq, hsim⟩ := h.reconstruct b
      simp only [FastTxPool.admissible, hq] at ha
      obtain ⟨ws, fee, h1, h2⟩ := ih _ _ hsim ha
      exact ⟨ws, fee, by simp only [FastTxPool.run, hq, h1], by simp only [NaiveTxPool.run, h2]⟩
    | pop =>
      simp only [FastTxPool.admissible, Bool.and_eq_true, decide_eq_true_eq,
        Bool.not_eq_true'] at ha
      obtain ⟨w, q, m, hq, hm, hsim⟩ := h.pop ha.1.1 ha.1.2
      have ha2 := ha.2
      simp only [hq] at ha2
      obtain ⟨ws, fee, h1, h2⟩ := ih _ _ hsim ha2
      exact ⟨w :: ws, w.miner_bribe p.base_fee + fee,
        by simp only [FastTxPool.run, hq, h1],
        by simp only [NaiveTxPool.run, hm, h2, h.base_fee]⟩

/-! ## Facts about entries -/

theorem TxMap.mem_emplace_iff {m : TxMap} {k : Key} {v : Tx} (hn : ¬ m.HasKey k)
    (e : Key × Tx) : e ∈ m.emplace k v ↔ e = (k, v) ∨ e ∈ m := by
  constructor
  · exact TxMap.mem_of_mem_emplace
  · rintro (h | h)
    · rw [h]; exact TxMap.mem_emplace_new hn
    · exact TxMap.mem_emplace_of_mem h

/-- The keys `add_tx` computes for a transaction whose hash no held transaction
has are in none of the three maps. -/
theorem FastTxPool.Linked.fresh_keys {p : FastTxPool} (hl : p.Linked) {tx : Tx}
    (hfresh : ∀ e ∈ p.sbst_decision, e.2.hash ≠ tx.hash) :
    ¬ p.sbst_static.HasKey (staticKey tx) ∧ ¬ p.sbst_dynamic.HasKey (dynamicKey tx) ∧
      ¬ p.sbst_decision.HasKey (decisionKey tx) := by
  refine ⟨?_, ?_, ?_⟩
  · rintro ⟨e, he, hk⟩
    obtain ⟨a, ha, ha2⟩ := hl.static_cover e he
    apply hfresh a ha
    rw [ha2, ← hashKey_static e.2, ← hashKey_static tx, ← hl.static_key e he, hk]
  · rintro ⟨e, he, hk⟩
    obtain ⟨a, ha, ha2⟩ := hl.dynamic_cover e he
    apply hfresh a ha
    rw [ha2, ← hashKey_dynamic e.2, ← hashKey_dynamic tx, ← hl.dynamic_key e he, hk]
  · rintro ⟨e, he, hk⟩
    apply hfresh e he
    rw [← hashKey_decision e.2, ← hashKey_decision tx, ← hl.decision_key e he, hk]

/-! ## Ordered maps with the same entries are equal -/

theorem TxMap.entries_nodup {m : TxMap} (hs : m.Sorted) : m.Nodup := by
  unfold List.Nodup
  refine List.Pairwise.imp ?_ hs
  intro a b hlt hab
  rw [hab] at hlt
  exact Key.lt_irrefl _ hlt

theorem TxMap.ext_sorted {a b : TxMap} (ha : a.Sorted) (hb : b.Sorted)
    (h : ∀ e, e ∈ a ↔ e ∈ b) : a = b := by
  haveI : IsAntisymm (Key × Tx) (fun x y => Key.lt x.1 y.1) :=
    ⟨fun x y h1 h2 => absurd h2 (Key.lt_asymm h1)⟩
  exact List.eq_of_perm_of_sorted
    ((List.perm_ext_iff_of_nodup (TxMap.entries_nodup ha) (TxMap.entries_nodup hb)).2 h) ha hb

theorem TxMap.key_unique {m : TxMap} (hs : m.Sorted) {a b : Key × Tx} (ha : a ∈ m)
    (hb : b ∈ m) (hk : a.1 = b.1) : a = b := by
  have h1 : m.Pairwise (fun x y => x = y ∨ Key.lt x.1 y.1 ∨ Key.lt y.1 x.1) :=
    List.Pairwise.imp (fun h => Or.inr (Or.inl h)) hs
  have hsym : Symmetric (fun x y : Key × Tx => x = y ∨ Key.lt x.1 y.1 ∨ Key.lt y.1 x.1) := by
    intro x y h
    rcases h with h | h | h
    · exact Or.inl h.symm
    · exact Or.inr (Or.inr h)
    · exact Or.inr (Or.inl h)
  have h2 : a = b ∨ Key.lt a.1 b.1 ∨ Key.lt b.1 a.1 :=
    List.Pairwise.forall_of_forall hsym (fun x _ => Or.inl rfl) h1 ha hb
  rcases h2 with h | h | h
  · exact h
  · rw [hk] at h; exact absurd h (Key.lt_irrefl _)
  · rw [hk] at h; exact absurd h (Key.lt_irrefl _)

/-- Putting the last entry back after `erase(prev(end()))` restores the map. -/
theorem TxMap.emplace_dropLast {m : TxMap} {e : Key × Tx} (hs : m.Sorted)
    (he : m.getLast? = some e) : TxMap.emplace m.dropLast e.1 e.2 = m := by
  obtain ⟨hm, hmax, hds, hd, _⟩ := TxMap.getLast_spec hs he
  have hnk : ¬ TxMap.HasKey m.dropLast e.1 := by
    rintro ⟨a, ha, hk⟩
    have h1 := (hd a).1 ha
    exact h1.2 (TxMap.key_unique hs h1.1 hm hk)
  refine TxMap.ext_sorted (TxMap.emplace_sorted hds) hs (fun a => ?_)
  rw [TxMap.mem_emplace_iff hnk, hd]
  constructor
  · rintro (h | h)
    · rw [h]; exact hm
    · exact h.1
  · intro h
    by_cases hae : a = e
    · exact Or.inl (by rw [hae])
    · exact Or.inr ⟨h, hae⟩

/-- Putting an entry back after `erase(find(k))` restores the map. -/
theorem TxMap.emplace_eraseKey {m r : TxMap} {k : Key} {v : Tx} (hs : m.Sorted)
    (hr : m.eraseKey k = some r) (hm : (k, v) ∈ m) : r.emplace k v = m := by
  have hmem := TxMap.mem_eraseKey hs hr
  have hnk : ¬ r.HasKey k := by
    rintro ⟨a, ha, hk⟩
    exact ((hmem a).1 ha).2 hk
  refine TxMap.ext_sorted (TxMap.emplace_sorted (TxMap.eraseKey_sorted hs hr)) hs (fun a => ?_)
  rw [TxMap.mem_emplace_iff hnk, hmem]
  constructor
  · rintro (h | h)
    · rw [h]; exact hm
    · exact h.1
  · intro h
    by_cases hak : a.1 = k
    · exact Or.inl (TxMap.key_unique hs h hm hak)
    · exact Or.inr ⟨h, hak⟩

/-- Adding the transaction an extraction returned restores a well-formed
FastTxPool. -/
theorem FastTxPool.WF.pop_add_tx {p : FastTxPool} (hwf : p.WF)
    (hne : p.sbst_decision.length ≠ 0) :
    ∃ w q, p.pop_most_profitable_tx = .ok (w, q) ∧ q.add_tx w = p := by
  have hl := hwf.linked
  rcases FastTxPool.pop_cases hl hne with ⟨e, r, he, _, hr, hpop⟩ | ⟨e, r, he, _, hr, hpop⟩
  · have hem := List.mem_of_getLast?_eq_some he
    have hc : e.2.capped p.base_fee := hwf.regime.static_capped e hem
    have hdm : (decisionKey e.2, e.2) ∈ p.sbst_decision :=
      (TxMap.holds_iff_mem hl.decision_key e.2).1 (hl.static_cover e hem)
    refine ⟨e.2, _, hpop, ?_⟩
    rw [@FastTxPool.add_tx_capped
      { p with sbst_static := p.sbst_static.dropLast, sbst_decision := r } e.2 hc]
    have h1 : TxMap.emplace p.sbst_static.dropLast (staticKey e.2) e.2 = p.sbst_static := by
      rw [← hl.static_key e hem]
      exact TxMap.emplace_dropLast hl.static_sorted he
    have h2 : r.emplace (decisionKey e.2) e.2 = p.sbst_decision :=
      TxMap.emplace_eraseKey hl.decision_sorted hr hdm
    simp only [h1, h2]
  · have hem := List.mem_of_getLast?_eq_some he
    have hc : ¬ e.2.capped p.base_fee := hwf.regime.dynamic_uncapped e hem
    have hdm : (decisionKey e.2, e.2) ∈ p.sbst_decision :=
      (TxMap.holds_iff_mem hl.decision_key e.2).1 (hl.dynamic_cover e hem)
    refine ⟨e.2, _, hpop, ?_⟩
    rw [@FastTxPool.add_tx_uncapped
      { p with sbst_dynamic := p.sbst_dynamic.dropLast, sbst_decision := r } e.2 hc]
    have h1 : TxMap.emplace p.sbst_dynamic.dropLast (dynamicKey e.2) e.2 = p.sbst_dynamic := by
      rw [← hl.dynamic_key e hem]
      exact TxMap.emplace_dropLast hl.dynamic_sorted he
    have h2 : r.emplace (decisionKey e.2) e.2 = p.sbst_decision :=
      TxMap.emplace_eraseKey hl.decision_sorted hr hdm
    simp only [h1, h2]

/-- Adding the transaction an extraction returned restores a well-formed
NaiveTxPool. -/
theorem NaiveTxPool.WF.naive_pop_add_tx {n : NaiveTxPool} (hwf : n.WF)
    (hne : n.sbst.length ≠ 0) :
    ∃ w m, n.pop_most_profitable_tx = .ok (w, m) ∧ m.add_tx w = n := by
  have hnil : n.sbst ≠ [] := fun h => hne (by rw [h]; rfl)
  obtain ⟨e, he⟩ := TxMap.getLast_isSome hnil
  have hem := List.mem_of_getLast?_eq_some he
  refine ⟨e.2, { n with sbst := n.sbst.dropLast }, ?_, ?_⟩
  · simp [NaiveTxPool.pop_most_profitable_tx, he]
  · unfold NaiveTxPool.add_tx
    have h1 : TxMap.emplace n.sbst.dropLast (naiveKey n.base_fee e.2) e.2 = n.sbst := by
      rw [← hwf.keyed e hem]
      exact TxMap.emplace_dropLast hwf.sorted he
    simp only [h1]

/-! ## Well-formed states with the same transactions are equal -/

theorem FastTxPool.WF.ext {p q : FastTxPool} (hp : p.WF) (hq : q.WF)
    (hb : p.base_fee = q.base_fee) (h : ∀ t, p.Held t ↔ q.Held t) : p = q := by
  have hS : ∀ {a b : FastTxPool}, a.WF → b.WF → a.base_fee = b.base_fee →
      (∀ t, a.Held t → b.Held t) → ∀ e, e ∈ a.sbst_static → e ∈ b.sbst_static := by
    intro a b ha hb2 hab hh e he
    have h1 : b.sbst_static.Holds e.2 :=
      hb2.static_of_capped (hh e.2 (ha.linked.static_cover e he))
        (hab ▸ ha.regime.static_capped e he)
    have h2 := (TxMap.holds_iff_mem hb2.linked.static_key e.2).1 h1
    rw [← ha.linked.static_key e he] at h2
    exact h2
  have hD : ∀ {a b : FastTxPool}, a.WF → b.WF → a.base_fee = b.base_fee →
      (∀ t, a.Held t → b.Held t) → ∀ e, e ∈ a.sbst_dynamic → e ∈ b.sbst_dynamic := by
    intro a b ha hb2 hab hh e he
    have h1 : b.sbst_dynamic.Holds e.2 :=
      hb2.dynamic_of_uncapped (hh e.2 (ha.linked.dynamic_cover e he))
        (hab ▸ ha.regime.dynamic_uncapped e he)
    have h2 := (TxMap.holds_iff_mem hb2.linked.dynamic_key e.2).1 h1
    rw [← ha.linked.dynamic_key e he] at h2
    exact h2
  have hDec : ∀ {a b : FastTxPool}, a.WF → b.WF →
      (∀ t, a.Held t → b.Held t) → ∀ e, e ∈ a.sbst_decision → e ∈ b.sbst_decision := by
    intro a b ha hb2 hh e he
    have h2 := (TxMap.holds_iff_mem hb2.linked.decision_key e.2).1 (hh e.2 ⟨e, he, rfl⟩)
    rw [← ha.linked.decision_key e he] at h2
    exact h2
  have h1 : p.sbst_static = q.sbst_static :=
    TxMap.ext_sorted hp.linked.static_sorted hq.linked.static_sorted fun e =>
      ⟨hS hp hq hb (fun t => (h t).1) e, hS hq hp hb.symm (fun t => (h t).2) e⟩
  have h2 : p.sbst_dynamic = q.sbst_dynamic :=
    TxMap.ext_sorted hp.linked.dynamic_sorted hq.linked.dynamic_sorted fun e =>
      ⟨hD hp hq hb (fun t => (h t).1) e, hD hq hp hb.symm (fun t => (h t).2) e⟩
  have h3 : p.sbst_decision = q.sbst_decision :=
    TxMap.ext_sorted hp.linked.decision_sorted hq.linked.decision_sorted fun e =>
      ⟨hDec hp hq (fun t => (h t).1) e, hDec hq hp (fun t => (h t).2) e⟩
  cases p
  cases q
  simp only [FastTxPool.mk.injEq]
  exact ⟨hb, h1, h2, h3⟩

/-- Adding transactions with pairwise distinct hashes, none of them the hash of
a held transaction, keeps a FastTxPool well-formed and makes it hold them. -/
theorem FastTxPool.WF.foldl_add_tx (l : List Tx) :
    ∀ s : FastTxPool, s.WF → l.Pairwise (fun a c => a.hash ≠ c.hash) →
      (∀ t ∈ l, ∀ e ∈ s.sbst_decision, e.2.hash ≠ t.hash) →
      (l.foldl FastTxPool.add_tx s).WF ∧ (l.foldl FastTxPool.add_tx s).base_fee = s.base_fee ∧
        ∀ t, (l.foldl FastTxPool.add_tx s).Held t ↔ s.Held t ∨ t ∈ l := by
  induction l with
  | nil =>
    intro s hs _ _
    exact ⟨hs, rfl, fun t => by simp⟩
  | cons a l ih =>
    intro s hs hp hf
    have hp2 := List.pairwise_cons.1 hp
    obtain ⟨hwf, hbf, _, _, hheld, hdec, _⟩ :=
      hs.add_tx_fresh a (hf a (List.mem_cons_self _ _))
    obtain ⟨h1, h2, h3⟩ := ih (s.add_tx a) hwf hp2.2 (by
      intro t ht e he
      rw [hdec] at he
      rcases TxMap.mem_of_mem_emplace he with h | h
      · rw [h]
        exact hp2.1 t ht
      · exact hf t (List.mem_cons_of_mem _ ht) e h)
    refine ⟨h1, h2.trans hbf, fun t => ?_⟩
    show (l.foldl FastTxPool.add_tx (s.add_tx a)).Held t ↔ _
    rw [h3]
    unfold FastTxPool.Held
    rw [hheld, List.mem_cons]
    tauto

theorem FastTxPool.DistinctHashes.values_pairwise {p : FastTxPool} (hd : p.DistinctHashes)
    (hl : p.Linked) : (p.sbst_decision.map Prod.snd).Pairwise (fun a c => a.hash ≠ c.hash) := by
  rw [List.pairwise_map]
  refine List.Pairwise.imp_of_mem ?_ hl.decision_sorted
  intro a c ha hc hlt hh
  rw [hl.decision_key a ha, hl.decision_key c hc, hd a ha c hc hh] at hlt
  exact Key.lt_irrefl _ hlt

/-! ## Facts about the states of the two pools after a run -/

theorem Sim.size_eq {n : NaiveTxPool} {p : FastTxPool} (h : Sim n p) : n.size = p.size := by
  have h1 := TxMap.values_nodup h.naive_wf.sorted h.naive_wf.keyed
  have h2 := TxMap.values_nodup h.fast_wf.linked.decision_sorted h.fast_wf.linked.decision_key
  have h3 : List.Perm (n.sbst.map Prod.snd) (p.sbst_decision.map Prod.snd) := by
    rw [List.perm_ext_iff_of_nodup h1 h2]
    intro t
    rw [TxMap.mem_values, TxMap.mem_values]
    exact h.held t
  have h4 := h3.length_eq
  simpa [NaiveTxPool.size, FastTxPool.size] using h4

/-- On an admissible sequence of operations the two pools, started side by
side, both succeed and end side by side. -/
theorem Sim.after_agree (ops : List Op) :
    ∀ (n : NaiveTxPool) (p : FastTxPool), Sim n p → FastTxPool.admissible ops p = true →
      ∃ q m, FastTxPool.after ops p = .ok q ∧ NaiveTxPool.after ops n = .ok m ∧ Sim m q := by
  induction ops with
  | nil =>
    intro n p h _
    exact ⟨p, n, rfl, rfl, h⟩
  | cons op ops ih =>
    intro n p h ha
    cases op with
    | add_tx tx =>
      simp only [FastTxPool.admissible, Bool.and_eq_true, decide_eq_true_eq,
        List.all_eq_true] at ha
      exact ih _ _ (h.add_tx tx ha.1.1 ha.1.2) ha.2
    | reconstruct b =>
      obtain ⟨q, hq, hsim⟩ := h.reconstruct b
      simp only [FastTxPool.admissible, hq] at ha
      obtain ⟨q2, m2, h1, h2, h3⟩ := ih _ _ hsim ha
      exact ⟨q2, m2, by simp only [FastTxPool.after, hq, h1],
        by simp only [NaiveTxPool.after, h2], h3⟩
    | pop =>
      simp only [FastTxPool.admissible, Bool.and_eq_true, decide_eq_true_eq,
        Bool.not_eq_true'] at ha
      obtain ⟨w, q, m, hq, hm, hsim⟩ := h.pop ha.1.1 ha.1.2
      have ha2 := ha.2
      simp only [hq] at ha2
      obtain ⟨q2, m2, h1, h2, h3⟩ := ih _ _ hsim ha2
      exact ⟨q2, m2, by simp only [FastTxPool.after, hq, h1],
        by simp only [NaiveTxPool.after, hm, h2], h3⟩

/-- Side by side, the two pools return transactions that pay the same. -/
theorem Sim.pop_same_bribe {n : NaiveTxPool} {p : FastTxPool} (h : Sim n p) (hne : 0 < p.size) :
    ∃ w q v m, p.pop_most_profitable_tx = .ok (w, q) ∧ n.pop_most_profitable_tx = .ok (v, m) ∧
      w.miner_bribe p.base_fee = v.miner_bribe n.base_fee := by
  obtain ⟨w, q, hpop, hwin, _⟩ := h.fast_wf.pop_winner (Nat.pos_iff_ne_zero.1 hne)
  have hwh := hwin.held h.fast_wf.linked
  have hnne : n.sbst.length ≠ 0 := by
    have := h.size_eq
    unfold NaiveTxPool.size at this
    omega
  obtain ⟨v, m, hnpop, hvh, hvmax, _⟩ := h.naive_wf.pop_last hnne
  refine ⟨w, q, v, m, hpop, hnpop, ?_⟩
  have h1 := hwin.max_bribe h.fast_wf.linked v ((h.held v).1 hvh)
  have h2 := naiveLe_bribe (hvmax w ((h.held w).2 hwh))
  rw [h.base_fee] at h2 ⊢
  omega

/-! ## The claims -/

/-- C1. Regime invariant: in every state reached from the empty pool by `add_tx`,
`reconstruct` and `pop_most_profitable_tx`, with pairwise distinct hashes and
every `fee_cap` below `INT32_MAX`, every transaction of `sbst_static` has
`fee_cap - base_fee >= max_miner_bribe`, every transaction of `sbst_dynamic`
has `fee_cap - base_fee < max_miner_bribe`, and `_check_invalid` does not
assert. -/
theorem reachable_regime (p : FastTxPool) (h : p.Reachable) :
    (∀ e ∈ p.sbst_static, e.2.fee_cap - p.base_fee ≥ e.2.max_miner_bribe) ∧
    (∀ e ∈ p.sbst_dynamic, e.2.fee_cap - p.base_fee < e.2.max_miner_bribe) ∧
    p.check_invalid = true := by
  obtain ⟨hwf, _, _⟩ := h.invariant
  have h1 : ∀ e ∈ p.sbst_static, e.2.fee_cap - p.base_fee ≥ e.2.max_miner_bribe :=
    hwf.regime.static_capped
  have h2 : ∀ e ∈ p.sbst_dynamic, e.2.fee_cap - p.base_fee < e.2.max_miner_bribe := by
    intro e he
    have := hwf.regime.dynamic_uncapped e he
    unfold Tx.capped at this
    omega
  refine ⟨h1, h2, ?_⟩
  unfold FastTxPool.check_invalid
  simp only [Bool.and_eq_true, List.all_eq_true, Bool.not_eq_true', decide_eq_false_iff_not]
  constructor
  · intro e he
    have := h1 e he
    omega
  · intro e he
    have := h2 e he
    omega

/-- Witness of C1 on the scenario after the first extraction and
`reconstruct(35)`. -/
theorem reachable_regime_witness :
    (∀ e ∈ scenario2.sbst_static, e.2.fee_cap - scenario2.base_fee ≥ e.2.max_miner_bribe) ∧
    (∀ e ∈ scenario2.sbst_dynamic, e.2.fee_cap - scenario2.base_fee < e.2.max_miner_bribe) ∧
    scenario2.check_invalid = true :=
  reachable_regime scenario2 scenario2_reachable

/-- C2. Extraction correctness: on every non-empty well-formed FastTxPool the
call `pop_most_profitable_tx` returns a held transaction whose `miner_bribe` at
the current base fee is at least that of every held transaction. -/
theorem pop_returns_max_bribe (p : FastTxPool) (hwf : p.WF) (hne : 0 < p.size) :
    ∃ w q, p.pop_most_profitable_tx = .ok (w, q) ∧ p.Held w ∧
      ∀ t, p.Held t → t.miner_bribe p.base_fee ≤ w.miner_bribe p.base_fee := by
  obtain ⟨w, q, hpop, hwin, _⟩ := hwf.pop_winner (Nat.pos_iff_ne_zero.1 hne)
  exact ⟨w, q, hpop, hwin.held hwf.linked, hwin.max_bribe hwf.linked⟩

/-- Witness of C2 on the pool of the scenario. -/
theorem pop_returns_max_bribe_witness :
    scenario0.WF ∧ 0 < scenario0.size ∧
      ∃ w q, scenario0.pop_most_profitable_tx = .ok (w, q) ∧ scenario0.Held w ∧
        ∀ t, scenario0.Held t → t.miner_bribe scenario0.base_fee ≤ w.miner_bribe scenario0.base_fee :=
  ⟨by decide, by decide, pop_returns_max_bribe scenario0 (by decide) (by decide)⟩

/-- C3, counterexample. On two transactions with distinct hashes that tie at
base fee 10, one Capped and one not, followed by an extraction, a lower base
fee and a second extraction, both pools succeed but return the transactions in
opposite orders and earn different fees (25 and 20). -/
theorem naive_fast_diverge :
    NaiveTxPool.run divergingOps (NaiveTxPool.empty 10) =
      .ok ([⟨20, 10, 2⟩, ⟨20, 20, 1⟩], 25) ∧
    FastTxPool.run divergingOps (FastTxPool.empty 10) =
      .ok ([⟨20, 20, 1⟩, ⟨20, 10, 2⟩], 20) ∧
    NaiveTxPool.run divergingOps (NaiveTxPool.empty 10) ≠
      FastTxPool.run divergingOps (FastTxPool.empty 10) := by
  decide

/-- C3, amended. For every initial base fee and every sequence of operations
that adds only transactions with `fee_cap` below `INT32_MAX` and a hash no held
transaction has, extracts only from a non-empty pool, and meets no `crossTie`
at an extraction, the two pools started empty both succeed, return the same
transactions in the same order and earn the same fee. -/
theorem naive_fast_agree (base_fee : Int) (ops : List Op)
    (h : FastTxPool.admissible ops (FastTxPool.empty base_fee) = true) :
    ∃ ws fee, FastTxPool.run ops (FastTxPool.empty base_fee) = .ok (ws, fee) ∧
      NaiveTxPool.run ops (NaiveTxPool.empty base_fee) = .ok (ws, fee) :=
  Sim.run_agree ops _ _ (Sim.empty base_fee) h

/-- Witness of C3 on the operations of the scenario. -/
theorem naive_fast_agree_witness :
    FastTxPool.admissible scenarioOps (FastTxPool.empty 10) = true ∧
    ∃ ws fee, FastTxPool.run scenarioOps (FastTxPool.empty 10) = .ok (ws, fee) ∧
      NaiveTxPool.run scenarioOps (NaiveTxPool.empty 10) = .ok (ws, fee) :=
  ⟨by decide, naive_fast_agree 10 scenarioOps (by decide)⟩

/-- C4, the code at the failing input. The pool at base fee 0 holding only
`(INT32_MAX, INT32_MAX, -1)` is well-formed, the transaction is in
`sbst_static` and its `fee_cap - max_miner_bribe = 0` lies in `[0, 1)`; yet
`reconstruct(1)` leaves it in `sbst_static`, not in `sbst_dynamic`, and
`_check_invalid` asserts on the result: the scan starts at the key
`(0, -INT32_MAX, 0)`, which is above the key `(0, -INT32_MAX, -1)` of the
transaction. -/
theorem reconstruct_misses_sentinel :
    sentinelPool.WF ∧ sentinelPool.DistinctHashes ∧ sentinelPool.base_fee = 0 ∧
    sentinelPool.sbst_static.Holds sentinelTx ∧
    0 ≤ sentinelTx.fee_cap - sentinelTx.max_miner_bribe ∧
    sentinelTx.fee_cap - sentinelTx.max_miner_bribe < 1 ∧
    sentinelPool.sbst_decision.range (0, -INT32_MAX, 0) (1, -INT32_MAX, 0) = [] ∧
    sentinelPool.reconstruct 1 = .ok { sentinelPool with base_fee := 1 } ∧
    ¬ TxMap.Holds (FastTxPool.sbst_dynamic { sentinelPool with base_fee := 1 }) sentinelTx ∧
    TxMap.Holds (FastTxPool.sbst_static { sentinelPool with base_fee := 1 }) sentinelTx ∧
    FastTxPool.check_invalid { sentinelPool with base_fee := 1 } = false := by
  decide

/-- C5. Index consistency: in every reachable state `size()` is the number of
entries of `sbst_decision`, the numbers of entries of `sbst_static` and
`sbst_dynamic` add up to `size()`, and every transaction of one of the maps is
in `sbst_decision` and in exactly one of `sbst_static` and `sbst_dynamic`. -/
theorem reachable_index_consistency (p : FastTxPool) (h : p.Reachable) :
    p.size = p.sbst_decision.length ∧
    p.sbst_static.length + p.sbst_dynamic.length = p.size ∧
    ∀ t, p.sbst_static.Holds t ∨ p.sbst_dynamic.Holds t ∨ p.sbst_decision.Holds t →
      p.sbst_decision.Holds t ∧
      ((p.sbst_static.Holds t ∧ ¬ p.sbst_dynamic.Holds t) ∨
       (p.sbst_dynamic.Holds t ∧ ¬ p.sbst_static.Holds t)) := by
  obtain ⟨hwf, _, _⟩ := h.invariant
  have hl := hwf.linked
  refine ⟨rfl, hl.count, ?_⟩
  intro t ht
  have hi := hl.held_iff t
  unfold FastTxPool.Held at hi
  have hheld : p.sbst_decision.Holds t := by
    rcases ht with h1 | h1 | h1
    · exact hi.2 (Or.inl h1)
    · exact hi.2 (Or.inr h1)
    · exact h1
  refine ⟨hheld, ?_⟩
  rcases hi.1 hheld with h1 | h1
  · exact Or.inl ⟨h1, hl.not_both t h1⟩
  · exact Or.inr ⟨h1, fun h2 => hl.not_both t h2 h1⟩

/-- Witness of C5 on the scenario after the first extraction and
`reconstruct(35)`. -/
theorem reachable_index_consistency_witness :
    scenario2.size = scenario2.sbst_decision.length ∧
    scenario2.sbst_static.length + scenario2.sbst_dynamic.length = scenario2.size ∧
    ∀ t, scenario2.sbst_static.Holds t ∨ scenario2.sbst_dynamic.Holds t ∨
        scenario2.sbst_decision.Holds t →
      scenario2.sbst_decision.Holds t ∧
      ((scenario2.sbst_static.Holds t ∧ ¬ scenario2.sbst_dynamic.Holds t) ∨
       (scenario2.sbst_dynamic.Holds t ∧ ¬ scenario2.sbst_static.Holds t)) :=
  reachable_index_consistency scenario2 scenario2_reachable

/-- C6, counterexample. Of two held transactions that pay the same maximal
bribe the one with the LOWER `fee_cap` is returned, and of two that also have
the same `fee_cap` the one with the HIGHER `hash`, in both pools. -/
theorem pop_tie_break_not_higher_cap :
    (tieCapFast.WF ∧ tieCapNaive.WF ∧ tieHashFast.WF ∧ tieHashNaive.WF) ∧
    (tieCapFast.Held ⟨50, 20, 1⟩ ∧ tieCapFast.Held ⟨60, 20, 2⟩ ∧
      tieCapNaive.Held ⟨50, 20, 1⟩ ∧ tieCapNaive.Held ⟨60, 20, 2⟩ ∧
      Tx.miner_bribe ⟨50, 20, 1⟩ 10 = Tx.miner_bribe ⟨60, 20, 2⟩ 10 ∧
      tieCapFast.pop_most_profitable_tx.map Prod.fst = .ok ⟨50, 20, 1⟩ ∧
      tieCapNaive.pop_most_profitable_tx.map Prod.fst = .ok ⟨50, 20, 1⟩) ∧
    (tieHashFast.Held ⟨50, 20, 1⟩ ∧ tieHashFast.Held ⟨50, 20, 2⟩ ∧
      tieHashNaive.Held ⟨50, 20, 1⟩ ∧ tieHashNaive.Held ⟨50, 20, 2⟩ ∧
      Tx.miner_bribe ⟨50, 20, 1⟩ 10 = Tx.miner_bribe ⟨50, 20, 2⟩ 10 ∧
      tieHashFast.pop_most_profitable_tx.map Prod.fst = .ok ⟨50, 20, 2⟩ ∧
      tieHashNaive.pop_most_profitable_tx.map Prod.fst = .ok ⟨50, 20, 2⟩) := by
  decide

/-- C6, amended. On well-formed non-empty pools the extraction returns a held
transaction `w` of maximal bribe such that every held `t` with the same bribe
has `fee_cap` at least that of `w`.  In NaiveTxPool, when `t` also has the
`fee_cap` of `w`, its hash is at most that of `w`.  In FastTxPool, `w` is in
`sbst_dynamic` whenever `t` is, and when `t` has the `fee_cap` of `w` and is in
the same map as `w`, its hash is at most that of `w`. -/
theorem pop_tie_break (p : FastTxPool) (n : NaiveTxPool) (hp : p.WF) (hn : n.WF)
    (hpne : 0 < p.size) (hnne : 0 < n.size) :
    (∃ w q, p.pop_most_profitable_tx = .ok (w, q) ∧ p.Held w ∧
      ∀ t, p.Held t → t.miner_bribe p.base_fee ≤ w.miner_bribe p.base_fee ∧
        (t.miner_bribe p.base_fee = w.miner_bribe p.base_fee →
          w.fee_cap ≤ t.fee_cap ∧
          (p.sbst_dynamic.Holds t → p.sbst_dynamic.Holds w) ∧
          (t.fee_cap = w.fee_cap → (p.sbst_static.Holds t ↔ p.sbst_static.Holds w) →
            t.hash ≤ w.hash))) ∧
    (∃ w q, n.pop_most_profitable_tx = .ok (w, q) ∧ n.Held w ∧
      ∀ t, n.Held t → t.miner_bribe n.base_fee ≤ w.miner_bribe n.base_fee ∧
        (t.miner_bribe n.base_fee = w.miner_bribe n.base_fee →
          w.fee_cap ≤ t.fee_cap ∧ (t.fee_cap = w.fee_cap → t.hash ≤ w.hash))) := by
  constructor
  · obtain ⟨w, q, hpop, hwin, _⟩ := hp.pop_winner (Nat.pos_iff_ne_zero.1 hpne)
    refine ⟨w, q, hpop, hwin.held hp.linked, fun t ht => ⟨hwin.max_bribe hp.linked t ht, ?_⟩⟩
    intro hb
    rcases hwin with ⟨hw, h1, h2⟩ | ⟨hw, h1, h2⟩
    · rcases (hp.linked.held_iff t).1 ht with h | h
      · have h3 := naiveLe_tie (h1 t h) hb
        exact ⟨h3.1, fun hd => absurd hd (hp.linked.not_both t h), fun hc _ => h3.2 hc⟩
      · have := h2 t h
        omega
    · rcases (hp.linked.held_iff t).1 ht with h | h
      · obtain ⟨a, ha, rfl⟩ := id h
        obtain ⟨d, hd, rfl⟩ := id hw
        have hca := hp.regime.static_capped a ha
        have hcd := hp.regime.dynamic_uncapped d hd
        rw [Tx.miner_bribe_capped hca, Tx.miner_bribe_uncapped hcd] at hb
        unfold Tx.capped at hca
        refine ⟨by omega, fun h5 => absurd h5 (hp.linked.not_both _ h), fun _ hiff => ?_⟩
        exact absurd (hiff.1 h) (fun h5 => hp.linked.not_both _ h5 hw)
      · have h3 := naiveLe_tie (h1 t h) hb
        exact ⟨h3.1, fun _ => hw, fun hc _ => h3.2 hc⟩
  · obtain ⟨w, q, hpop, hheld, hmax, _⟩ := hn.pop_last (Nat.pos_iff_ne_zero.1 hnne)
    exact ⟨w, q, hpop, hheld, fun t ht => ⟨naiveLe_bribe (hmax t ht), naiveLe_tie (hmax t ht)⟩⟩

/-- Witness of C6 on the pools with a tie. -/
theorem pop_tie_break_witness :
    tieCapFast.WF ∧ tieCapNaive.WF ∧ 0 < tieCapFast.size ∧ 0 < tieCapNaive.size ∧
    (∃ w q, tieCapFast.pop_most_profitable_tx = .ok (w, q) ∧ tieCapFast.Held w ∧
      ∀ t, tieCapFast.Held t →
        t.miner_bribe tieCapFast.base_fee ≤ w.miner_bribe tieCapFast.base_fee ∧
        (t.miner_bribe tieCapFast.base_fee = w.miner_bribe tieCapFast.base_fee →
          w.fee_cap ≤ t.fee_cap ∧
          (tieCapFast.sbst_dynamic.Holds t → tieCapFast.sbst_dynamic.Holds w) ∧
          (t.fee_cap = w.fee_cap →
            (tieCapFast.sbst_static.Holds t ↔ tieCapFast.sbst_static.Holds w) →
            t.hash ≤ w.hash))) ∧
    (∃ w q, tieCapNaive.pop_most_profitable_tx = .ok (w, q) ∧ tieCapNaive.Held w ∧
      ∀ t, tieCapNaive.Held t →
        t.miner_bribe tieCapNaive.base_fee ≤ w.miner_bribe tieCapNaive.base_fee ∧
        (t.miner_bribe tieCapNaive.base_fee = w.miner_bribe tieCapNaive.base_fee →
          w.fee_cap ≤ t.fee_cap ∧ (t.fee_cap = w.fee_cap → t.hash ≤ w.hash))) :=
  ⟨by decide, by decide, by decide, by decide,
    pop_tie_break tieCapFast tieCapNaive (by decide) (by decide) (by decide) (by decide)⟩

/-- C7. The scenario, first extraction: after the three insertions at base fee
10, items 1 and 2 are the entries of `sbst_static` and pay 20 and 40, item 3 is
the entry of `sbst_dynamic` and pays 20, and the extraction returns item 2. -/
theorem scenario_first_extraction :
    scenario0.sbst_static = [(staticKey tx1, tx1), (staticKey tx2, tx2)] ∧
      scenario0.sbst_dynamic = [(dynamicKey tx3, tx3)] ∧
      tx1.miner_bribe 10 = 20 ∧ tx2.miner_bribe 10 = 40 ∧ tx3.miner_bribe 10 = 20 ∧
      scenario0.pop_most_profitable_tx.map Prod.fst = .ok tx2 := by
  decide

/-- C8, counterexample. The second extraction of the scenario does not return
item 3: it returns item 1, which pays more at base fee 35. -/
theorem scenario_second_extraction_not_item3 :
    scenarioSecond.map Prod.fst ≠ .ok tx3 ∧ scenarioSecond.map Prod.fst = .ok tx1 ∧
      tx3.miner_bribe 35 < tx1.miner_bribe 35 := by
  decide

/-- C8, amended. After the first extraction and `reconstruct(35)` the pool is
at base fee 35, `sbst_static` is empty and the held items 1 and 3 are both in
`sbst_dynamic`, item 1 under key `(50, -50, 1)` above item 3 under key
`(30, -30, 3)`; the next extraction returns item 1, which pays 15, and item 3,
whose bribe 30 - 35 is negative, stays in the pool. -/
theorem scenario_second_extraction :
    scenarioReconstructed =
      .ok ⟨35, [], [((30, -30, 3), tx3), ((50, -50, 1), tx1)],
        [((5, -30, 3), tx3), ((30, -50, 1), tx1)]⟩ ∧
    scenarioReconstructed.map (fun r => decide (r.sbst_dynamic.Holds tx1 ∧
      r.sbst_dynamic.Holds tx3 ∧ ¬ r.sbst_static.Holds tx1 ∧ ¬ r.sbst_static.Holds tx3)) =
      .ok true ∧
    scenarioSecond = .ok (tx1, ⟨35, [], [((30, -30, 3), tx3)], [((5, -30, 3), tx3)]⟩) ∧
    scenarioSecond.map Prod.fst = .ok tx1 ∧ tx1.miner_bribe 35 = 15 ∧
    tx3.miner_bribe 35 = 30 - 35 ∧ tx3.miner_bribe 35 < 0 ∧
    scenarioSecond.map (fun r => r.2.sbst_dynamic) = .ok [(dynamicKey tx3, tx3)] := by
  decide

/-- C9. On a well-formed pool with pairwise distinct hashes `reconstruct`
succeeds, leaves `sbst_decision` (and so `size()`) as it was, keeps the
transactions of `sbst_static` and `sbst_dynamic` taken together, and sets
`base_fee` to the new base fee. -/
theorem reconstruct_keeps_decision (p : FastTxPool) (hwf : p.WF) (hd : p.DistinctHashes)
    (new_base_fee : Int) :
    ∃ q, p.reconstruct new_base_fee = .ok q ∧ q.sbst_decision = p.sbst_decision ∧
      q.size = p.size ∧
      (∀ t, q.sbst_static.Holds t ∨ q.sbst_dynamic.Holds t ↔
        p.sbst_static.Holds t ∨ p.sbst_dynamic.Holds t) ∧
      q.base_fee = new_base_fee := by
  obtain ⟨q, g, L, hq, ⟨hl, hdec, hbf, _, _⟩, _⟩ := hwf.reconstruct_refiles hd new_base_fee
  refine ⟨q, hq, hdec, ?_, ?_, hbf⟩
  · unfold FastTxPool.size
    rw [hdec]
  · intro t
    have h1 := hl.held_iff t
    have h2 := hwf.linked.held_iff t
    unfold FastTxPool.Held at h1 h2
    rw [← h1, ← h2, hdec]

/-- Witness of C9 on the pool of the scenario, with the base fee raised to 35. -/
theorem reconstruct_keeps_decision_witness :
    scenario0.WF ∧ scenario0.DistinctHashes ∧
    ∃ q, scenario0.reconstruct 35 = .ok q ∧ q.sbst_decision = scenario0.sbst_decision ∧
      q.size = scenario0.size ∧
      (∀ t, q.sbst_static.Holds t ∨ q.sbst_dynamic.Holds t ↔
        scenario0.sbst_static.Holds t ∨ scenario0.sbst_dynamic.Holds t) ∧
      q.base_fee = 35 :=
  ⟨by decide, by decide, reconstruct_keeps_decision scenario0 (by decide) (by decide) 35⟩

/-- C10. Extraction fails exactly on the empty pool: with `size() == 0` the
assertion fails, and on a well-formed pool with `size() > 0` the call returns a
transaction that was held; so for FastTxPool and for NaiveTxPool. -/
theorem pop_fails_exactly_on_empty (p : FastTxPool) (n : NaiveTxPool) :
    (p.size = 0 → p.pop_most_profitable_tx = .error .assertion) ∧
    (p.WF → 0 < p.size → ∃ w q, p.pop_most_profitable_tx = .ok (w, q) ∧ p.Held w) ∧
    (n.size = 0 → n.pop_most_profitable_tx = .error .assertion) ∧
    (n.WF → 0 < n.size → ∃ w q, n.pop_most_profitable_tx = .ok (w, q) ∧ n.Held w) := by
  refine ⟨?_, ?_, ?_, ?_⟩
  · intro h
    unfold FastTxPool.size at h
    simp [FastTxPool.pop_most_profitable_tx, h]
  · intro hwf hne
    obtain ⟨w, q, hpop, hwin, _⟩ := hwf.pop_winner (Nat.pos_iff_ne_zero.1 hne)
    exact ⟨w, q, hpop, hwin.held hwf.linked⟩
  · intro h
    unfold NaiveTxPool.size at h
    have : n.sbst = [] := List.length_eq_zero.1 h
    simp [NaiveTxPool.pop_most_profitable_tx, this]
  · intro hwf hne
    obtain ⟨w, q, hpop, hheld, _⟩ := hwf.pop_last (Nat.pos_iff_ne_zero.1 hne)
    exact ⟨w, q, hpop, hheld⟩

/-- Witness of C10 on the empty pools and on the pools of the scenario. -/
theorem pop_fails_exactly_on_empty_witness :
    ((FastTxPool.empty 10).size = 0 ∧ (NaiveTxPool.empty 10).size = 0 ∧
      (FastTxPool.empty 10).pop_most_profitable_tx = .error .assertion ∧
      (NaiveTxPool.empty 10).pop_most_profitable_tx = .error .assertion) ∧
    (scenario0.WF ∧ 0 < scenario0.size ∧ tieCapNaive.WF ∧ 0 < tieCapNaive.size ∧
      (∃ w q, scenario0.pop_most_profitable_tx = .ok (w, q) ∧ scenario0.Held w) ∧
      (∃ w q, tieCapNaive.pop_most_profitable_tx = .ok (w, q) ∧ tieCapNaive.Held w)) :=
  have h1 := pop_fails_exactly_on_empty (FastTxPool.empty 10) (NaiveTxPool.empty 10)
  have h2 := pop_fails_exactly_on_empty scenario0 tieCapNaive
  ⟨⟨by decide, by decide, h1.1 (by decide), h1.2.2.1 (by decide)⟩,
    by decide, by decide, by decide, by decide,
    h2.2.1 (by decide) (by decide), h2.2.2.2 (by decide) (by decide)⟩

/-- C11. Extraction removes exactly the winner: on a well-formed non-empty
FastTxPool the call returns a transaction `w` that afterwards is in none of the
three maps, every other transaction is in a map afterwards exactly when it was
before, `size()` has gone down by one and `base_fee` is unchanged. -/
theorem pop_removes_exactly_winner (p : FastTxPool) (hwf : p.WF) (hne : 0 < p.size) :
    ∃ w q, p.pop_most_profitable_tx = .ok (w, q) ∧ p.Held w ∧
      ¬ q.sbst_static.Holds w ∧ ¬ q.sbst_dynamic.Holds w ∧ ¬ q.sbst_decision.Holds w ∧
      (∀ t, t ≠ w →
        (q.sbst_static.Holds t ↔ p.sbst_static.Holds t) ∧
        (q.sbst_dynamic.Holds t ↔ p.sbst_dynamic.Holds t) ∧
        (q.sbst_decision.Holds t ↔ p.sbst_decision.Holds t)) ∧
      q.size + 1 = p.size ∧ q.base_fee = p.base_fee := by
  obtain ⟨w, q, hpop, hwin, _, hbf, hS, hD, hDec, hlen⟩ :=
    hwf.pop_winner (Nat.pos_iff_ne_zero.1 hne)
  refine ⟨w, q, hpop, hwin.held hwf.linked, ?_, ?_, ?_, ?_, hlen, hbf⟩
  · exact fun h => ((hS w).1 h).2 rfl
  · exact fun h => ((hD w).1 h).2 rfl
  · exact fun h => ((hDec w).1 h).2 rfl
  · intro t ht
    refine ⟨?_, ?_, ?_⟩
    · rw [hS]; exact and_iff_left ht
    · rw [hD]; exact and_iff_left ht
    · rw [hDec]; exact and_iff_left ht

/-- Witness of C11 on the pool of the scenario. -/
theorem pop_removes_exactly_winner_witness :
    scenario0.WF ∧ 0 < scenario0.size ∧
    ∃ w q, scenario0.pop_most_profitable_tx = .ok (w, q) ∧ scenario0.Held w ∧
      ¬ q.sbst_static.Holds w ∧ ¬ q.sbst_dynamic.Holds w ∧ ¬ q.sbst_decision.Holds w ∧
      (∀ t, t ≠ w →
        (q.sbst_static.Holds t ↔ scenario0.sbst_static.Holds t) ∧
        (q.sbst_dynamic.Holds t ↔ scenario0.sbst_dynamic.Holds t) ∧
        (q.sbst_decision.Holds t ↔ scenario0.sbst_decision.Holds t)) ∧
      q.size + 1 = scenario0.size ∧ q.base_fee = scenario0.base_fee :=
  ⟨by decide, by decide, pop_removes_exactly_winner scenario0 (by decide) (by decide)⟩

/-- C12. Insert effect: on a well-formed FastTxPool, for a transaction whose
hash no held transaction has, `add_tx` puts the entry
`(max_miner_bribe, -fee_cap, hash)` into `sbst_static` exactly when
`fee_cap - base_fee >= max_miner_bribe` and the entry `(fee_cap, -fee_cap, hash)`
into `sbst_dynamic` exactly when not, puts the entry
`(fee_cap - max_miner_bribe, -fee_cap, hash)` into `sbst_decision`, raises
`size()` by one and leaves the other entries of the three maps and `base_fee`
as they were. -/
theorem add_tx_effect (p : FastTxPool) (tx : Tx) (hwf : p.WF)
    (hfresh : ∀ e ∈ p.sbst_decision, e.2.hash ≠ tx.hash) :
    (((tx.max_miner_bribe, -tx.fee_cap, tx.hash), tx) ∈ (p.add_tx tx).sbst_static ↔
      tx.fee_cap - p.base_fee ≥ tx.max_miner_bribe) ∧
    (((tx.fee_cap, -tx.fee_cap, tx.hash), tx) ∈ (p.add_tx tx).sbst_dynamic ↔
      ¬ tx.fee_cap - p.base_fee ≥ tx.max_miner_bribe) ∧
    ((tx.fee_cap - tx.max_miner_bribe, -tx.fee_cap, tx.hash), tx) ∈ (p.add_tx tx).sbst_decision ∧
    (p.add_tx tx).size = p.size + 1 ∧
    (∀ e, e ∈ (p.add_tx tx).sbst_static ↔
      e ∈ p.sbst_static ∨
        (e = ((tx.max_miner_bribe, -tx.fee_cap, tx.hash), tx) ∧
          tx.fee_cap - p.base_fee ≥ tx.max_miner_bribe)) ∧
    (∀ e, e ∈ (p.add_tx tx).sbst_dynamic ↔
      e ∈ p.sbst_dynamic ∨
        (e = ((tx.fee_cap, -tx.fee_cap, tx.hash), tx) ∧
          ¬ tx.fee_cap - p.base_fee ≥ tx.max_miner_bribe)) ∧
    (∀ e, e ∈ (p.add_tx tx).sbst_decision ↔
      e ∈ p.sbst_decision ∨ e = ((tx.fee_cap - tx.max_miner_bribe, -tx.fee_cap, tx.hash), tx)) ∧
    (p.add_tx tx).base_fee = p.base_fee := by
  obtain ⟨hks, hkd, hkdec⟩ := hwf.linked.fresh_keys hfresh
  have hns : ((tx.max_miner_bribe, -tx.fee_cap, tx.hash), tx) ∉ p.sbst_static :=
    fun h => hks ⟨_, h, rfl⟩
  have hnd : ((tx.fee_cap, -tx.fee_cap, tx.hash), tx) ∉ p.sbst_dynamic :=
    fun h => hkd ⟨_, h, rfl⟩
  have hS : ∀ e, e ∈ p.sbst_static.emplace (staticKey tx) tx ↔
      e = (staticKey tx, tx) ∨ e ∈ p.sbst_static := TxMap.mem_emplace_iff hks
  have hD : ∀ e, e ∈ p.sbst_dynamic.emplace (dynamicKey tx) tx ↔
      e = (dynamicKey tx, tx) ∨ e ∈ p.sbst_dynamic := TxMap.mem_emplace_iff hkd
  have hDec : ∀ e, e ∈ p.sbst_decision.emplace (decisionKey tx) tx ↔
      e = (decisionKey tx, tx) ∨ e ∈ p.sbst_decision := TxMap.mem_emplace_iff hkdec
  have hlen : (p.sbst_decision.emplace (decisionKey tx) tx).length =
      p.sbst_decision.length + 1 := TxMap.emplace_length hkdec
  by_cases hc : tx.fee_cap - p.base_fee ≥ tx.max_miner_bribe
  · rw [FastTxPool.add_tx_capped hc]
    refine ⟨?_, ?_, ?_, hlen, ?_, ?_, ?_, rfl⟩
    · exact iff_of_true ((hS _).2 (Or.inl rfl)) hc
    · exact iff_of_false hnd (not_not.2 hc)
    · exact (hDec _).2 (Or.inl rfl)
    · intro e
      show e ∈ p.sbst_static.emplace (staticKey tx) tx ↔ _
      rw [hS e]
      constructor
      · rintro (h | h)
        · exact Or.inr ⟨h, hc⟩
        · exact Or.inl h
      · rintro (h | h)
        · exact Or.inr h
        · exact Or.inl h.1
    · intro e
      show e ∈ p.sbst_dynamic ↔ _
      constructor
      · exact Or.inl
      · rintro (h | h)
        · exact h
        · exact absurd hc h.2
    · intro e
      show e ∈ p.sbst_decision.emplace (decisionKey tx) tx ↔ _
      rw [hDec e]
      exact or_comm
  · rw [FastTxPool.add_tx_uncapped hc]
    refine ⟨?_, ?_, ?_, hlen, ?_, ?_, ?_, rfl⟩
    · exact iff_of_false hns hc
    · exact iff_of_true ((hD _).2 (Or.inl rfl)) hc
    · exact (hDec _).2 (Or.inl rfl)
    · intro e
      show e ∈ p.sbst_static ↔ _
      constructor
      · exact Or.inl
      · rintro (h | h)
        · exact h
        · exact absurd h.2 hc
    · intro e
      show e ∈ p.sbst_dynamic.emplace (dynamicKey tx) tx ↔ _
      rw [hD e]
      constructor
      · rintro (h | h)
        · exact Or.inr ⟨h, hc⟩
        · exact Or.inl h
      · rintro (h | h)
        · exact Or.inr h
        · exact Or.inl h.1
    · intro e
      show e ∈ p.sbst_decision.emplace (decisionKey tx) tx ↔ _
      rw [hDec e]
      exact or_comm

/-- Witness of C12: item 3 of the scenario added to the pool holding items 1
and 2. -/
theorem add_tx_effect_witness :
    FastTxPool.WF (((FastTxPool.empty 10).add_tx tx1).add_tx tx2) ∧
    (((tx3.max_miner_bribe, -tx3.fee_cap, tx3.hash), tx3) ∈ scenario0.sbst_static ↔
      tx3.fee_cap - 10 ≥ tx3.max_miner_bribe) ∧
    ((tx3.fee_cap, -tx3.fee_cap, tx3.hash), tx3) ∈ scenario0.sbst_dynamic ∧
    scenario0.size = 3 :=
  have h := add_tx_effect (((FastTxPool.empty 10).add_tx tx1).add_tx tx2) tx3 (by decide)
    (by decide)
  ⟨by decide, h.1, h.2.1.2 (by decide), h.2.2.2.1⟩

/-- C13. Idempotent no-op: on every state, `reconstruct` with the current base
fee succeeds and leaves the three maps and `base_fee` exactly as they were. -/
theorem reconstruct_same_base_fee (p : FastTxPool) : p.reconstruct p.base_fee = .ok p := by
  simp [FastTxPool.reconstruct]

/-- C14. Reward and regime rule: `miner_bribe(base_fee)` is
`min(fee_cap - base_fee, max_miner_bribe)`; the test
`fee_cap - base_fee >= max_miner_bribe` holds exactly when
`base_fee <= fee_cap - max_miner_bribe`, and then the bribe is
`max_miner_bribe`; otherwise it is `fee_cap - base_fee`, and of two base fees
above `fee_cap - max_miner_bribe` the larger gives the strictly smaller
bribe. -/
theorem miner_bribe_rule (tx : Tx) (base_fee p q : Int) :
    tx.miner_bribe base_fee = min (tx.fee_cap - base_fee) tx.max_miner_bribe ∧
    (tx.fee_cap - base_fee ≥ tx.max_miner_bribe ↔
      base_fee ≤ tx.fee_cap - tx.max_miner_bribe) ∧
    (tx.fee_cap - base_fee ≥ tx.max_miner_bribe →
      tx.miner_bribe base_fee = tx.max_miner_bribe) ∧
    (¬ tx.fee_cap - base_fee ≥ tx.max_miner_bribe →
      tx.miner_bribe base_fee = tx.fee_cap - base_fee) ∧
    (p < q → tx.fee_cap - tx.max_miner_bribe < p → tx.fee_cap - tx.max_miner_bribe < q →
      tx.miner_bribe q < tx.miner_bribe p) := by
  unfold Tx.miner_bribe
  refine ⟨rfl, ?_, ?_, ?_, ?_⟩ <;> omega

/-- Witness of C14 on item 3 of the scenario at base fees 10 and 35. -/
theorem miner_bribe_rule_witness :
    tx3.miner_bribe 10 = 20 ∧ tx3.miner_bribe 35 = -5 ∧ tx3.miner_bribe 35 < tx3.miner_bribe 10 :=
  have h := miner_bribe_rule tx3 10 10 35
  ⟨h.2.2.2.1 (by decide), by decide, h.2.2.2.2 (by decide) (by decide) (by decide)⟩

/-- C18. Actual winner under ties: on a well-formed non-empty FastTxPool the
extraction returns the last entry of `sbst_dynamic` whenever there is one and
it pays at least as much as the last entry of `sbst_static` (if any), and
otherwise the last entry of `sbst_static`.  The last entry of a map has its
largest key and pays most in it; in `sbst_static` it has the largest
`max_miner_bribe`, then the smallest `fee_cap`, then the largest hash.  In a
tie across the maps the Capped transaction has `fee_cap` at least that of the
other. -/
theorem pop_actual_winner (p : FastTxPool) (hwf : p.WF) (hne : 0 < p.size) :
    ∃ w q, p.pop_most_profitable_tx = .ok (w, q) ∧
      (∀ d, p.sbst_dynamic.getLast? = some d →
        (∀ s, p.sbst_static.getLast? = some s →
          s.2.miner_bribe p.base_fee ≤ d.2.miner_bribe p.base_fee) → w = d.2) ∧
      (∀ s, p.sbst_static.getLast? = some s →
        (∀ d, p.sbst_dynamic.getLast? = some d →
          d.2.miner_bribe p.base_fee < s.2.miner_bribe p.base_fee) → w = s.2) ∧
      (∀ d, p.sbst_dynamic.getLast? = some d → ∀ a ∈ p.sbst_dynamic,
        (a = d ∨ Key.lt a.1 d.1) ∧ a.2.miner_bribe p.base_fee ≤ d.2.miner_bribe p.base_fee) ∧
      (∀ s, p.sbst_static.getLast? = some s → ∀ a ∈ p.sbst_static,
        (a = s ∨ Key.lt a.1 s.1) ∧ a.2.miner_bribe p.base_fee ≤ s.2.miner_bribe p.base_fee ∧
        a.2.max_miner_bribe ≤ s.2.max_miner_bribe ∧
        (a.2.max_miner_bribe = s.2.max_miner_bribe → s.2.fee_cap ≤ a.2.fee_cap ∧
          (a.2.fee_cap = s.2.fee_cap → a.2.hash ≤ s.2.hash))) ∧
      (∀ s d, p.sbst_static.Holds s → p.sbst_dynamic.Holds d →
        s.miner_bribe p.base_fee = d.miner_bribe p.base_fee → d.fee_cap ≤ s.fee_cap) := by
  have hdyn : ∀ d, p.sbst_dynamic.getLast? = some d → ∀ a ∈ p.sbst_dynamic,
      (a = d ∨ Key.lt a.1 d.1) ∧
        a.2.miner_bribe p.base_fee ≤ d.2.miner_bribe p.base_fee := fun d hd a ha =>
    ⟨(TxMap.getLast_spec hwf.linked.dynamic_sorted hd).2.1 a ha,
      naiveLe_bribe (hwf.dynamic_last hd a.2 ⟨a, ha, rfl⟩)⟩
  have hstat : ∀ s, p.sbst_static.getLast? = some s → ∀ a ∈ p.sbst_static,
      (a = s ∨ Key.lt a.1 s.1) ∧ a.2.miner_bribe p.base_fee ≤ s.2.miner_bribe p.base_fee ∧
      a.2.max_miner_bribe ≤ s.2.max_miner_bribe ∧
      (a.2.max_miner_bribe = s.2.max_miner_bribe → s.2.fee_cap ≤ a.2.fee_cap ∧
        (a.2.fee_cap = s.2.fee_cap → a.2.hash ≤ s.2.hash)) := by
    intro s hs a ha
    have hsp := TxMap.getLast_spec hwf.linked.static_sorted hs
    have h1 := hsp.2.1 a ha
    refine ⟨h1, naiveLe_bribe (hwf.static_last hs a.2 ⟨a, ha, rfl⟩), ?_⟩
    rcases h1 with h1 | h1
    · rw [h1]
      exact ⟨le_refl _, fun _ => ⟨le_refl _, fun _ => le_refl _⟩⟩
    · rw [hwf.linked.static_key a ha, hwf.linked.static_key s hsp.1] at h1
      unfold Key.lt staticKey at h1
      simp only at h1
      omega
  have htie : ∀ s d, p.sbst_static.Holds s → p.sbst_dynamic.Holds d →
      s.miner_bribe p.base_fee = d.miner_bribe p.base_fee → d.fee_cap ≤ s.fee_cap := by
    rintro s d ⟨a, ha, rfl⟩ ⟨c, hc, rfl⟩ hb
    have h1 := hwf.regime.static_capped a ha
    have h2 := hwf.regime.dynamic_uncapped c hc
    rw [Tx.miner_bribe_capped h1, Tx.miner_bribe_uncapped h2] at hb
    unfold Tx.capped at h1
    omega
  rcases FastTxPool.pop_cases hwf.linked (Nat.pos_iff_ne_zero.1 hne) with
    ⟨e, r, he, hwin, _, hpop⟩ | ⟨e, r, he, hwin, _, hpop⟩
  · refine ⟨e.2, _, hpop, ?_, ?_, hdyn, hstat, htie⟩
    · intro d hd hle
      have h1 := hwin d hd
      have h2 := hle e he
      omega
    · intro s hs _
      rw [he] at hs
      cases hs
      rfl
  · refine ⟨e.2, _, hpop, ?_, ?_, hdyn, hstat, htie⟩
    · intro d hd _
      rw [he] at hd
      cases hd
      rfl
    · intro s hs hlt
      have h1 := hwin s hs
      have h2 := hlt e he
      omega

/-- Witness of C18 on the pool of the scenario. -/
theorem pop_actual_winner_witness :
    scenario0.WF ∧ 0 < scenario0.size ∧
    ∃ w q, scenario0.pop_most_profitable_tx = .ok (w, q) ∧
      (∀ d, scenario0.sbst_dynamic.getLast? = some d →
        (∀ s, scenario0.sbst_static.getLast? = some s →
          s.2.miner_bribe scenario0.base_fee ≤ d.2.miner_bribe scenario0.base_fee) → w = d.2) ∧
      (∀ s, scenario0.sbst_static.getLast? = some s →
        (∀ d, scenario0.sbst_dynamic.getLast? = some d →
          d.2.miner_bribe scenario0.base_fee < s.2.miner_bribe scenario0.base_fee) → w = s.2) :=
  have h := pop_actual_winner scenario0 (by decide) (by decide)
  ⟨by decide, by decide, h.elim fun w hw => hw.elim fun q hq => ⟨w, q, hq.1, hq.2.1, hq.2.2.1⟩⟩

/-- C16. Lookups never miss: in every reachable state `reconstruct` succeeds for
every new base fee, an extraction with `size() > 0` succeeds, and no call ends
in the undefined behaviour of erasing a `find` that missed or of reading
`rbegin()` of an empty map. -/
theorem reachable_lookups_hit (p : FastTxPool) (h : p.Reachable) :
    (∀ new_base_fee, ∃ q, p.reconstruct new_base_fee = .ok q) ∧
    (0 < p.size → ∃ w q, p.pop_most_profitable_tx = .ok (w, q)) ∧
    (∀ new_base_fee, p.reconstruct new_base_fee ≠ .error .undefined) ∧
    p.pop_most_profitable_tx ≠ .error .undefined := by
  obtain ⟨hwf, hd, hc⟩ := h.invariant
  have h1 : ∀ b, ∃ q, p.reconstruct b = .ok q := fun b =>
    (hwf.reconstruct_flips hd hc b).imp fun q hq => hq.1
  have h2 : 0 < p.size → ∃ w q, p.pop_most_profitable_tx = .ok (w, q) := fun hne =>
    (hwf.pop_winner (Nat.pos_iff_ne_zero.1 hne)).imp fun w hw => hw.imp fun q hq => hq.1
  refine ⟨h1, h2, ?_, ?_⟩
  · intro b hb
    obtain ⟨q, hq⟩ := h1 b
    rw [hq] at hb
    cases hb
  · intro hb
    by_cases hne : 0 < p.size
    · obtain ⟨w, q, hq⟩ := h2 hne
      rw [hq] at hb
      cases hb
    · have h0 : p.sbst_decision.length = 0 := by
        unfold FastTxPool.size at hne
        omega
      simp [FastTxPool.pop_most_profitable_tx, h0] at hb

/-- Witness of C16 on the scenario after the first extraction and
`reconstruct(35)`. -/
theorem reachable_lookups_hit_witness :
    0 < scenario2.size ∧ (∃ q, scenario2.reconstruct 3 = .ok q) ∧
      ∃ w q, scenario2.pop_most_profitable_tx = .ok (w, q) :=
  have h := reachable_lookups_hit scenario2 scenario2_reachable
  ⟨by decide, h.1 3, h.2.1 (by decide)⟩

/-- C19. Re-insertion round trip: on a well-formed non-empty pool, extracting a
transaction and adding it again restores exactly the previous state, so the
next extraction returns the same transaction and leaves the same state; so for
FastTxPool and for NaiveTxPool. -/
theorem pop_add_round_trip (p : FastTxPool) (n : NaiveTxPool) (hp : p.WF) (hn : n.WF)
    (hpne : 0 < p.size) (hnne : 0 < n.size) :
    (∃ w q, p.pop_most_profitable_tx = .ok (w, q) ∧ q.add_tx w = p ∧
      (q.add_tx w).pop_most_profitable_tx = .ok (w, q)) ∧
    (∃ w m, n.pop_most_profitable_tx = .ok (w, m) ∧ m.add_tx w = n ∧
      (m.add_tx w).pop_most_profitable_tx = .ok (w, m)) := by
  constructor
  · obtain ⟨w, q, hpop, hadd⟩ := hp.pop_add_tx (Nat.pos_iff_ne_zero.1 hpne)
    exact ⟨w, q, hpop, hadd, by rw [hadd]; exact hpop⟩
  · obtain ⟨w, m, hpop, hadd⟩ := hn.naive_pop_add_tx (Nat.pos_iff_ne_zero.1 hnne)
    exact ⟨w, m, hpop, hadd, by rw [hadd]; exact hpop⟩

/-- Witness of C19 on the pool of the scenario and on a NaiveTxPool with a
tie. -/
theorem pop_add_round_trip_witness :
    scenario0.WF ∧ tieCapNaive.WF ∧ 0 < scenario0.size ∧ 0 < tieCapNaive.size ∧
    (∃ w q, scenario0.pop_most_profitable_tx = .ok (w, q) ∧ q.add_tx w = scenario0 ∧
      (q.add_tx w).pop_most_profitable_tx = .ok (w, q)) ∧
    (∃ w m, tieCapNaive.pop_most_profitable_tx = .ok (w, m) ∧ m.add_tx w = tieCapNaive ∧
      (m.add_tx w).pop_most_profitable_tx = .ok (w, m)) :=
  ⟨by decide, by decide, by decide, by decide,
    pop_add_round_trip scenario0 tieCapNaive (by decide) (by decide) (by decide) (by decide)⟩

/-- C15. Incremental reclassification equals a rebuild from scratch: on a
well-formed pool with pairwise distinct hashes and every `fee_cap` below
`INT32_MAX`, `reconstruct` with any new base fee succeeds and its result, all
three maps and `base_fee`, is the state obtained from the empty pool at the new
base fee by `add_tx` of each held transaction, in any order. -/
theorem reconstruct_eq_rebuild (p : FastTxPool) (hwf : p.WF) (hd : p.DistinctHashes)
    (hc : p.CapsBelowMax) (p1 : Int) (l : List Tx)
    (hl : l.Perm (p.sbst_decision.map Prod.snd)) :
    p.reconstruct p1 = .ok (l.foldl FastTxPool.add_tx (FastTxPool.empty p1)) := by
  obtain ⟨q, hq, _, _, hbf, _⟩ := hwf.reconstruct_flips hd hc p1
  obtain ⟨hqwf, hdec⟩ := hwf.reconstruct_wf hd hc hq
  have hpw : l.Pairwise (fun a c => a.hash ≠ c.hash) :=
    (List.Perm.pairwise_iff (fun {a c} (h : a.hash ≠ c.hash) => h.symm) hl).2
      (hd.values_pairwise hwf.linked)
  obtain ⟨h1, h2, h3⟩ := FastTxPool.WF.foldl_add_tx l (FastTxPool.empty p1)
    (FastTxPool.empty_wf p1) hpw (fun t _ e he => by cases he)
  rw [hq]
  congr 1
  refine FastTxPool.WF.ext hqwf h1 (by rw [hbf, h2]; rfl) (fun t => ?_)
  rw [h3]
  unfold FastTxPool.Held
  rw [hdec, ← TxMap.mem_values, hl.mem_iff]
  simp [FastTxPool.empty, TxMap.Holds]

/-- Witness of C15 on the pool of the scenario, with the base fee raised to 35
and the held transactions added in the order of `sbst_decision`. -/
theorem reconstruct_eq_rebuild_witness :
    scenario0.WF ∧ scenario0.DistinctHashes ∧ scenario0.CapsBelowMax ∧
    scenario0.reconstruct 35 =
      .ok ([tx3, tx2, tx1].foldl FastTxPool.add_tx (FastTxPool.empty 35)) :=
  ⟨by decide, by decide, by decide,
    reconstruct_eq_rebuild scenario0 (by decide) (by decide) (by decide) 35 [tx3, tx2, tx1]
      (by decide)⟩

/-- C17. Same best reward as the naive pool: after every admissible sequence of
operations, in particular after every sequence of `add_tx` (fresh hashes,
`fee_cap` below `INT32_MAX`) and `reconstruct` calls, on an empty NaiveTxPool
and an empty FastTxPool, the two pools have the same size and base fee, and if
they are non-empty both extractions succeed and return transactions with the
same `miner_bribe` at the current base fee. -/
theorem naive_fast_same_best_bribe (base_fee : Int) (ops : List Op)
    (h : FastTxPool.admissible ops (FastTxPool.empty base_fee) = true) :
    ∃ p n, FastTxPool.after ops (FastTxPool.empty base_fee) = .ok p ∧
      NaiveTxPool.after ops (NaiveTxPool.empty base_fee) = .ok n ∧
      n.size = p.size ∧ n.base_fee = p.base_fee ∧
      (0 < p.size → ∃ w q v m, p.pop_most_profitable_tx = .ok (w, q) ∧
        n.pop_most_profitable_tx = .ok (v, m) ∧
        w.miner_bribe p.base_fee = v.miner_bribe n.base_fee) := by
  obtain ⟨p, n, hp, hn, hsim⟩ := Sim.after_agree ops _ _ (Sim.empty base_fee) h
  exact ⟨p, n, hp, hn, hsim.size_eq, hsim.base_fee, hsim.pop_same_bribe⟩

/-- Witness of C17 on insertions and changes of the base fee. -/
theorem naive_fast_same_best_bribe_witness :
    Op.pop ∉ insertOps ∧ FastTxPool.admissible insertOps (FastTxPool.empty 10) = true ∧
    ∃ p n, FastTxPool.after insertOps (FastTxPool.empty 10) = .ok p ∧
      NaiveTxPool.after insertOps (NaiveTxPool.empty 10) = .ok n ∧
      n.size = p.size ∧ n.base_fee = p.base_fee ∧
      (0 < p.size → ∃ w q v m, p.pop_most_profitable_tx = .ok (w, q) ∧
        n.pop_most_profitable_tx = .ok (v, m) ∧
        w.miner_bribe p.base_fee = v.miner_bribe n.base_fee) :=
  ⟨by decide, by decide, naive_fast_same_best_bribe 10 insertOps (by decide)⟩

end Eip1559
